import Mathlib

/-!
# Verification of the Crossworder constraint-satisfaction engine

This file is a shallow embedding, in Lean 4, of the crossword-solver core of
the Crossworder repository (`script.js`): slot extraction from the grid,
overlap-constraint construction, domain initialization, the AC-3 arc
consistency pass, and the recursive backtracking search with forward checking.

Modelling conventions:
* JS objects (string-keyed maps with insertion order) are association lists;
  `objSet` is JS property assignment (overwrite in place, else append) and
  `lookupA` is property lookup.
* JS strings are Lean `String`s; `word[i]` (which yields `undefined` out of
  range) is `charAt : String → Nat → Option Char`, so that the JS comparison
  `word1[i] === word2[j]` (true when both are `undefined`) is `Option`
  equality.
* `Math.random()`-driven choices are modelled by a stream of naturals carried
  in the solver state; `Math.floor(Math.random() * n)` draws the head of the
  stream modulo `n`.
* Loops become structural recursions or `foldl`s over the same iteration
  order; the unbounded `while` of AC-3 and the recursion of the backtracking
  search take a fuel parameter and return `none` when it is exhausted, so
  every `some` result agrees with the JS execution.
-/

namespace Crossworder

/-- Grid cell position `(row, col)`. -/
abbrev Pos := Nat × Nat

/-- The crossword grid as in the source: a matrix of cell strings (each cell
holds `"#"`, a number string, an uppercase letter, or a blank). -/
abbrev Grid := List (List String)

/-- `this.grid[r][c]`; out-of-range access is modelled by the empty string,
which like JS `undefined` is neither `"#"` nor digit- nor letter-bearing. -/
def cellAt (g : Grid) (r c : Nat) : String := (g.getD r []).getD c ""

/-- `this.grid.length`. -/
def gridRows (g : Grid) : Nat := g.length

/-- `this.grid[0].length`. -/
def gridCols (g : Grid) : Nat := (g.headD []).length

/-- An uppercase ASCII letter. -/
def isUpperChar (ch : Char) : Bool := 'A' ≤ ch && ch ≤ 'Z'

/-- JS `/[A-Z]/.test(val)`: the string contains an uppercase letter. -/
def containsUpper (s : String) : Bool := s.data.any isUpperChar

/-- JS `/\d/.test(val)`: the string contains a decimal digit. -/
def containsDigit (s : String) : Bool := s.data.any Char.isDigit

/-- JS `word[i]`: character access, `none` out of range (JS `undefined`). -/
def charAt (w : String) (i : Nat) : Option Char := w.data.get? i

/-- Association-list lookup: JS object property read. -/
def lookupA {α β : Type} [DecidableEq α] : List (α × β) → α → Option β
  | [], _ => none
  | (k', v) :: t, k => if k' = k then some v else lookupA t k

/-- JS object property assignment: overwrite the (first) existing binding in
place, otherwise append a new binding. -/
def objSet {α β : Type} [DecidableEq α] : List (α × β) → α → β → List (α × β)
  | [], k, v => [(k, v)]
  | (k', v') :: t, k, v => if k' = k then (k, v) :: t else (k', v') :: objSet t k v

/-- The key list (`Object.keys`). -/
def keysOf {α β : Type} (l : List (α × β)) : List α := l.map Prod.fst

/-- Domain lookup `this.domains[slot]` (callers only use existing keys). -/
def dGet (d : List (String × List String)) (s : String) : List String :=
  (lookupA d s).getD []

-- ----------------------------------------------------------------
-- Grid validation and slot extraction (`validateGrid`, `getSlotPositions`,
-- `generateSlots` of script.js)
-- ----------------------------------------------------------------

/-- `validateGrid`: the grid is non-empty and rectangular. -/
def validateGrid (g : Grid) : Bool :=
  !(g.length = 0) && (g.drop 1).all (fun row => row.length = gridCols g)

/-- Slot direction. -/
inductive Dir | across | down
deriving DecidableEq, Repr

/-- The `getSlotPositions` while-loop, structurally recursive on a step
bound that the wrapper instantiates so it can never be exhausted (the walk
moves toward the boundary each step). -/
def getSlotPositionsGo (g : Grid) (dir : Dir) : Nat → Nat → Nat → List Pos
  | 0, _, _ => []
  | fuel + 1, r, c =>
    if r < gridRows g ∧ c < gridCols g ∧ cellAt g r c ≠ "#" then
      match dir with
      | .across => (r, c) :: getSlotPositionsGo g dir fuel r (c + 1)
      | .down => (r, c) :: getSlotPositionsGo g dir fuel (r + 1) c
    else []

/-- `getSlotPositions`: walk from `(r, c)` in direction `dir`, collecting
positions while inside the grid and not on a block. -/
def getSlotPositions (g : Grid) (r c : Nat) (dir : Dir) : List Pos :=
  getSlotPositionsGo g dir ((gridRows g - r) + (gridCols g - c) + 1) r c

theorem getSlotPositionsGo_fuel {g : Grid} {dir : Dir} :
    ∀ (fuel fuel' r c : Nat),
      (gridRows g - r) + (gridCols g - c) < fuel →
      (gridRows g - r) + (gridCols g - c) < fuel' →
      getSlotPositionsGo g dir fuel r c = getSlotPositionsGo g dir fuel' r c := by
  intro fuel
  induction fuel with
  | zero => intro fuel' r c h _; omega
  | succ f ih =>
    intro fuel' r c h h'
    cases fuel' with
    | zero => omega
    | succ f' =>
      show (if r < gridRows g ∧ c < gridCols g ∧ cellAt g r c ≠ "#" then _ else _) =
        (if r < gridRows g ∧ c < gridCols g ∧ cellAt g r c ≠ "#" then _ else _)
      by_cases hc : r < gridRows g ∧ c < gridCols g ∧ cellAt g r c ≠ "#"
      · rw [if_pos hc, if_pos hc]
        cases dir with
        | across =>
          have := ih f' r (c + 1) (by omega) (by omega)
          simpa using this
        | down =>
          have := ih f' (r + 1) c (by omega) (by omega)
          simpa using this
      · rw [if_neg hc, if_neg hc]

/-- The loop equation of `getSlotPositions`: collect the current in-range,
non-block cell and continue one step in the walking direction. -/
theorem getSlotPositions_unfold (g : Grid) (r c : Nat) (dir : Dir) :
    getSlotPositions g r c dir =
      if r < gridRows g ∧ c < gridCols g ∧ cellAt g r c ≠ "#" then
        match dir with
        | .across => (r, c) :: getSlotPositions g r (c + 1) .across
        | .down => (r, c) :: getSlotPositions g (r + 1) c .down
      else [] := by
  show getSlotPositionsGo g dir ((gridRows g - r) + (gridCols g - c) + 1) r c = _
  show (if r < gridRows g ∧ c < gridCols g ∧ cellAt g r c ≠ "#" then _ else _) = _
  by_cases hc : r < gridRows g ∧ c < gridCols g ∧ cellAt g r c ≠ "#"
  · rw [if_pos hc, if_pos hc]
    cases dir with
    | across =>
      show (r, c) :: getSlotPositionsGo g Dir.across ((gridRows g - r) + (gridCols g - c)) r
          (c + 1) = (r, c) :: getSlotPositions g r (c + 1) Dir.across
      rw [getSlotPositionsGo_fuel ((gridRows g - r) + (gridCols g - c))
        ((gridRows g - r) + (gridCols g - (c + 1)) + 1) r (c + 1) (by omega) (by omega)]
      rfl
    | down =>
      show (r, c) :: getSlotPositionsGo g Dir.down ((gridRows g - r) + (gridCols g - c)) (r + 1)
          c = (r, c) :: getSlotPositions g (r + 1) c Dir.down
      rw [getSlotPositionsGo_fuel ((gridRows g - r) + (gridCols g - c))
        ((gridRows g - (r + 1)) + (gridCols g - c) + 1) (r + 1) c (by omega) (by omega)]
      rfl
  · rw [if_neg hc, if_neg hc]

/-- The slot map type: `this.slots`. -/
abbrev SlotMap := List (String × List Pos)

/-- Row-major scan order of the grid cells. -/
def scanOrder (g : Grid) : List Pos :=
  (List.range (gridRows g)).flatMap (fun r => (List.range (gridCols g)).map (fun c => (r, c)))

/-- One step of the `generateSlots` scan at cell `p`: if the cell is numbered,
emit the across slot (when the left neighbor is the boundary or a block and
the collected run has length ≥ 2) and independently the down slot. -/
def slotStep (g : Grid) (m : SlotMap) (p : Pos) : SlotMap :=
  let val := cellAt g p.1 p.2
  if containsDigit val then
    let m1 :=
      if p.2 = 0 ∨ cellAt g p.1 (p.2 - 1) = "#" then
        let positions := getSlotPositions g p.1 p.2 .across
        if 2 ≤ positions.length then objSet m (val ++ "ACROSS") positions else m
      else m
    if p.1 = 0 ∨ cellAt g (p.1 - 1) p.2 = "#" then
      let positions := getSlotPositions g p.1 p.2 .down
      if 2 ≤ positions.length then objSet m1 (val ++ "DOWN") positions else m1
    else m1
  else m

/-- `generateSlots` (the slot-discovery part): row-major scan emitting across
and down slots. -/
def generateSlots (g : Grid) : SlotMap := (scanOrder g).foldl (slotStep g) []

/-- `this.cellContents` as a map from position to pre-filled letter: the scan
in `generateSlots` stores `val` exactly for the in-range cells matching
`/[A-Z]/` (cells stored as `null` and absent keys are merged into `none`,
which is equivalent for every use site since both are falsy). -/
def cellContentsOf (g : Grid) : Pos → Option String := fun p =>
  if p.1 < gridRows g ∧ p.2 < gridCols g ∧ containsUpper (cellAt g p.1 p.2) then
    some (cellAt g p.1 p.2)
  else none

-- ----------------------------------------------------------------
-- Constraint construction (`generateConstraints` of script.js)
-- ----------------------------------------------------------------

/-- Overlap index pairs `(idxA, idxB)`. -/
abbrev Overlaps := List (Nat × Nat)

/-- `this.constraints`: a nested map `slotA → slotB → overlap list`. -/
abbrev CMap := List (String × List (String × Overlaps))

/-- `this.constraints[a][b]`. -/
def cGet (cm : CMap) (a b : String) : Option Overlaps :=
  (lookupA cm a).bind (fun inner => lookupA inner b)

/-- Push an overlap pair onto `inner[b]`, creating the entry if absent. -/
def pushInner (inner : List (String × Overlaps)) (b : String) (p : Nat × Nat) :
    List (String × Overlaps) :=
  match lookupA inner b with
  | some ov => objSet inner b (ov ++ [p])
  | none => inner ++ [(b, [p])]

/-- Push an overlap pair onto `cm[a][b]`, creating entries if absent: the
`if (!this.constraints[slotA]) ...` / push sequence of the source. -/
def pushPair (cm : CMap) (a b : String) (p : Nat × Nat) : CMap :=
  match lookupA cm a with
  | some inner => objSet cm a (pushInner inner b p)
  | none => cm ++ [(a, pushInner [] b p)]

/-- One overlapping pair discovered at a shared cell: slot names and the
indices of the shared cell within each slot. -/
structure OverlapEntry where
  slotA : String
  idxA : Nat
  slotB : String
  idxB : Nat
deriving DecidableEq, Repr

/-- Record an overlap in both directions, with indices swapped. -/
def addConstraintPair (cm : CMap) (e : OverlapEntry) : CMap :=
  pushPair (pushPair cm e.slotA e.slotB (e.idxA, e.idxB)) e.slotB e.slotA (e.idxB, e.idxA)

/-- `positionMap`: cell → list of `(slot, index)` entries covering it. -/
abbrev PosMap := List (Pos × List (String × Nat))

/-- Append one `(slot, idx)` entry at cell `p`. -/
def pushPM (m : PosMap) (p : Pos) (e : String × Nat) : PosMap :=
  match lookupA m p with
  | some l => objSet m p (l ++ [e])
  | none => m ++ [(p, [e])]

/-- Build `positionMap` by walking every slot's positions with their indices. -/
def buildPositionMap (slots : SlotMap) : PosMap :=
  slots.foldl (fun m sp => sp.2.enum.foldl (fun m' ip => pushPM m' ip.2 (sp.1, ip.1)) m) []

/-- All ordered pairs `i < j` over one cell's entry list (the nested loop of
the source; a singleton entry list yields no pair, like the `length > 1`
guard). -/
def cellPairs : List (String × Nat) → List OverlapEntry
  | [] => []
  | (s, i) :: rest => rest.map (fun e => ⟨s, i, e.1, e.2⟩) ++ cellPairs rest

/-- All overlap pairs emitted by the `generateConstraints` loops, in order. -/
def overlapEntries (slots : SlotMap) : List OverlapEntry :=
  (buildPositionMap slots).flatMap (fun pe => cellPairs pe.2)

/-- `generateConstraints`: fold every discovered overlap into the nested map,
recording both directions. -/
def generateConstraints (slots : SlotMap) : CMap :=
  (overlapEntries slots).foldl addConstraintPair []

-- ----------------------------------------------------------------
-- Association-map lemmas
-- ----------------------------------------------------------------

theorem lookupA_objSet_self {α β : Type} [DecidableEq α] (l : List (α × β)) (k : α) (v : β) :
    lookupA (objSet l k v) k = some v := by
  induction l with
  | nil => simp [objSet, lookupA]
  | cons h t ih =>
    by_cases hk : h.1 = k
    · simp [objSet, hk, lookupA]
    · simpa [objSet, hk, lookupA] using ih

theorem lookupA_objSet_ne {α β : Type} [DecidableEq α] (l : List (α × β)) (k k' : α) (v : β)
    (hne : k' ≠ k) : lookupA (objSet l k v) k' = lookupA l k' := by
  induction l with
  | nil => simp [objSet, lookupA, Ne.symm hne]
  | cons h t ih =>
    by_cases hk : h.1 = k
    · subst hk
      simp only [objSet, if_pos rfl, lookupA]
      rw [if_neg (Ne.symm hne), if_neg (Ne.symm hne)]
    · by_cases hk' : h.1 = k'
      · simp [objSet, hk, lookupA, hk', hne]
      · simp [objSet, hk, lookupA, hk', ih]

theorem lookupA_append {α β : Type} [DecidableEq α] (l₁ l₂ : List (α × β)) (k : α) :
    lookupA (l₁ ++ l₂) k =
      match lookupA l₁ k with
      | some v => some v
      | none => lookupA l₂ k := by
  induction l₁ with
  | nil => simp [lookupA]
  | cons h t ih =>
    by_cases hk : h.1 = k
    · simp [lookupA, hk]
    · simpa [lookupA, hk] using ih

theorem keysOf_objSet_mem {α β : Type} [DecidableEq α] (l : List (α × β)) (k : α) (v : β)
    (hk : k ∈ keysOf l) : keysOf (objSet l k v) = keysOf l := by
  induction l with
  | nil => simp [keysOf] at hk
  | cons h t ih =>
    by_cases hh : h.1 = k
    · simp [objSet, hh, keysOf]
    · have hk' : k ∈ keysOf t := by
        rcases (by simpa [keysOf] using hk) with h1 | h1
        · exact absurd h1.symm hh
        · simpa [keysOf] using h1
      simp [objSet, hh, keysOf]
      simpa [keysOf] using ih hk'

theorem lookupA_isSome_iff_mem_keys {α β : Type} [DecidableEq α] (l : List (α × β)) (k : α) :
    (lookupA l k).isSome = true ↔ k ∈ keysOf l := by
  induction l with
  | nil => simp [lookupA, keysOf]
  | cons h t ih =>
    by_cases hk : h.1 = k
    · simp [lookupA, hk, keysOf]
    · simp [lookupA, hk, keysOf, ih, Ne.symm hk]

-- ----------------------------------------------------------------
-- `pushPair` lookup characterization and constraint symmetry (claim C5)
-- ----------------------------------------------------------------

theorem lookupA_pushInner (inner : List (String × Overlaps)) (b y : String) (p : Nat × Nat) :
    lookupA (pushInner inner b p) y =
      if y = b then some ((lookupA inner b).getD [] ++ [p]) else lookupA inner y := by
  unfold pushInner
  by_cases hy : y = b
  · subst hy
    cases hov : lookupA inner y with
    | some ov => simp [hov, lookupA_objSet_self]
    | none => simp [hov, lookupA_append, lookupA]
  · cases hov : lookupA inner b with
    | some ov => simp [hy, lookupA_objSet_ne _ _ _ _ hy]
    | none =>
      simp only [if_neg hy, lookupA_append]
      cases h2 : lookupA inner y with
      | some v => simp
      | none => simp [lookupA, Ne.symm hy]

theorem cGet_pushPair (cm : CMap) (a b x y : String) (p : Nat × Nat) :
    cGet (pushPair cm a b p) x y =
      if x = a ∧ y = b then some ((cGet cm a b).getD [] ++ [p]) else cGet cm x y := by
  unfold pushPair
  by_cases hx : x = a
  · subst hx
    cases hin : lookupA cm x with
    | some inner =>
      have h1 : cGet (objSet cm x (pushInner inner b p)) x y =
          lookupA (pushInner inner b p) y := by
        simp [cGet, lookupA_objSet_self]
      rw [h1, lookupA_pushInner]
      by_cases hy : y = b
      · subst hy
        simp [cGet, hin]
      · simp [cGet, hy, hin]
    | none =>
      have h1 : cGet (cm ++ [(x, pushInner [] b p)]) x y =
          lookupA (pushInner [] b p) y := by
        simp [cGet, lookupA_append, hin, lookupA]
      rw [h1, lookupA_pushInner]
      by_cases hy : y = b
      · subst hy
        simp [cGet, hin, lookupA]
      · simp [cGet, hy, hin, lookupA]
  · have hxy : ¬(x = a ∧ y = b) := fun hc => hx hc.1
    rw [if_neg hxy]
    cases hin : lookupA cm a with
    | some inner =>
      simp [cGet, lookupA_objSet_ne _ _ _ _ hx]
    | none =>
      simp only [cGet, lookupA_append]
      cases h2 : lookupA cm x with
      | some v => simp
      | none => simp [lookupA, Ne.symm hx]

/-- Membership of an index pair in an optional overlap list. -/
def memO (p : Nat × Nat) (o : Option Overlaps) : Prop := ∃ ov, o = some ov ∧ p ∈ ov

theorem memO_pushPair (cm : CMap) (a b x y : String) (p q : Nat × Nat) :
    memO q (cGet (pushPair cm a b p) x y) ↔
      memO q (cGet cm x y) ∨ (x = a ∧ y = b ∧ q = p) := by
  rw [cGet_pushPair]
  by_cases hxy : x = a ∧ y = b
  · rw [if_pos hxy]
    obtain ⟨hx, hy⟩ := hxy
    subst hx; subst hy
    constructor
    · rintro ⟨ov, hov, hq⟩
      obtain rfl : (cGet cm x y).getD [] ++ [p] = ov := Option.some.inj hov
      rcases List.mem_append.mp hq with h | h
      · left
        cases hget : cGet cm x y with
        | some l =>
          rw [hget] at h
          exact ⟨l, rfl, by simpa using h⟩
        | none =>
          rw [hget] at h
          simp at h
      · exact Or.inr ⟨rfl, rfl, by simpa using h⟩
    · rintro (⟨ov, hov, hq⟩ | ⟨-, -, rfl⟩)
      · exact ⟨_, rfl, List.mem_append.mpr (Or.inl (by simp [hov, hq]))⟩
      · exact ⟨_, rfl, List.mem_append.mpr (Or.inr (by simp))⟩
  · rw [if_neg hxy]
    constructor
    · exact Or.inl
    · rintro (h | ⟨hx, hy, -⟩)
      · exact h
      · exact absurd ⟨hx, hy⟩ hxy

theorem isSome_pushPair (cm : CMap) (a b x y : String) (p : Nat × Nat) :
    (cGet (pushPair cm a b p) x y).isSome = true ↔
      (cGet cm x y).isSome = true ∨ (x = a ∧ y = b) := by
  rw [cGet_pushPair]
  by_cases hxy : x = a ∧ y = b
  · simp [hxy]
  · simp [hxy]

/-- The symmetry invariant: both directions of a constraint exist together,
and their overlap lists are index-swapped mirrors. -/
def SymC (cm : CMap) : Prop :=
  ∀ a b : String,
    ((cGet cm a b).isSome = true ↔ (cGet cm b a).isSome = true) ∧
    ∀ i j : Nat, memO (i, j) (cGet cm a b) ↔ memO (j, i) (cGet cm b a)

theorem symC_addConstraintPair (cm : CMap) (e : OverlapEntry) (h : SymC cm) :
    SymC (addConstraintPair cm e) := by
  intro a b
  constructor
  · unfold addConstraintPair
    rw [isSome_pushPair, isSome_pushPair, isSome_pushPair, isSome_pushPair]
    have := (h a b).1
    tauto
  · intro i j
    unfold addConstraintPair
    rw [memO_pushPair, memO_pushPair, memO_pushPair, memO_pushPair]
    have := (h a b).2 i j
    constructor
    · rintro ((hm | ⟨h1, h2, h3⟩) | ⟨h1, h2, h3⟩)
      · exact Or.inl (Or.inl (this.mp hm))
      · exact Or.inr ⟨h2, h1, by simp_all⟩
      · exact Or.inl (Or.inr ⟨h2, h1, by simp_all⟩)
    · rintro ((hm | ⟨h1, h2, h3⟩) | ⟨h1, h2, h3⟩)
      · exact Or.inl (Or.inl (this.mpr hm))
      · exact Or.inr ⟨h2, h1, by simp_all⟩
      · exact Or.inl (Or.inr ⟨h2, h1, by simp_all⟩)

theorem foldl_preserve {α σ : Type} (P : σ → Prop) (f : σ → α → σ)
    (h : ∀ s a, P s → P (f s a)) : ∀ (l : List α) (s : σ), P s → P (l.foldl f s) := by
  intro l
  induction l with
  | nil => intro s hs; exact hs
  | cons x t ih => intro s hs; exact ih _ (h s x hs)

theorem symC_generateConstraints (slots : SlotMap) : SymC (generateConstraints slots) := by
  unfold generateConstraints
  refine foldl_preserve SymC addConstraintPair (fun s e hs => symC_addConstraintPair s e hs) _ [] ?_
  intro a b
  constructor
  · simp [cGet, lookupA]
  · intro i j
    simp [memO, cGet, lookupA]

/-- C5. For every slot map, the constraint table built by
`generateConstraints` is symmetric: `constraints[A][B]` exists iff
`constraints[B][A]` exists, and `(i, j) ∈ constraints[A][B]` iff
`(j, i) ∈ constraints[B][A]`. -/
theorem c5_constraints_symmetric (slots : SlotMap) :
    ∀ a b : String,
      ((cGet (generateConstraints slots) a b).isSome = true ↔
        (cGet (generateConstraints slots) b a).isSome = true) ∧
      ∀ i j : Nat,
        memO (i, j) (cGet (generateConstraints slots) a b) ↔
          memO (j, i) (cGet (generateConstraints slots) b a) :=
  symC_generateConstraints slots

-- ----------------------------------------------------------------
-- Domain initialization (`cacheWordsByLength`, `setupDomains` of script.js)
-- ----------------------------------------------------------------

/-- One step of `cacheWordsByLength`: push a word into its length bucket. -/
def cacheStep (cache : List (Nat × List String)) (w : String) : List (Nat × List String) :=
  match lookupA cache w.length with
  | some l => objSet cache w.length (l ++ [w])
  | none => cache ++ [(w.length, [w])]

/-- `cacheWordsByLength`: bucket the word list by length. -/
def cacheWordsByLength (words : List String) : List (Nat × List String) :=
  words.foldl cacheStep []

/-- `this.wordLengthCache[length] || []`. -/
def wordLengthCacheGet (words : List String) (len : Nat) : List String :=
  (lookupA (cacheWordsByLength words) len).getD []

theorem lookupA_cacheStep_self (m : List (Nat × List String)) (w : String) :
    lookupA (cacheStep m w) w.length = some ((lookupA m w.length).getD [] ++ [w]) := by
  unfold cacheStep
  cases h : lookupA m w.length with
  | some l => simp [h, lookupA_objSet_self]
  | none => simp [h, lookupA_append, lookupA]

theorem lookupA_cacheStep_ne (m : List (Nat × List String)) (w : String) (len : Nat)
    (hne : len ≠ w.length) : lookupA (cacheStep m w) len = lookupA m len := by
  unfold cacheStep
  cases h : lookupA m w.length with
  | some l => exact lookupA_objSet_ne _ _ _ _ hne
  | none =>
    rw [lookupA_append]
    cases h2 : lookupA m len with
    | some v => simp
    | none => simp [lookupA, Ne.symm hne]

theorem cache_foldl_getD (len : Nat) :
    ∀ (words : List String) (m : List (Nat × List String)),
      (lookupA (words.foldl cacheStep m) len).getD [] =
        (lookupA m len).getD [] ++ words.filter (fun w => w.length = len) := by
  intro words
  induction words with
  | nil => simp
  | cons w t ih =>
    intro m
    rw [List.foldl_cons, ih]
    by_cases hw : w.length = len
    · rw [List.filter_cons_of_pos (by simp [hw]), ← hw, lookupA_cacheStep_self]
      simp
    · rw [List.filter_cons_of_neg (by simp [hw]),
        lookupA_cacheStep_ne _ _ _ (fun h => hw h.symm)]

/-- The length bucket is exactly the words of that length, in order. -/
theorem wordLengthCacheGet_eq_filter (words : List String) (len : Nat) :
    wordLengthCacheGet words len = words.filter (fun w => w.length = len) := by
  unfold wordLengthCacheGet cacheWordsByLength
  rw [cache_foldl_getD]
  simp [lookupA]

/-- JS regex `.`: any character except a line terminator. -/
def dotMatches (c : Char) : Bool :=
  !(c = '\n' || c = '\r' || c = '\u2028' || c = '\u2029')

/-- The pattern built by `setupDomains`: per position, the pre-filled cell
content's characters as literals, or the wildcard `.` when the content is
falsy (`null`, absent, or the empty string). -/
def patternOf (cc : Pos → Option String) (positions : List Pos) : List (Option Char) :=
  positions.flatMap (fun p =>
    match cc p with
    | some v => if v = "" then [none] else v.data.map some
    | none => [none])

/-- Matching `^pattern$`: each token consumes exactly one character; a
literal must equal it, the wildcard matches any non-line-terminator. -/
def patMatch : List (Option Char) → List Char → Bool
  | [], [] => true
  | none :: ts, c :: cs => dotMatches c && patMatch ts cs
  | some a :: ts, c :: cs => a == c && patMatch ts cs
  | _, _ => false

/-- `setupDomains`: per slot, filter the length bucket by the pre-filled
letter pattern. -/
def setupDomains (slots : SlotMap) (cc : Pos → Option String) (words : List String) :
    List (String × List String) :=
  slots.map (fun sp =>
    (sp.1, (wordLengthCacheGet words sp.2.length).filter
      (fun w => patMatch (patternOf cc sp.2) w.data)))

theorem patMatch_length : ∀ (ts : List (Option Char)) (cs : List Char),
    patMatch ts cs = true → cs.length = ts.length := by
  intro ts
  induction ts with
  | nil => intro cs h; cases cs <;> simp_all [patMatch]
  | cons t ts ih =>
    intro cs h
    cases cs with
    | nil => cases t <;> simp [patMatch] at h
    | cons c cs =>
      cases t with
      | none =>
        simp only [patMatch, Bool.and_eq_true] at h
        simp [ih cs h.2]
      | some a =>
        simp only [patMatch, Bool.and_eq_true] at h
        simp [ih cs h.2]

theorem patMatch_get : ∀ (ts : List (Option Char)) (cs : List Char),
    patMatch ts cs = true → ∀ (i : Nat) (ch : Char),
      ts.get? i = some (some ch) → cs.get? i = some ch := by
  intro ts
  induction ts with
  | nil => intro cs h i ch hi; simp at hi
  | cons t ts ih =>
    intro cs h i ch hi
    cases cs with
    | nil => cases t <;> simp [patMatch] at h
    | cons c cs =>
      cases i with
      | zero =>
        simp only [List.get?] at hi
        obtain rfl : t = some ch := Option.some.inj hi
        simp only [patMatch, Bool.and_eq_true, beq_iff_eq] at h
        simp [h.1]
      | succ i =>
        have hrest : patMatch ts cs = true := by
          cases t <;> simp only [patMatch, Bool.and_eq_true] at h <;> exact h.2
        simpa using ih cs hrest i ch (by simpa using hi)

/-- When every stored cell content is a single character (the uppercase
letters of a well-formed grid), the pattern has one token per position. -/
theorem patternOf_eq_map (cc : Pos → Option String)
    (hletters : ∀ p v, cc p = some v → v.data.length = 1) (positions : List Pos) :
    patternOf cc positions = positions.map (fun p =>
      match cc p with
      | some v => v.data.head?
      | none => none) := by
  induction positions with
  | nil => simp [patternOf]
  | cons p ps ih =>
    have hhead : (match cc p with
        | some v => if v = "" then [none] else List.map some v.data
        | none => [none]) = [(match cc p with
        | some v => v.data.head?
        | none => (none : Option Char))] := by
      cases hp : cc p with
      | none => rfl
      | some v =>
        have h1 := hletters p v hp
        cases hv : v.data with
        | nil => simp [hv] at h1
        | cons ch t =>
          cases t with
          | nil =>
            have hne : ¬(v = "") := by
              intro h
              subst h
              simp at hv
            simp [hne, hv]
          | cons ch2 t2 => simp [hv] at h1
    rw [show patternOf cc (p :: ps) = (match cc p with
        | some v => if v = "" then [none] else List.map some v.data
        | none => [none]) ++ patternOf cc ps from by simp [patternOf]]
    rw [hhead, ih]
    simp

theorem lookupA_map_entry {β γ : Type} (f : String × β → γ) :
    ∀ (l : List (String × β)) (k : String) (v : β), lookupA l k = some v →
      lookupA (l.map (fun e => (e.1, f e))) k = some (f (k, v)) := by
  intro l
  induction l with
  | nil => intro k v h; simp [lookupA] at h
  | cons e t ih =>
    intro k v h
    by_cases hk : e.1 = k
    · simp only [lookupA, if_pos hk] at h
      obtain rfl : e.2 = v := Option.some.inj h
      subst hk
      simp [lookupA]
    · simp only [lookupA, if_neg hk] at h
      simp [lookupA, hk, ih _ _ h]

/-- C7. Every word placed in a slot's initial domain by `setupDomains` has
exactly the slot's length and carries, at each position whose grid cell is
pre-filled with a letter, exactly that letter. -/
theorem c7_initial_domains (slots : SlotMap) (cc : Pos → Option String) (words : List String)
    (hletters : ∀ p v, cc p = some v → v.data.length = 1)
    (s : String) (ps : List Pos) (hs : lookupA slots s = some ps) :
    ∀ w ∈ dGet (setupDomains slots cc words) s,
      w.length = ps.length ∧
      ∀ (i : Nat) (p : Pos) (v : String), ps.get? i = some p → cc p = some v →
        charAt w i = v.data.head? := by
  intro w hw
  have hdom := lookupA_map_entry
    (fun sp => (wordLengthCacheGet words sp.2.length).filter
      (fun w => patMatch (patternOf cc sp.2) w.data)) slots s ps hs
  rw [dGet, setupDomains, hdom] at hw
  simp only [Option.getD_some, List.mem_filter] at hw
  obtain ⟨hmem, hpat⟩ := hw
  rw [wordLengthCacheGet_eq_filter] at hmem
  have hlen : w.length = ps.length := by
    have hlen2 := patMatch_length _ _ hpat
    rw [patternOf_eq_map cc hletters, List.length_map] at hlen2
    exact hlen2
  refine ⟨hlen, ?_⟩
  intro i p v hi hp
  have h1 := hletters p v hp
  have htok : (patternOf cc ps).get? i = some v.data.head? := by
    rw [patternOf_eq_map cc hletters, List.get?_map, hi]
    simp [hp]
  cases hv : v.data with
  | nil => simp [hv] at h1
  | cons ch t =>
    cases t with
    | nil =>
      rw [hv] at htok
      simp only [List.head?_cons] at htok
      have hc := patMatch_get _ _ hpat i ch htok
      exact hc
    | cons ch2 t2 => simp [hv] at h1

/-- Witness for C7: a two-cell across slot whose second cell is pre-filled
with `A`, over the dictionary `["BA", "CC"]`. -/
theorem c7_initial_domains_witness :
    (lookupA [("1ACROSS", [((0 : Nat), (0 : Nat)), (0, 1)])] "1ACROSS" =
      some [((0 : Nat), (0 : Nat)), (0, 1)]) ∧
    ∀ w ∈ dGet (setupDomains [("1ACROSS", [((0 : Nat), (0 : Nat)), (0, 1)])]
        (fun p => if p = (0, 1) then some "A" else none) ["BA", "CC"]) "1ACROSS",
      w.length = [((0 : Nat), (0 : Nat)), (0, 1)].length ∧
      ∀ (i : Nat) (p : Pos) (v : String),
        [((0 : Nat), (0 : Nat)), (0, 1)].get? i = some p →
        (if p = (0, 1) then some "A" else none) = some v →
        charAt w i = v.data.head? := by
  refine ⟨by decide, ?_⟩
  exact c7_initial_domains _ _ _
    (by
      intro p v h
      by_cases hp : p = (0, 1)
      · rw [if_pos hp] at h
        obtain rfl : "A" = v := Option.some.inj h
        decide
      · rw [if_neg hp] at h
        exact absurd h (by simp))
    _ _ (by decide)

-- ----------------------------------------------------------------
-- `revise` (claim C4) and AC-3 (claim C3)
-- ----------------------------------------------------------------

/-- Domains: `this.domains`. -/
abbrev Domains := List (String × List String)

/-- The filter predicate of `revise`: a word of `domain[var1]` survives iff
SOME overlap pair has SOME partner in `domain[var2]` (the source's
`overlaps.some(... this.domains[var2].some(...))`). -/
def reviseKeep (overlaps : Overlaps) (dom2 : List String) (w1 : String) : Bool :=
  overlaps.any (fun ij => dom2.any (fun w2 => charAt w1 ij.1 == charAt w2 ij.2))

/-- `revise(var1, var2)`: filter `domains[var1]` by `reviseKeep` and update
only when the domain shrank; `none` models the JS crash when
`this.constraints[var1][var2]` is absent. -/
def revise (cm : CMap) (d : Domains) (v1 v2 : String) : Option (Bool × Domains) :=
  match cGet cm v1 v2 with
  | none => none
  | some overlaps =>
    let newDomain := (dGet d v1).filter (reviseKeep overlaps (dGet d v2))
    if newDomain.length < (dGet d v1).length then some (true, objSet d v1 newDomain)
    else some (false, d)

theorem length_filter_eq_all {α : Type} (p : α → Bool) :
    ∀ l : List α, (l.filter p).length = l.length → ∀ x ∈ l, p x = true := by
  intro l
  induction l with
  | nil => simp
  | cons a t ih =>
    intro h x hx
    by_cases ha : p a = true
    · rcases List.mem_cons.mp hx with rfl | hx
      · exact ha
      · exact ih (by simpa [List.filter_cons, ha] using h) x hx
    · exfalso
      have hle := List.length_filter_le p t
      rw [List.filter_cons_of_neg (by simpa using ha)] at h
      simp only [List.length_cons] at h
      omega

/-- C4 counterexample. With `constraints[A][B] = [(0,0), (1,1)]`,
`domain[A] = ["AB"]`, `domain[B] = ["AC"]`, the word `"AB"` satisfies the
first overlap but not the second; the claim says it must be dropped, yet
`revise` retains it (and reports no revision). -/
theorem c4_revise_counterexample :
    revise [("A", [("B", [(0, 0), (1, 1)])]), ("B", [("A", [(0, 0), (1, 1)])])]
        [("A", ["AB"]), ("B", ["AC"])] "A" "B" =
      some (false, [("A", ["AB"]), ("B", ["AC"])]) ∧
    "AB" ∈ dGet [("A", ["AB"]), ("B", ["AC"])] "A" ∧
    ¬ ∀ ij ∈ ([(0, 0), (1, 1)] : Overlaps),
        ∃ w2 ∈ dGet [("A", ["AB"]), ("B", ["AC"])] "B", charAt "AB" ij.1 = charAt w2 ij.2 := by
  refine ⟨by decide, by decide, ?_⟩
  intro h
  have := h (1, 1) (by decide)
  revert this
  decide

/-- C4 (amended). For constrained slots `(A, B)`, a single call to `revise`
retains `w ∈ domain[A]` iff AT LEAST ONE overlap pair `(i, j)` of
`constraints[A][B]` has some `w' ∈ domain[B]` with `w[i] = w'[j]` (the
source's per-word existential over overlap pairs, not the claim's universal). -/
theorem c4_revise_amended (cm : CMap) (d : Domains) (v1 v2 : String) (ov : Overlaps)
    (hov : cGet cm v1 v2 = some ov) :
    ∃ b d', revise cm d v1 v2 = some (b, d') ∧
      ∀ w : String, w ∈ dGet d' v1 ↔
        (w ∈ dGet d v1 ∧ ∃ ij ∈ ov, ∃ w2 ∈ dGet d v2, charAt w ij.1 = charAt w2 ij.2) := by
  have hkeep : ∀ w : String, reviseKeep ov (dGet d v2) w = true ↔
      ∃ ij ∈ ov, ∃ w2 ∈ dGet d v2, charAt w ij.1 = charAt w2 ij.2 := by
    intro w
    simp [reviseKeep, List.any_eq_true]
  unfold revise
  rw [hov]
  by_cases hlt : ((dGet d v1).filter (reviseKeep ov (dGet d v2))).length < (dGet d v1).length
  · refine ⟨true, objSet d v1 ((dGet d v1).filter (reviseKeep ov (dGet d v2))),
      by simp [hlt], ?_⟩
    intro w
    rw [show dGet (objSet d v1 ((dGet d v1).filter (reviseKeep ov (dGet d v2)))) v1 =
        (dGet d v1).filter (reviseKeep ov (dGet d v2)) from by
      simp [dGet, lookupA_objSet_self]]
    rw [List.mem_filter, hkeep]
  · refine ⟨false, d, by simp [hlt], ?_⟩
    intro w
    constructor
    · intro hw
      have hall := length_filter_eq_all (reviseKeep ov (dGet d v2)) (dGet d v1)
        (Nat.le_antisymm (List.length_filter_le _ _) (Nat.not_lt.mp hlt))
      exact ⟨hw, (hkeep w).mp (hall w hw)⟩
    · exact fun h => h.1

/-- Witness for the amended C4 at the counterexample input: `"AB"` is kept
because the first overlap pair has a partner. -/
theorem c4_revise_amended_witness :
    (cGet [("A", [("B", [(0, 0), (1, 1)])]), ("B", [("A", [(0, 0), (1, 1)])])] "A" "B" =
      some [(0, 0), (1, 1)]) ∧
    ∃ b d', revise [("A", [("B", [(0, 0), (1, 1)])]), ("B", [("A", [(0, 0), (1, 1)])])]
        [("A", ["AB"]), ("B", ["AC"])] "A" "B" = some (b, d') ∧
      ∀ w : String, w ∈ dGet d' "A" ↔
        (w ∈ dGet [("A", ["AB"]), ("B", ["AC"])] "A" ∧
          ∃ ij ∈ ([(0, 0), (1, 1)] : Overlaps),
            ∃ w2 ∈ dGet [("A", ["AB"]), ("B", ["AC"])] "B",
              charAt w ij.1 = charAt w2 ij.2) :=
  ⟨by decide, c4_revise_amended _ _ _ _ _ (by decide)⟩

-- ----------------------------------------------------------------
-- AC-3 (`ac3` of script.js) and its arc-consistency postcondition
-- ----------------------------------------------------------------

/-- JS `Set.add`: a no-op when the element is present (keeping its original
position), otherwise append. -/
def qAdd (q : List (String × String)) (x : String × String) : List (String × String) :=
  if x ∈ q then q else q ++ [x]

/-- The initial work set: every directed arc present in the constraint map. -/
def initQueue (cm : CMap) : List (String × String) :=
  cm.foldl (fun q e => e.2.foldl (fun q' be => qAdd q' (e.1, be.1)) q) []

/-- Re-enqueue `(neighbor, var1)` for every neighbor of `var1` other than
`var2` after a successful revision. -/
def requeue (cm : CMap) (q : List (String × String)) (v1 v2 : String) :
    List (String × String) :=
  ((lookupA cm v1).getD []).foldl
    (fun q' be => if be.1 ≠ v2 then qAdd q' (be.1, v1) else q') q

/-- `ac3`: process the work queue FIFO, revising and re-enqueuing; returns
`false` on a wiped-out domain, `true` on exhaustion; `none` on fuel
exhaustion or on the lookups that would throw in JS. -/
def ac3 (cm : CMap) : Nat → List (String × String) → Domains → Option (Bool × Domains)
  | 0, _, _ => none
  | fuel + 1, q, d =>
    match q with
    | [] => some (true, d)
    | (v1, v2) :: rest =>
      match revise cm d v1 v2 with
      | none => none
      | some (changed, d₂) =>
        if changed then
          if (dGet d₂ v1).length = 0 then some (false, d₂)
          else ac3 cm fuel (requeue cm rest v1 v2) d₂
        else ac3 cm fuel rest d₂

/-- Arc support in the sense of `revise`: every word of `domain[a]` has some
overlap pair with some partner in `domain[b]`. -/
def Supported (d : Domains) (a b : String) (ov : Overlaps) : Prop :=
  ∀ w ∈ dGet d a, ∃ ij ∈ ov, ∃ w2 ∈ dGet d b, charAt w ij.1 = charAt w2 ij.2

/-- Entry-level symmetry of a constraint map (decidable on concrete maps): a
consequence of `SymC` used by the AC-3 proof. -/
def SymB (cm : CMap) : Prop :=
  ∀ e ∈ cm, ∀ be ∈ e.2, ∀ ij ∈ be.2, (ij.2, ij.1) ∈ (cGet cm be.1 e.1).getD []

/-- No slot is constrained against itself. -/
def NoSelfArc (cm : CMap) : Prop := ∀ e ∈ cm, lookupA e.2 e.1 = none

/-- Every stored overlap list is non-empty (true of `generateConstraints`
output, which only creates a list when pushing a pair into it). -/
def NoEmptyOverlap (cm : CMap) : Prop := ∀ e ∈ cm, ∀ be ∈ e.2, be.2 ≠ []

instance (cm : CMap) : Decidable (SymB cm) := by
  unfold SymB
  infer_instance

instance (cm : CMap) : Decidable (NoSelfArc cm) := by
  unfold NoSelfArc
  infer_instance

instance (cm : CMap) : Decidable (NoEmptyOverlap cm) := by
  unfold NoEmptyOverlap
  infer_instance

theorem lookupA_mem {α β : Type} [DecidableEq α] :
    ∀ (l : List (α × β)) (k : α) (v : β), lookupA l k = some v → (k, v) ∈ l := by
  intro l
  induction l with
  | nil => intro k v h; simp [lookupA] at h
  | cons e t ih =>
    intro k v h
    obtain ⟨k', v'⟩ := e
    by_cases hk : k' = k
    · simp only [lookupA, if_pos hk] at h
      obtain rfl : v' = v := Option.some.inj h
      subst hk
      exact List.mem_cons_self _ _
    · simp only [lookupA, if_neg hk] at h
      exact List.mem_cons_of_mem _ (ih _ _ h)

theorem mem_getD_some {α : Type} {o : Option (List α)} {x : α}
    (h : x ∈ o.getD []) : ∃ l, o = some l ∧ x ∈ l := by
  cases o with
  | none => simp at h
  | some l => exact ⟨l, rfl, by simpa using h⟩

theorem cGet_mem {cm : CMap} {a b : String} {ov : Overlaps} (h : cGet cm a b = some ov) :
    ∃ inner, lookupA cm a = some inner ∧ (a, inner) ∈ cm ∧ (b, ov) ∈ inner := by
  unfold cGet at h
  cases hin : lookupA cm a with
  | none => rw [hin] at h; simp at h
  | some inner =>
    rw [hin] at h
    simp only [Option.some_bind] at h
    exact ⟨inner, rfl, lookupA_mem _ _ _ hin, lookupA_mem _ _ _ h⟩

theorem symB_mirror {cm : CMap} (hsym : SymB cm) {a b : String} {ov : Overlaps}
    {ij : Nat × Nat} (hab : cGet cm a b = some ov) (hij : ij ∈ ov) :
    (ij.2, ij.1) ∈ (cGet cm b a).getD [] := by
  obtain ⟨inner, -, hmem, hbmem⟩ := cGet_mem hab
  exact hsym (a, inner) hmem (b, ov) hbmem ij hij

theorem symB_mirror_some {cm : CMap} (hsym : SymB cm) {a b : String} {ov : Overlaps}
    {ij : Nat × Nat} (hab : cGet cm a b = some ov) (hij : ij ∈ ov) :
    ∃ ov', cGet cm b a = some ov' ∧ (ij.2, ij.1) ∈ ov' :=
  mem_getD_some (symB_mirror hsym hab hij)

theorem noSelf_ne {cm : CMap} (hns : NoSelfArc cm) {a b : String} {ov : Overlaps}
    (hab : cGet cm a b = some ov) : a ≠ b := by
  rintro rfl
  obtain ⟨inner, -, hmem, hbmem⟩ := cGet_mem hab
  have h1 := hns (a, inner) hmem
  unfold cGet at hab
  cases hin : lookupA cm a with
  | none => rw [hin] at hab; simp at hab
  | some inner2 =>
    rw [hin] at hab
    simp only [Option.some_bind] at hab
    have : (a, inner2) ∈ cm := lookupA_mem _ _ _ hin
    have h2 := hns (a, inner2) this
    rw [h2] at hab
    simp at hab

theorem mem_qAdd (q : List (String × String)) (x y : String × String) :
    x ∈ qAdd q y ↔ x ∈ q ∨ x = y := by
  unfold qAdd
  by_cases hy : y ∈ q
  · simp only [if_pos hy]
    constructor
    · exact Or.inl
    · rintro (h | rfl)
      · exact h
      · exact hy
  · simp [if_neg hy]

theorem dGet_objSet_self (d : Domains) (k : String) (v : List String) :
    dGet (objSet d k v) k = v := by
  simp [dGet, lookupA_objSet_self]

theorem dGet_objSet_ne (d : Domains) (k k' : String) (v : List String) (hne : k' ≠ k) :
    dGet (objSet d k v) k' = dGet d k' := by
  simp [dGet, lookupA_objSet_ne _ _ _ _ hne]

theorem revise_none_eq {cm : CMap} {d : Domains} {v1 v2 : String}
    (hc : cGet cm v1 v2 = none) : revise cm d v1 v2 = none := by
  unfold revise
  rw [hc]

theorem revise_some_eq {cm : CMap} {d : Domains} {v1 v2 : String} {ov : Overlaps}
    (hc : cGet cm v1 v2 = some ov) :
    revise cm d v1 v2 =
      if ((dGet d v1).filter (reviseKeep ov (dGet d v2))).length < (dGet d v1).length then
        some (true, objSet d v1 ((dGet d v1).filter (reviseKeep ov (dGet d v2))))
      else some (false, d) := by
  unfold revise
  rw [hc]

theorem revise_false_eq {cm : CMap} {d : Domains} {v1 v2 : String} {d₂ : Domains}
    (h : revise cm d v1 v2 = some (false, d₂)) :
    d₂ = d ∧ ∃ ov, cGet cm v1 v2 = some ov ∧
      ∀ w ∈ dGet d v1, reviseKeep ov (dGet d v2) w = true := by
  cases hc : cGet cm v1 v2 with
  | none => rw [revise_none_eq hc] at h; exact absurd h (by simp)
  | some ov =>
    rw [revise_some_eq hc] at h
    by_cases hlt : ((dGet d v1).filter (reviseKeep ov (dGet d v2))).length < (dGet d v1).length
    · rw [if_pos hlt] at h
      simp at h
    · rw [if_neg hlt] at h
      have hpair : ((false : Bool), d) = (false, d₂) := Option.some.inj h
      obtain rfl : d = d₂ := congrArg Prod.snd hpair
      refine ⟨rfl, ov, rfl, ?_⟩
      exact length_filter_eq_all _ _
        (Nat.le_antisymm (List.length_filter_le _ _) (Nat.not_lt.mp hlt))

theorem revise_true_eq {cm : CMap} {d : Domains} {v1 v2 : String} {d₂ : Domains}
    (h : revise cm d v1 v2 = some (true, d₂)) :
    ∃ ov, cGet cm v1 v2 = some ov ∧
      d₂ = objSet d v1 ((dGet d v1).filter (reviseKeep ov (dGet d v2))) := by
  cases hc : cGet cm v1 v2 with
  | none => rw [revise_none_eq hc] at h; exact absurd h (by simp)
  | some ov =>
    rw [revise_some_eq hc] at h
    by_cases hlt : ((dGet d v1).filter (reviseKeep ov (dGet d v2))).length < (dGet d v1).length
    · rw [if_pos hlt] at h
      have hpair : ((true : Bool), objSet d v1 ((dGet d v1).filter (reviseKeep ov (dGet d v2)))) =
          (true, d₂) := Option.some.inj h
      exact ⟨ov, rfl, (congrArg Prod.snd hpair).symm⟩
    · rw [if_neg hlt] at h
      simp at h

theorem reviseKeep_iff (ov : Overlaps) (dom2 : List String) (w : String) :
    reviseKeep ov dom2 w = true ↔
      ∃ ij ∈ ov, ∃ w2 ∈ dom2, charAt w ij.1 = charAt w2 ij.2 := by
  simp [reviseKeep, List.any_eq_true]

theorem foldl_qAdd_subset {α : Type} (f : α → String × String) :
    ∀ (l : List α) (q : List (String × String)) (x : String × String), x ∈ q →
      x ∈ l.foldl (fun q' e => qAdd q' (f e)) q := by
  intro l
  induction l with
  | nil => intro q x h; exact h
  | cons e t ih =>
    intro q x h
    exact ih _ x ((mem_qAdd q x (f e)).mpr (Or.inl h))

theorem foldl_requeue_subset (v1 v2 : String) :
    ∀ (l : List (String × Overlaps)) (q : List (String × String)) (x : String × String),
      x ∈ q →
      x ∈ l.foldl (fun q' be => if be.1 ≠ v2 then qAdd q' (be.1, v1) else q') q := by
  intro l
  induction l with
  | nil => intro q x h; exact h
  | cons be t ih =>
    intro q x h
    simp only [List.foldl_cons]
    by_cases hbe : be.1 ≠ v2
    · rw [if_pos hbe]
      exact ih _ x ((mem_qAdd q x (be.1, v1)).mpr (Or.inl h))
    · rw [if_neg hbe]
      exact ih _ x h

theorem requeue_subset {cm : CMap} {q : List (String × String)} {v1 v2 : String}
    {x : String × String} (h : x ∈ q) : x ∈ requeue cm q v1 v2 :=
  foldl_requeue_subset v1 v2 _ q x h

theorem mem_requeue_aux (v1 v2 a : String) :
    ∀ (l : List (String × Overlaps)) (q : List (String × String)),
      a ∈ keysOf l → a ≠ v2 →
      (a, v1) ∈ l.foldl (fun q' be => if be.1 ≠ v2 then qAdd q' (be.1, v1) else q') q := by
  intro l
  induction l with
  | nil => intro q ha _; simp [keysOf] at ha
  | cons be t ih =>
    intro q ha hne
    simp only [List.foldl_cons]
    rcases (by simpa [keysOf] using ha : a = be.1 ∨ a ∈ keysOf t) with heq | ha'
    · have hbe : be.1 ≠ v2 := heq ▸ hne
      rw [if_pos hbe]
      apply foldl_requeue_subset
      refine (mem_qAdd _ _ _).mpr (Or.inr ?_)
      rw [heq]
    · by_cases hbe : be.1 ≠ v2
      · rw [if_pos hbe]
        exact ih _ ha' hne
      · rw [if_neg hbe]
        exact ih _ ha' hne

theorem mem_requeue {cm : CMap} {q : List (String × String)} {v1 v2 a : String}
    (ha : a ∈ keysOf ((lookupA cm v1).getD [])) (hne : a ≠ v2) :
    (a, v1) ∈ requeue cm q v1 v2 :=
  mem_requeue_aux v1 v2 a _ q ha hne

theorem mem_initQueue {cm : CMap} {a b : String} {ov : Overlaps}
    (h : cGet cm a b = some ov) : (a, b) ∈ initQueue cm := by
  obtain ⟨inner, -, hmem, hbmem⟩ := cGet_mem h
  unfold initQueue
  have step_mono : ∀ (t : CMap) (q : List (String × String)), (a, b) ∈ q →
      (a, b) ∈ t.foldl (fun q e => e.2.foldl (fun q' be => qAdd q' (e.1, be.1)) q) q := by
    intro t
    induction t with
    | nil => intro q hq; exact hq
    | cons e t2 ih =>
      intro q hq
      exact ih _ (foldl_qAdd_subset (fun be => (e.1, be.1)) e.2 q _ hq)
  have hinner : ∀ (l : List (String × Overlaps)) (q : List (String × String)),
      (b, ov) ∈ l → (a, b) ∈ l.foldl (fun q' be => qAdd q' (a, be.1)) q := by
    intro l
    induction l with
    | nil => intro q hq; simp at hq
    | cons be t2 ih =>
      intro q hq
      rcases List.mem_cons.mp hq with heq | hq'
      · subst heq
        exact foldl_qAdd_subset (fun be => (a, be.1)) t2 _ _
          ((mem_qAdd _ _ _).mpr (Or.inr rfl))
      · exact ih _ hq'
  obtain ⟨l1, l2, rfl⟩ := List.append_of_mem hmem
  rw [List.foldl_append, List.foldl_cons]
  apply step_mono
  exact hinner inner _ hbmem

/-- The main AC-3 loop invariant: every arc of the constraint map is either
still queued or currently supported. -/
def ArcInv (cm : CMap) (q : List (String × String)) (d : Domains) : Prop :=
  ∀ a b ov, cGet cm a b = some ov → (a, b) ∈ q ∨ Supported d a b ov

theorem ac3_zero (cm : CMap) (q : List (String × String)) (d : Domains) :
    ac3 cm 0 q d = none := rfl

theorem ac3_nil (cm : CMap) (f : Nat) (d : Domains) :
    ac3 cm (f + 1) [] d = some (true, d) := rfl

theorem ac3_cons_none (cm : CMap) (f : Nat) {v1 v2 : String}
    (rest : List (String × String)) {d : Domains} (hrev : revise cm d v1 v2 = none) :
    ac3 cm (f + 1) ((v1, v2) :: rest) d = none := by
  show (match revise cm d v1 v2 with
    | none => none
    | some (changed, d₂) =>
      if changed then
        if (dGet d₂ v1).length = 0 then some ((false : Bool), d₂)
        else ac3 cm f (requeue cm rest v1 v2) d₂
      else ac3 cm f rest d₂) = none
  rw [hrev]

theorem ac3_cons_some (cm : CMap) (f : Nat) {v1 v2 : String}
    (rest : List (String × String)) {d : Domains} {changed : Bool} {d₂ : Domains}
    (hrev : revise cm d v1 v2 = some (changed, d₂)) :
    ac3 cm (f + 1) ((v1, v2) :: rest) d =
      if changed then
        if (dGet d₂ v1).length = 0 then some (false, d₂)
        else ac3 cm f (requeue cm rest v1 v2) d₂
      else ac3 cm f rest d₂ := by
  show (match revise cm d v1 v2 with
    | none => none
    | some (changed, d₂) =>
      if changed then
        if (dGet d₂ v1).length = 0 then some ((false : Bool), d₂)
        else ac3 cm f (requeue cm rest v1 v2) d₂
      else ac3 cm f rest d₂) = _
  rw [hrev]

theorem ac3_post (cm : CMap) (hsym : SymB cm) (hns : NoSelfArc cm)
    (hne : NoEmptyOverlap cm) :
    ∀ (fuel : Nat) (q : List (String × String)) (d d' : Domains),
      ArcInv cm q d → ac3 cm fuel q d = some (true, d') →
      ∀ a b ov, cGet cm a b = some ov → Supported d' a b ov := by
  intro fuel
  induction fuel with
  | zero =>
    intro q d d' _ h
    rw [ac3_zero] at h
    exact absurd h (by simp)
  | succ f ih =>
    intro q d d' hinv hrun
    rcases q with _ | ⟨⟨v1, v2⟩, rest⟩
    · rw [ac3_nil] at hrun
      obtain rfl : d = d' := congrArg Prod.snd (Option.some.inj hrun)
      intro a b ov hab
      rcases hinv a b ov hab with hq | hs
      · simp at hq
      · exact hs
    · cases hrev : revise cm d v1 v2 with
      | none =>
        rw [ac3_cons_none cm f rest hrev] at hrun
        exact absurd hrun (by simp)
      | some cd =>
        obtain ⟨changed, d₂⟩ := cd
        rw [ac3_cons_some cm f rest hrev] at hrun
        cases changed with
        | false =>
          simp only [Bool.false_eq_true, if_false] at hrun
          obtain ⟨rfl, ov12, hc12, hkeepall⟩ := revise_false_eq hrev
          refine ih rest d₂ d' ?_ hrun
          intro a b ov hab
          rcases hinv a b ov hab with hq | hs
          · rcases List.mem_cons.mp hq with heq | hq'
            · obtain ⟨rfl, rfl⟩ : a = v1 ∧ b = v2 :=
                ⟨congrArg Prod.fst heq, congrArg Prod.snd heq⟩
              obtain rfl : ov = ov12 := by
                rw [hab] at hc12
                exact Option.some.inj hc12
              exact Or.inr (fun w hw => (reviseKeep_iff _ _ _).mp (hkeepall w hw))
            · exact Or.inl hq'
          · exact Or.inr hs
        | true =>
          simp only [if_true] at hrun
          obtain ⟨ov12, hc12, rfl⟩ := revise_true_eq hrev
          by_cases hz : (dGet (objSet d v1 ((dGet d v1).filter
              (reviseKeep ov12 (dGet d v2)))) v1).length = 0
          · rw [if_pos hz] at hrun
            simp at hrun
          · rw [if_neg hz] at hrun
            have hv12 : v1 ≠ v2 := noSelf_ne hns hc12
            refine ih _ _ d' ?_ hrun
            intro a b ov hab
            by_cases hb1 : b = v1
            · rw [hb1] at hab ⊢
              have hav1 : a ≠ v1 := noSelf_ne hns hab
              by_cases hav2 : a = v2
              · rw [hav2] at hab hav1 ⊢
                rcases hinv v2 v1 ov hab with hq | hs
                · rcases List.mem_cons.mp hq with heq | hq'
                  · exact absurd (congrArg Prod.fst heq) hav1
                  · exact Or.inl (requeue_subset hq')
                · right
                  intro w hw
                  rw [dGet_objSet_ne _ _ _ _ hav1] at hw
                  obtain ⟨ij, hij, w2, hw2, hchar⟩ := hs w hw
                  refine ⟨ij, hij, w2, ?_, hchar⟩
                  rw [dGet_objSet_self, List.mem_filter]
                  refine ⟨hw2, (reviseKeep_iff _ _ _).mpr ?_⟩
                  obtain ⟨ov', hov', hmir⟩ := symB_mirror_some hsym hab hij
                  rw [hc12] at hov'
                  obtain rfl : ov12 = ov' := Option.some.inj hov'
                  exact ⟨(ij.2, ij.1), hmir, w, hw, hchar.symm⟩
              · -- a ∉ {v1, v2} and arc (a, v1) exists: it is re-enqueued
                left
                have hse : ∃ ij, ij ∈ ov := by
                  obtain ⟨inner, -, hmem, hbmem⟩ := cGet_mem hab
                  have := hne (a, inner) hmem (v1, ov) hbmem
                  cases ov with
                  | nil => exact absurd rfl this
                  | cons x t => exact ⟨x, by simp⟩
                obtain ⟨ij, hij⟩ := hse
                obtain ⟨ov', hov', -⟩ := symB_mirror_some hsym hab hij
                have hkeys : a ∈ keysOf ((lookupA cm v1).getD []) := by
                  obtain ⟨inner, hin, -, hbmem⟩ := cGet_mem hov'
                  rw [hin]
                  simp only [Option.getD_some]
                  exact List.mem_map.mpr ⟨(a, ov'), hbmem, rfl⟩
                exact mem_requeue hkeys hav2
            · -- b ≠ v1: the target domain is unchanged
              rcases hinv a b ov hab with hq | hs
              · rcases List.mem_cons.mp hq with heq | hq'
                · obtain ⟨rfl, rfl⟩ : a = v1 ∧ b = v2 :=
                    ⟨congrArg Prod.fst heq, congrArg Prod.snd heq⟩
                  obtain rfl : ov = ov12 := by
                    rw [hab] at hc12
                    exact Option.some.inj hc12
                  right
                  intro w hw
                  rw [dGet_objSet_self] at hw
                  have hkeep := (List.mem_filter.mp hw).2
                  obtain ⟨ij, hij, w2, hw2, hchar⟩ := (reviseKeep_iff _ _ _).mp hkeep
                  exact ⟨ij, hij, w2, by rwa [dGet_objSet_ne _ _ _ _ (Ne.symm hv12)], hchar⟩
                · exact Or.inl (requeue_subset hq')
              · right
                intro w hw
                have hw' : w ∈ dGet d a := by
                  by_cases ha1 : a = v1
                  · subst ha1
                    rw [dGet_objSet_self] at hw
                    exact (List.mem_filter.mp hw).1
                  · rwa [dGet_objSet_ne _ _ _ _ ha1] at hw
                obtain ⟨ij, hij, w2, hw2, hchar⟩ := hs w hw'
                exact ⟨ij, hij, w2, by rwa [dGet_objSet_ne _ _ _ _ hb1], hchar⟩

/-- C3 (amended). Whenever `ac3` returns `true` on a symmetric, self-arc-free
constraint map, then for every arc `(A, B)` and every word `w` remaining in
`domain[A]` there is SOME overlap pair `(i, j)` of `constraints[A][B]` and
some `w' ∈ domain[B]` with `w[i] = w'[j]` (per-overlap-pair support, the
criterion `revise` enforces — not a single partner satisfying all pairs). -/
theorem c3_ac3_amended (cm : CMap) (hsym : SymB cm) (hns : NoSelfArc cm)
    (hne : NoEmptyOverlap cm) (fuel : Nat) (d d' : Domains)
    (hrun : ac3 cm fuel (initQueue cm) d = some (true, d')) :
    ∀ a b ov, cGet cm a b = some ov → ∀ w ∈ dGet d' a,
      ∃ ij ∈ ov, ∃ w2 ∈ dGet d' b, charAt w ij.1 = charAt w2 ij.2 := by
  intro a b ov hab
  exact ac3_post cm hsym hns hne fuel (initQueue cm) d d'
    (fun a' b' ov' h => Or.inl (mem_initQueue h)) hrun a b ov hab

/-- C3 counterexample. On `constraints[A][B] = [(0,0), (1,1)]` with
`domain[A] = ["AB"]`, `domain[B] = ["AC", "DB"]`, `ac3` returns `true` and
leaves the domains unchanged, yet no single word of `domain[B]` satisfies
BOTH overlap pairs against `"AB"`: the claim's "there exists w' satisfying
the overlap" fails when the overlap list has two pairs. -/
theorem c3_ac3_counterexample :
    ac3 [("A", [("B", [(0, 0), (1, 1)])]), ("B", [("A", [(0, 0), (1, 1)])])] 4
        (initQueue [("A", [("B", [(0, 0), (1, 1)])]), ("B", [("A", [(0, 0), (1, 1)])])])
        [("A", ["AB"]), ("B", ["AC", "DB"])] =
      some (true, [("A", ["AB"]), ("B", ["AC", "DB"])]) ∧
    cGet [("A", [("B", [(0, 0), (1, 1)])]), ("B", [("A", [(0, 0), (1, 1)])])] "A" "B" =
      some [(0, 0), (1, 1)] ∧
    "AB" ∈ dGet [("A", ["AB"]), ("B", ["AC", "DB"])] "A" ∧
    ¬ ∃ w2 ∈ dGet [("A", ["AB"]), ("B", ["AC", "DB"])] "B",
        ∀ ij ∈ ([(0, 0), (1, 1)] : Overlaps), charAt "AB" ij.1 = charAt w2 ij.2 := by
  refine ⟨by decide, by decide, by decide, ?_⟩
  rintro ⟨w2, hw2, hall⟩
  have h1 := hall (0, 0) (by decide)
  have h2 := hall (1, 1) (by decide)
  have hcases : w2 = "AC" ∨ w2 = "DB" := by
    simpa [dGet, lookupA] using hw2
  rcases hcases with rfl | rfl
  · revert h2; decide
  · revert h1; decide

/-- Witness for the amended C3 at the counterexample input. -/
theorem c3_ac3_amended_witness :
    SymB [("A", [("B", [(0, 0), (1, 1)])]), ("B", [("A", [(0, 0), (1, 1)])])] ∧
    ∀ a b ov,
      cGet [("A", [("B", [(0, 0), (1, 1)])]), ("B", [("A", [(0, 0), (1, 1)])])] a b =
        some ov →
      ∀ w ∈ dGet [("A", ["AB"]), ("B", ["AC", "DB"])] a,
        ∃ ij ∈ ov, ∃ w2 ∈ dGet [("A", ["AB"]), ("B", ["AC", "DB"])] b,
          charAt w ij.1 = charAt w2 ij.2 :=
  ⟨by decide,
    c3_ac3_amended [("A", [("B", [(0, 0), (1, 1)])]), ("B", [("A", [(0, 0), (1, 1)])])]
      (by decide) (by decide) (by decide) 4
      [("A", ["AB"]), ("B", ["AC", "DB"])] [("A", ["AB"]), ("B", ["AC", "DB"])]
      (by decide)⟩

-- ----------------------------------------------------------------
-- Characterization of `positionMap` and `overlapEntries`
-- ----------------------------------------------------------------

theorem lookupA_pushPM (m : PosMap) (p q : Pos) (e : String × Nat) :
    lookupA (pushPM m p e) q =
      if q = p then some ((lookupA m p).getD [] ++ [e]) else lookupA m q := by
  unfold pushPM
  by_cases hq : q = p
  · subst hq
    cases hov : lookupA m q with
    | some l => simp [hov, lookupA_objSet_self]
    | none => simp [hov, lookupA_append, lookupA]
  · cases hov : lookupA m p with
    | some l => simp [hq, lookupA_objSet_ne _ _ _ _ hq]
    | none =>
      simp only [if_neg hq, lookupA_append]
      cases h2 : lookupA m q with
      | some v => simp
      | none => simp [lookupA, Ne.symm hq]

theorem fold_pushPM_char (s : String) :
    ∀ (l : List (Nat × Pos)) (m : PosMap) (q : Pos),
      (lookupA (l.foldl (fun m' ip => pushPM m' ip.2 (s, ip.1)) m) q).getD [] =
        (lookupA m q).getD [] ++
          (l.filter (fun ip => ip.2 = q)).map (fun ip => (s, ip.1)) := by
  intro l
  induction l with
  | nil => simp
  | cons ip t ih =>
    intro m q
    rw [List.foldl_cons, ih]
    by_cases hq : ip.2 = q
    · rw [List.filter_cons_of_pos (by simpa using hq), ← hq, lookupA_pushPM]
      simp
    · rw [List.filter_cons_of_neg (by simpa using hq), lookupA_pushPM,
        if_neg (fun h => hq h.symm)]

theorem buildPositionMap_char (slots : SlotMap) (q : Pos) :
    (lookupA (buildPositionMap slots) q).getD [] =
      slots.flatMap (fun sp =>
        (sp.2.enum.filter (fun ip => ip.2 = q)).map (fun ip => (sp.1, ip.1))) := by
  unfold buildPositionMap
  suffices h : ∀ (l : SlotMap) (m : PosMap),
      (lookupA (l.foldl (fun m sp =>
        sp.2.enum.foldl (fun m' ip => pushPM m' ip.2 (sp.1, ip.1)) m) m) q).getD [] =
      (lookupA m q).getD [] ++ l.flatMap (fun sp =>
        (sp.2.enum.filter (fun ip => ip.2 = q)).map (fun ip => (sp.1, ip.1))) by
    simpa [lookupA] using h slots []
  intro l
  induction l with
  | nil => simp
  | cons sp t ih =>
    intro m
    rw [List.foldl_cons, ih, fold_pushPM_char]
    simp

/-- Membership in the entry list of a cell: exactly the `(slot, idx)` pairs
whose slot covers the cell at that index. -/
theorem mem_entriesAt (slots : SlotMap) (q : Pos) (s : String) (i : Nat) :
    (s, i) ∈ (lookupA (buildPositionMap slots) q).getD [] ↔
      ∃ ps, (s, ps) ∈ slots ∧ ps.get? i = some q := by
  rw [buildPositionMap_char]
  simp only [List.mem_flatMap, List.mem_map, List.mem_filter]
  constructor
  · rintro ⟨sp, hsp, ⟨ip, ⟨hmem, hpos⟩, heq⟩⟩
    obtain ⟨rfl, rfl⟩ : sp.1 = s ∧ ip.1 = i :=
      ⟨congrArg Prod.fst heq, congrArg Prod.snd heq⟩
    refine ⟨sp.2, by simpa using hsp, ?_⟩
    have := List.mk_mem_enum_iff_getElem?.mp hmem
    rw [List.get?_eq_getElem?, this]
    simpa using hpos
  · rintro ⟨ps, hmem, hget⟩
    refine ⟨(s, ps), hmem, (i, q), ⟨?_, by simp⟩, rfl⟩
    exact List.mk_mem_enum_iff_getElem?.mpr (by rw [← List.get?_eq_getElem?, hget])

theorem cellPairs_complete {l : List (String × Nat)} {x y : String × Nat}
    (hx : x ∈ l) (hy : y ∈ l) (hne : x ≠ y) :
    (⟨x.1, x.2, y.1, y.2⟩ : OverlapEntry) ∈ cellPairs l ∨
      (⟨y.1, y.2, x.1, x.2⟩ : OverlapEntry) ∈ cellPairs l := by
  induction l with
  | nil => simp at hx
  | cons z t ih =>
    rcases List.mem_cons.mp hx with rfl | hx'
    · have hy' : y ∈ t := by
        rcases List.mem_cons.mp hy with rfl | h
        · exact absurd rfl hne
        · exact h
      left
      unfold cellPairs
      refine List.mem_append.mpr (Or.inl ?_)
      exact List.mem_map.mpr ⟨y, hy', rfl⟩
    · rcases List.mem_cons.mp hy with rfl | hy'
      · right
        unfold cellPairs
        refine List.mem_append.mpr (Or.inl ?_)
        exact List.mem_map.mpr ⟨x, hx', rfl⟩
      · rcases ih hx' hy' with h | h
        · left
          unfold cellPairs
          exact List.mem_append.mpr (Or.inr h)
        · right
          unfold cellPairs
          exact List.mem_append.mpr (Or.inr h)

theorem cellPairs_sound {l : List (String × Nat)} {e : OverlapEntry}
    (he : e ∈ cellPairs l) :
    ∃ l1 l2, l = l1 ++ (e.slotA, e.idxA) :: l2 ∧ (e.slotB, e.idxB) ∈ l2 := by
  induction l with
  | nil => simp [cellPairs] at he
  | cons z t ih =>
    unfold cellPairs at he
    rcases List.mem_append.mp he with h | h
    · obtain ⟨y, hy, rfl⟩ := List.mem_map.mp h
      exact ⟨[], t, by simp, hy⟩
    · obtain ⟨l1, l2, rfl, hmem⟩ := ih h
      exact ⟨z :: l1, l2, by simp, hmem⟩

/-- Monotonicity: a recorded overlap pair stays recorded through later pushes. -/
theorem memO_mono_fold (x y : String) (q : Nat × Nat) :
    ∀ (L : List OverlapEntry) (cm : CMap), memO q (cGet cm x y) →
      memO q (cGet (L.foldl addConstraintPair cm) x y) := by
  intro L
  induction L with
  | nil => intro cm h; exact h
  | cons e t ih =>
    intro cm h
    refine ih _ ?_
    unfold addConstraintPair
    rw [memO_pushPair, memO_pushPair]
    exact Or.inl (Or.inl h)

theorem mem_fold_memO {L : List OverlapEntry} {e : OverlapEntry} (he : e ∈ L) (cm : CMap) :
    memO (e.idxA, e.idxB) (cGet (L.foldl addConstraintPair cm) e.slotA e.slotB) := by
  obtain ⟨l1, l2, rfl⟩ := List.append_of_mem he
  rw [List.foldl_append, List.foldl_cons]
  apply memO_mono_fold
  unfold addConstraintPair
  rw [memO_pushPair, memO_pushPair]
  exact Or.inl (Or.inr ⟨rfl, rfl, rfl⟩)

/-- Completeness of constraint construction: slots sharing a cell are
constrained at the shared indices. -/
theorem generateConstraints_complete {slots : SlotMap} {sA sB : String}
    {psA psB : List Pos} {iA iB : Nat} {p : Pos}
    (hA : (sA, psA) ∈ slots) (hB : (sB, psB) ∈ slots) (hne : sA ≠ sB)
    (hiA : psA.get? iA = some p) (hiB : psB.get? iB = some p) :
    memO (iA, iB) (cGet (generateConstraints slots) sA sB) := by
  have hxA : (sA, iA) ∈ (lookupA (buildPositionMap slots) p).getD [] :=
    (mem_entriesAt slots p sA iA).mpr ⟨psA, hA, hiA⟩
  have hxB : (sB, iB) ∈ (lookupA (buildPositionMap slots) p).getD [] :=
    (mem_entriesAt slots p sB iB).mpr ⟨psB, hB, hiB⟩
  have hxy : ((sA, iA) : String × Nat) ≠ (sB, iB) := by
    intro h
    exact hne (congrArg Prod.fst h)
  have hcp := cellPairs_complete hxA hxB hxy
  have hsub : ∀ e : OverlapEntry,
      e ∈ cellPairs ((lookupA (buildPositionMap slots) p).getD []) →
      e ∈ overlapEntries slots := by
    intro e he
    unfold overlapEntries
    cases hl : lookupA (buildPositionMap slots) p with
    | none => rw [hl] at he; simp [cellPairs] at he
    | some entries =>
      rw [hl] at he
      simp only [Option.getD_some] at he
      exact List.mem_flatMap.mpr ⟨(p, entries), lookupA_mem _ _ _ hl, he⟩
  rcases hcp with h | h
  · exact mem_fold_memO (hsub _ h) []
  · have := mem_fold_memO (hsub _ h) []
    -- the mirrored entry also records `(iA, iB)` in `cGet _ sA sB`
    obtain ⟨l1, l2, hL⟩ := List.append_of_mem (hsub _ h)
    rw [show generateConstraints slots = (overlapEntries slots).foldl addConstraintPair []
      from rfl, hL, List.foldl_append, List.foldl_cons]
    apply memO_mono_fold
    unfold addConstraintPair
    rw [memO_pushPair, memO_pushPair]
    exact Or.inr ⟨rfl, rfl, rfl⟩

-- ----------------------------------------------------------------
-- Key-uniqueness invariants of the constructed maps
-- ----------------------------------------------------------------

/-- The outer key list of a map has no duplicates. -/
def NodupKeys {α β : Type} (l : List (α × β)) : Prop := (keysOf l).Nodup

theorem mem_objSet {α β : Type} [DecidableEq α] :
    ∀ (l : List (α × β)) (k : α) (v : β) (x : α × β),
      x ∈ objSet l k v → x = (k, v) ∨ x ∈ l := by
  intro l
  induction l with
  | nil => intro k v x h; simpa [objSet] using h
  | cons e t ih =>
    intro k v x h
    by_cases he : e.1 = k
    · rw [objSet, if_pos he] at h
      rcases List.mem_cons.mp h with rfl | h'
      · exact Or.inl rfl
      · exact Or.inr (List.mem_cons_of_mem _ h')
    · rw [objSet, if_neg he] at h
      rcases List.mem_cons.mp h with rfl | h'
      · exact Or.inr (List.mem_cons_self _ _)
      · rcases ih _ _ _ h' with h2 | h2
        · exact Or.inl h2
        · exact Or.inr (List.mem_cons_of_mem _ h2)

theorem nodupKeys_objSet_mem {α β : Type} [DecidableEq α] (l : List (α × β)) (k : α) (v : β)
    (hk : k ∈ keysOf l) (h : NodupKeys l) : NodupKeys (objSet l k v) := by
  unfold NodupKeys
  rw [keysOf_objSet_mem _ _ _ hk]
  exact h

theorem nodupKeys_append_fresh {α β : Type} [DecidableEq α] (l : List (α × β)) (k : α) (v : β)
    (hk : ¬k ∈ keysOf l) (h : NodupKeys l) : NodupKeys (l ++ [(k, v)]) := by
  unfold NodupKeys keysOf at h ⊢
  rw [List.map_append]
  simp only [List.map_cons, List.map_nil]
  rw [List.nodup_append]
  refine ⟨h, by simp, ?_⟩
  intro a ha
  simp only [List.mem_singleton]
  intro hb
  subst hb
  exact hk ha

theorem lookupA_none_iff {α β : Type} [DecidableEq α] (l : List (α × β)) (k : α) :
    lookupA l k = none ↔ ¬k ∈ keysOf l := by
  rw [← lookupA_isSome_iff_mem_keys]
  cases lookupA l k <;> simp

theorem nodupKeys_pushPair {cm : CMap} (h : NodupKeys cm) (a b : String) (p : Nat × Nat) :
    NodupKeys (pushPair cm a b p) := by
  unfold pushPair
  cases hin : lookupA cm a with
  | some inner =>
    exact nodupKeys_objSet_mem _ _ _ ((lookupA_isSome_iff_mem_keys _ _).mp (by simp [hin])) h
  | none => exact nodupKeys_append_fresh _ _ _ ((lookupA_none_iff _ _).mp hin) h

theorem nodupKeys_generateConstraints (slots : SlotMap) :
    NodupKeys (generateConstraints slots) := by
  unfold generateConstraints
  refine foldl_preserve NodupKeys addConstraintPair ?_ _ [] (by simp [NodupKeys, keysOf])
  intro cm e h
  exact nodupKeys_pushPair (nodupKeys_pushPair h _ _ _) _ _ _

theorem nodupKeys_pushInner {inner : List (String × Overlaps)} (h : NodupKeys inner)
    (b : String) (p : Nat × Nat) : NodupKeys (pushInner inner b p) := by
  unfold pushInner
  cases hin : lookupA inner b with
  | some ov =>
    exact nodupKeys_objSet_mem _ _ _ ((lookupA_isSome_iff_mem_keys _ _).mp (by simp [hin])) h
  | none => exact nodupKeys_append_fresh _ _ _ ((lookupA_none_iff _ _).mp hin) h

/-- Every inner map of the constraint table has distinct keys. -/
def InnerNodup (cm : CMap) : Prop := ∀ e ∈ cm, NodupKeys e.2

theorem innerNodup_pushPair {cm : CMap} (h : InnerNodup cm) (a b : String) (p : Nat × Nat) :
    InnerNodup (pushPair cm a b p) := by
  unfold pushPair
  cases hin : lookupA cm a with
  | some inner =>
    intro e he
    rcases mem_objSet _ _ _ _ he with rfl | he'
    · exact nodupKeys_pushInner (h _ (lookupA_mem _ _ _ hin)) _ _
    · exact h _ he'
  | none =>
    intro e he
    rcases List.mem_append.mp he with he' | he'
    · exact h _ he'
    · obtain rfl : e = (a, pushInner [] b p) := by simpa using he'
      simp [pushInner, lookupA, NodupKeys, keysOf]

theorem innerNodup_generateConstraints (slots : SlotMap) :
    InnerNodup (generateConstraints slots) := by
  unfold generateConstraints
  refine foldl_preserve InnerNodup addConstraintPair ?_ _ [] (by intro e he; simp at he)
  intro cm e h
  exact innerNodup_pushPair (innerNodup_pushPair h _ _ _) _ _ _

theorem lookupA_of_mem_nodup {α β : Type} [DecidableEq α] :
    ∀ {l : List (α × β)} {k : α} {v : β}, NodupKeys l → (k, v) ∈ l → lookupA l k = some v := by
  intro l
  induction l with
  | nil => intro k v _ h; simp at h
  | cons e t ih =>
    intro k v hnd h
    rcases List.mem_cons.mp h with rfl | h'
    · simp [lookupA]
    · have hk : e.1 ≠ k := by
        intro he
        have : k ∈ keysOf t := List.mem_map.mpr ⟨(k, v), h', rfl⟩
        have := (List.nodup_cons.mp hnd).1
        rw [he] at this
        exact this ‹k ∈ keysOf t›
      rw [lookupA, if_neg hk]
      exact ih (List.nodup_cons.mp hnd).2 h'

/-- On nodup-keyed maps, entry-level symmetry follows from `SymC`. -/
theorem symB_of_symC {cm : CMap} (hsc : SymC cm) (hout : NodupKeys cm)
    (hin : InnerNodup cm) : SymB cm := by
  intro e he be hbe ij hij
  have h1 : cGet cm e.1 be.1 = some be.2 := by
    unfold cGet
    rw [lookupA_of_mem_nodup hout (by simpa using he)]
    simp only [Option.some_bind]
    exact lookupA_of_mem_nodup (hin e he) (by simpa using hbe)
  have h2 : memO (ij.1, ij.2) (cGet cm e.1 be.1) := ⟨be.2, h1, by simpa using hij⟩
  have h3 := ((hsc e.1 be.1).2 ij.1 ij.2).mp h2
  obtain ⟨ov', hov', hmem⟩ := h3
  rw [hov']
  simpa using hmem

/-- `generateConstraints` output satisfies the entry-level symmetry. -/
theorem symB_generateConstraints (slots : SlotMap) : SymB (generateConstraints slots) :=
  symB_of_symC (symC_generateConstraints slots) (nodupKeys_generateConstraints slots)
    (innerNodup_generateConstraints slots)

-- ----------------------------------------------------------------
-- Absence of self-arcs in `generateConstraints` output
-- ----------------------------------------------------------------

/-- Every slot's position list is duplicate-free (true of extracted slots,
whose positions strictly advance). -/
def NodupPositions (slots : SlotMap) : Prop := ∀ e ∈ slots, e.2.Nodup

theorem nodupKeys_pushPM {m : PosMap} (h : NodupKeys m) (p : Pos) (e : String × Nat) :
    NodupKeys (pushPM m p e) := by
  unfold pushPM
  cases hin : lookupA m p with
  | some l =>
    exact nodupKeys_objSet_mem _ _ _ ((lookupA_isSome_iff_mem_keys _ _).mp (by simp [hin])) h
  | none => exact nodupKeys_append_fresh _ _ _ ((lookupA_none_iff _ _).mp hin) h

theorem nodupKeys_buildPositionMap (slots : SlotMap) : NodupKeys (buildPositionMap slots) := by
  unfold buildPositionMap
  refine foldl_preserve NodupKeys _ ?_ _ [] (by simp [NodupKeys, keysOf])
  intro m sp hm
  exact foldl_preserve NodupKeys _ (fun m' ip h => nodupKeys_pushPM h _ _) _ _ hm

theorem mem_of_getElem?_eq {α : Type} :
    ∀ {l : List α} {i : Nat} {x : α}, l[i]? = some x → x ∈ l := by
  intro l
  induction l with
  | nil => intro i x h; simp at h
  | cons a t ih =>
    intro i x h
    cases i with
    | zero =>
      simp only [List.getElem?_cons_zero] at h
      obtain rfl : a = x := Option.some.inj h
      exact List.mem_cons_self _ _
    | succ j =>
      simp only [List.getElem?_cons_succ] at h
      exact List.mem_cons_of_mem _ (ih h)

theorem snd_mem_of_mem_enum {α : Type} {l : List α} {i : Nat} {x : α}
    (h : (i, x) ∈ l.enum) : x ∈ l :=
  mem_of_getElem?_eq (List.mk_mem_enum_iff_getElem?.mp h)

theorem filter_enumFrom_zero {q : Pos} :
    ∀ (ps : List Pos) (n : Nat), ¬q ∈ ps →
      ((List.enumFrom n ps).filter (fun ip => ip.2 = q)).length = 0 := by
  intro ps
  induction ps with
  | nil => intro n _; rfl
  | cons p t ih =>
    intro n hq
    have hp : ¬(p = q) := fun hc => hq (hc ▸ List.mem_cons_self _ _)
    have ht : ¬q ∈ t := fun hc => hq (List.mem_cons_of_mem _ hc)
    show (List.filter _ ((n, p) :: List.enumFrom (n + 1) t)).length = 0
    rw [List.filter_cons_of_neg (by simpa using hp)]
    exact ih (n + 1) ht

theorem filter_enumFrom_le_one {q : Pos} :
    ∀ (ps : List Pos) (n : Nat), ps.Nodup →
      ((List.enumFrom n ps).filter (fun ip => ip.2 = q)).length ≤ 1 := by
  intro ps
  induction ps with
  | nil => intro n _; simp [List.enumFrom]
  | cons p t ih =>
    intro n hnd
    show (List.filter _ ((n, p) :: List.enumFrom (n + 1) t)).length ≤ 1
    by_cases hp : p = q
    · rw [List.filter_cons_of_pos (by simpa using hp)]
      have ht : ¬q ∈ t := fun hc => (List.nodup_cons.mp hnd).1 (hp ▸ hc)
      rw [List.length_cons, filter_enumFrom_zero t (n + 1) ht]
    · rw [List.filter_cons_of_neg (by simpa using hp)]
      exact ih (n + 1) (List.nodup_cons.mp hnd).2

theorem countP_filter_enum_le_one {q : Pos} {ps : List Pos} (hnd : ps.Nodup) :
    (ps.enum.filter (fun ip => ip.2 = q)).length ≤ 1 :=
  filter_enumFrom_le_one ps 0 hnd

theorem countP_slot_flatMap_zero {slots : SlotMap} {s : String} {q : Pos}
    (hs : ¬s ∈ keysOf slots) :
    (slots.flatMap (fun sp =>
      (sp.2.enum.filter (fun ip => ip.2 = q)).map (fun ip => (sp.1, ip.1)))).countP
        (fun x => x.1 = s) = 0 := by
  rw [List.countP_eq_zero]
  intro x hx
  obtain ⟨sp, hsp, hx2⟩ := List.mem_flatMap.mp hx
  obtain ⟨ip, -, rfl⟩ := List.mem_map.mp hx2
  simp only [decide_eq_true_eq]
  intro hc
  exact hs (List.mem_map.mpr ⟨sp, hsp, hc⟩)

/-- Each slot occurs at most once among a cell's entries. -/
theorem countP_entriesAt_le_one {slots : SlotMap} (hkeys : NodupKeys slots)
    (hpos : NodupPositions slots) (q : Pos) (s : String) :
    ((lookupA (buildPositionMap slots) q).getD []).countP (fun x => x.1 = s) ≤ 1 := by
  rw [buildPositionMap_char]
  induction slots with
  | nil => simp
  | cons sp t ih =>
    rw [List.flatMap_cons, List.countP_append]
    have hkt : NodupKeys t := (List.nodup_cons.mp hkeys).2
    have hpt : NodupPositions t := fun e he => hpos e (List.mem_cons_of_mem _ he)
    by_cases hsp : sp.1 = s
    · have hzero : (t.flatMap (fun sp =>
          (sp.2.enum.filter (fun ip => ip.2 = q)).map (fun ip => (sp.1, ip.1)))).countP
            (fun x => x.1 = s) = 0 := by
        apply countP_slot_flatMap_zero
        rw [← hsp]
        exact (List.nodup_cons.mp hkeys).1
      rw [hzero]
      have hone : ((sp.2.enum.filter (fun ip => ip.2 = q)).map
          (fun ip => (sp.1, ip.1))).countP (fun x => x.1 = s) ≤ 1 := by
        calc ((sp.2.enum.filter (fun ip => ip.2 = q)).map
              (fun ip => (sp.1, ip.1))).countP (fun x => x.1 = s)
            ≤ ((sp.2.enum.filter (fun ip => ip.2 = q)).map
              (fun ip => (sp.1, ip.1))).length := List.countP_le_length _
          _ = (sp.2.enum.filter (fun ip => ip.2 = q)).length := List.length_map _ _
          _ ≤ 1 := countP_filter_enum_le_one (hpos sp (List.mem_cons_self _ _))
      omega
    · have hzero : ((sp.2.enum.filter (fun ip => ip.2 = q)).map
          (fun ip => (sp.1, ip.1))).countP (fun x => x.1 = s) = 0 := by
        rw [List.countP_eq_zero]
        intro x hx
        obtain ⟨ip, -, rfl⟩ := List.mem_map.mp hx
        simpa using hsp
      rw [hzero]
      simpa using ih hkt hpt

theorem overlapEntries_ne {slots : SlotMap} (hkeys : NodupKeys slots)
    (hpos : NodupPositions slots) {e : OverlapEntry} (he : e ∈ overlapEntries slots) :
    e.slotA ≠ e.slotB := by
  intro hcontra
  unfold overlapEntries at he
  obtain ⟨pe, hpe, hcell⟩ := List.mem_flatMap.mp he
  obtain ⟨l1, l2, hsplit, hmem⟩ := cellPairs_sound hcell
  have hlk : lookupA (buildPositionMap slots) pe.1 = some pe.2 :=
    lookupA_of_mem_nodup (nodupKeys_buildPositionMap slots) (by simpa using hpe)
  have hcount := countP_entriesAt_le_one hkeys hpos pe.1 e.slotA
  rw [hlk] at hcount
  simp only [Option.getD_some] at hcount
  rw [hsplit, List.countP_append, List.countP_cons] at hcount
  have h2 : 0 < l2.countP (fun x => x.1 = e.slotA) := by
    rw [List.countP_pos_iff]
    exact ⟨(e.slotB, e.idxB), hmem, by simpa using hcontra.symm⟩
  simp only [decide_True, if_true, decide_eq_true_eq] at hcount
  omega

theorem cGet_pushPair_untouched {cm : CMap} {a b x y : String} {p : Nat × Nat}
    (h : ¬(x = a ∧ y = b)) : cGet (pushPair cm a b p) x y = cGet cm x y := by
  rw [cGet_pushPair, if_neg h]

theorem cGet_fold_untouched {x y : String} :
    ∀ {L : List OverlapEntry} {cm : CMap},
      (∀ e ∈ L, ¬(e.slotA = x ∧ e.slotB = y) ∧ ¬(e.slotB = x ∧ e.slotA = y)) →
      cGet (L.foldl addConstraintPair cm) x y = cGet cm x y := by
  intro L
  induction L with
  | nil => intro cm _; rfl
  | cons e t ih =>
    intro cm hL
    rw [List.foldl_cons, ih (fun e' he' => hL e' (List.mem_cons_of_mem _ he'))]
    have h1 := (hL e (List.mem_cons_self _ _)).1
    have h2 := (hL e (List.mem_cons_self _ _)).2
    unfold addConstraintPair
    rw [cGet_pushPair_untouched
        (show ¬(x = e.slotB ∧ y = e.slotA) from fun hc => h2 ⟨hc.1.symm, hc.2.symm⟩),
      cGet_pushPair_untouched
        (show ¬(x = e.slotA ∧ y = e.slotB) from fun hc => h1 ⟨hc.1.symm, hc.2.symm⟩)]

/-- With unique slot names and duplicate-free positions, a slot is never
constrained against itself. -/
theorem cGet_self_none {slots : SlotMap} (hkeys : NodupKeys slots)
    (hpos : NodupPositions slots) (s : String) :
    cGet (generateConstraints slots) s s = none := by
  unfold generateConstraints
  rw [cGet_fold_untouched]
  · simp [cGet, lookupA]
  · intro e he
    have := overlapEntries_ne hkeys hpos he
    constructor
    · intro hc
      exact this (hc.1.trans hc.2.symm)
    · intro hc
      exact this (hc.2.trans hc.1.symm)

theorem noSelfArc_generateConstraints {slots : SlotMap} (hkeys : NodupKeys slots)
    (hpos : NodupPositions slots) : NoSelfArc (generateConstraints slots) := by
  have hnone : ∀ s, cGet (generateConstraints slots) s s = none := cGet_self_none hkeys hpos
  intro e he
  have hlk : lookupA (generateConstraints slots) e.1 = some e.2 :=
    lookupA_of_mem_nodup (nodupKeys_generateConstraints slots) (by simpa using he)
  have := hnone e.1
  unfold cGet at this
  rw [hlk] at this
  simpa using this

-- ----------------------------------------------------------------
-- Backtracking search (`backtrackingSolve` and helpers of script.js)
-- ----------------------------------------------------------------

/-- The per-solve immutable context (the relevant `this.…` fields): slots,
constraints, pre-filled cell contents and the letter-frequency table. -/
structure Ctx where
  slots : SlotMap
  constraints : CMap
  cellContents : Pos → Option String
  letterFrequencies : Char → Nat

/-- The mutable solver state: domains, the found solution, the memoization
cache keyed by the canonicalized assignment, and the stream of naturals
modelling the `Math.random()` draws. -/
structure SearchState where
  domains : Domains
  solution : List (String × String)
  cache : List (List (String × String) × Bool)
  rnd : List Nat
deriving DecidableEq, Repr

/-- One `Math.floor(Math.random() * bound)` draw. -/
def drawRand (st : SearchState) (bound : Nat) : Nat × SearchState :=
  (st.rnd.headD 0 % bound, { st with rnd := st.rnd.tail })

/-- `[array[i], array[j]] = [array[j], array[i]]`. -/
def listSwap {α : Type} (l : List α) (i j : Nat) : List α :=
  match l.get? i, l.get? j with
  | some a, some b => (l.set i b).set j a
  | _, _ => l

/-- The Fisher–Yates loop body, from index `i` downward. -/
def fisherYates {α : Type} : List α → List Nat → Nat → List α × List Nat
  | l, rnd, 0 => (l, rnd)
  | l, rnd, i + 1 =>
    let j := rnd.headD 0 % (i + 2)
    fisherYates (listSwap l (i + 1) j) rnd.tail i

/-- `shuffleArray`: Fisher–Yates from the last index down to 1. -/
def shuffleArray {α : Type} (l : List α) (rnd : List Nat) : List α × List Nat :=
  fisherYates l rnd (l.length - 1)

/-- `randomizeDomains`: shuffle every domain in place before search. -/
def randomizeDomains (d : Domains) (rnd : List Nat) : Domains × List Nat :=
  d.foldl (fun acc e =>
    let (shuffled, rnd') := shuffleArray (dGet acc.1 e.1) acc.2
    (objSet acc.1 e.1 shuffled, rnd')) (d, rnd)

/-- Insertion into a sorted list. -/
def insertSorted {α : Type} (le : α → α → Bool) (x : α) : List α → List α
  | [] => [x]
  | y :: t => if le x y then x :: y :: t else y :: insertSorted le x t

/-- An executable stable ascending sort modelling `Array.prototype.sort`
with a numeric comparator (the exact tie order is irrelevant: a shuffle
follows wherever this is used, and the cache key only needs canonicity). -/
def sortBy {α : Type} (le : α → α → Bool) : List α → List α
  | [] => []
  | x :: t => insertSorted le x (sortBy le t)

/-- `Object.entries(assignment).sort()`: a canonical ordering of the
assignment entries, used as the memoization key. -/
def entryLE (a b : String × String) : Bool :=
  if a.1 = b.1 then decide (a.2 ≤ b.2) else decide (a.1 < b.1)

/-- The canonical cache key of an assignment. -/
def assignmentKey (assignment : List (String × String)) : List (String × String) :=
  sortBy entryLE assignment

/-- `getFrequencyScore`: sum of letter frequencies over the word. -/
def getFrequencyScore (ctx : Ctx) (word : String) : Nat :=
  word.data.foldl (fun acc ch => acc + ctx.letterFrequencies ch) 0

/-- `wordMatchesPreFilledLetters`: each position's pre-filled content (if
truthy) must equal the single-character string `word[i]`. -/
def wordMatchesPreFilledLetters (ctx : Ctx) (slot word : String) : Bool :=
  ((lookupA ctx.slots slot).getD []).enum.all (fun ip =>
    match ctx.cellContents ip.2 with
    | some v =>
      if v = "" then true
      else
        match charAt word ip.1 with
        | some ch => v.data = [ch]
        | none => false
    | none => true)

/-- `wordsMatch`: all overlap pairs of `constraints[v1][v2]` agree (the JS
`===` on possibly-`undefined` characters is `Option` equality). -/
def wordsMatch (ctx : Ctx) (v1 w1 v2 w2 : String) : Bool :=
  ((cGet ctx.constraints v1 v2).getD []).all
    (fun ij => charAt w1 ij.1 == charAt w2 ij.2)

/-- `isConsistent`: the candidate matches the pre-filled letters, agrees with
every assigned neighbor, and leaves every unassigned neighbor a viable word. -/
def isConsistent (ctx : Ctx) (slot word : String) (assignment : List (String × String))
    (d : Domains) : Bool :=
  wordMatchesPreFilledLetters ctx slot word &&
  ((lookupA ctx.constraints slot).getD []).all (fun be =>
    match lookupA assignment be.1 with
    | some w2 => wordsMatch ctx slot word be.1 w2
    | none => !((dGet d be.1).filter (fun w => wordsMatch ctx slot word be.1 w)).isEmpty)

/-- The `forwardCheck` loop over the neighbor list: snapshot and prune each
unassigned neighbor; on a wipe-out return `none` with the domains as already
mutated (the JS `return false` leaves earlier prunings in place). -/
def forwardCheckGo (ctx : Ctx) (slot value : String) (assignment : List (String × String)) :
    List (String × Overlaps) → Domains → List (String × List String) →
    Option (List (String × List String)) × Domains
  | [], d, inf => (some inf, d)
  | be :: rest, d, inf =>
    if (lookupA assignment be.1).isSome then
      forwardCheckGo ctx slot value assignment rest d inf
    else
      let newDomain := (dGet d be.1).filter (fun w => wordsMatch ctx slot value be.1 w)
      if newDomain.isEmpty then (none, d)
      else
        forwardCheckGo ctx slot value assignment rest (objSet d be.1 newDomain)
          (objSet inf be.1 (dGet d be.1))

/-- `forwardCheck`: prune the unassigned neighbors of `slot` against `value`,
returning the snapshots (`inferences`) or `none` (the JS `false`). -/
def forwardCheck (ctx : Ctx) (slot value : String) (assignment : List (String × String))
    (d : Domains) : Option (List (String × List String)) × Domains :=
  forwardCheckGo ctx slot value assignment ((lookupA ctx.constraints slot).getD []) d []

/-- `restoreDomains`: write every snapshot back; a no-op on the JS `false`. -/
def restoreDomains (infOpt : Option (List (String × List String))) (d : Domains) : Domains :=
  match infOpt with
  | none => d
  | some inf => inf.foldl (fun d' e => objSet d' e.1 e.2) d

/-- One step of the MRV scan (`minSize` starts at `Infinity`, modelled by
`none`). -/
def mrvStep (d : Domains) (acc : Option Nat × List String) (slot : String) :
    Option Nat × List String :=
  let size := (dGet d slot).length
  match acc.1 with
  | none => (some size, [slot])
  | some m =>
    if size < m then (some size, [slot])
    else if size = m then (some m, acc.2 ++ [slot])
    else acc

/-- The MRV scan of `selectUnassignedVariable`. -/
def mrvScan (d : Domains) (unassigned : List String) : Option Nat × List String :=
  unassigned.foldl (mrvStep d) (none, [])

/-- One step of the degree scan (`maxDegree` starts at `-1`). -/
def degreeStep (ctx : Ctx) (acc : Int × List String) (slot : String) : Int × List String :=
  let deg : Int := ((lookupA ctx.constraints slot).map (fun inner => inner.length)).getD 0
  if deg > acc.1 then (deg, [slot])
  else if deg = acc.1 then (acc.1, acc.2 ++ [slot])
  else acc

/-- The degree scan. -/
def degreeScan (ctx : Ctx) (candidates : List String) : Int × List String :=
  candidates.foldl (degreeStep ctx) (-1, [])

/-- `selectUnassignedVariable`: MRV, then degree, then a random tie-break. -/
def selectUnassignedVariable (ctx : Ctx) (assignment : List (String × String))
    (st : SearchState) : Option String × SearchState :=
  let unassigned := (keysOf st.domains).filter (fun s => (lookupA assignment s).isNone)
  if unassigned.isEmpty then (none, st)
  else
    let candidates := (mrvScan st.domains unassigned).2
    let finalCandidates := (degreeScan ctx candidates).2
    let (r, st') := drawRand st finalCandidates.length
    (finalCandidates.get? r, st')

/-- `orderDomainValues`: sort ascending by frequency score, then shuffle. -/
def orderDomainValues (ctx : Ctx) (slot : String) (st : SearchState) :
    List String × SearchState :=
  let domain := dGet st.domains slot
  let sorted := sortBy (fun a b => getFrequencyScore ctx a ≤ getFrequencyScore ctx b) domain
  let (shuffled, rnd') := shuffleArray sorted st.rnd
  (shuffled, { st with rnd := rnd' })

/-- The candidate-value loop of `backtrackingSolve`, parameterized by the
recursive call (`recur` is the search at the next depth). -/
def tryValues (ctx : Ctx)
    (recur : List (String × String) → SearchState → Option (Bool × SearchState))
    (slot : String) (assignment : List (String × String)) :
    List String → SearchState → Option (Bool × SearchState)
  | [], st => some (false, st)
  | value :: rest, st =>
    if isConsistent ctx slot value assignment st.domains then
      let assignment' := objSet assignment slot value
      let (infOpt, d') := forwardCheck ctx slot value assignment' st.domains
      match infOpt with
      | none =>
        -- `inferences === false`: no recursion; `restoreDomains(false)` is a no-op,
        -- so the partial prunings of the failed forward check remain
        tryValues ctx recur slot assignment rest { st with domains := d' }
      | some inf =>
        match recur assignment' { st with domains := d' } with
        | none => none
        | some (true, st') => some (true, st')
        | some (false, st') =>
          tryValues ctx recur slot assignment rest
            { st' with domains := restoreDomains (some inf) st'.domains }
    else tryValues ctx recur slot assignment rest st

/-- `backtrackingSolve`: complete-assignment check, memoization lookup,
MRV/degree variable choice, LCV value order, then the candidate loop; the
result of the loop (or the dead-end `false`) is cached under this frame's
assignment key. `none` only on fuel exhaustion. -/
def backtrackingSolve (ctx : Ctx) : Nat → List (String × String) → SearchState →
    Option (Bool × SearchState)
  | 0, _, _ => none
  | fuel + 1, assignment, st =>
    if assignment.length = ctx.slots.length then
      some (true, { st with solution := assignment })
    else
      let key := assignmentKey assignment
      match lookupA st.cache key with
      | some b => some (b, st)
      | none =>
        match selectUnassignedVariable ctx assignment st with
        | (none, st₁) => some (false, { st₁ with cache := objSet st₁.cache key false })
        | (some slot, st₁) =>
          let (vals, st₂) := orderDomainValues ctx slot st₁
          match tryValues ctx (fun a s => backtrackingSolve ctx fuel a s)
              slot assignment vals st₂ with
          | none => none
          | some (r, st₃) => some (r, { st₃ with cache := objSet st₃.cache key r })

-- ----------------------------------------------------------------
-- Further association-map lemmas for the backtracking proofs
-- ----------------------------------------------------------------

theorem keysOf_cons {α β : Type} (e : α × β) (t : List (α × β)) :
    keysOf (e :: t) = e.1 :: keysOf t := rfl

theorem objSet_fresh_append {α β : Type} [DecidableEq α] :
    ∀ (l : List (α × β)) (k : α) (v : β), ¬k ∈ keysOf l → objSet l k v = l ++ [(k, v)] := by
  intro l
  induction l with
  | nil => intro k v _; rfl
  | cons e t ih =>
    intro k v hk
    rw [keysOf_cons] at hk
    have he : e.1 ≠ k := fun hc => hk (hc ▸ List.mem_cons_self _ _)
    have hkt : ¬k ∈ keysOf t := fun hc => hk (List.mem_cons_of_mem _ hc)
    rw [objSet, if_neg he, ih _ _ hkt]
    simp

theorem objSet_objSet_same {α β : Type} [DecidableEq α] :
    ∀ (l : List (α × β)) (k : α) (v v' : β), objSet (objSet l k v) k v' = objSet l k v' := by
  intro l
  induction l with
  | nil => intro k v v'; simp [objSet]
  | cons e t ih =>
    intro k v v'
    by_cases he : e.1 = k
    · simp [objSet, he]
    · simp [objSet, he, ih]

theorem objSet_comm {α β : Type} [DecidableEq α] :
    ∀ (l : List (α × β)) (k k' : α) (v v' : β), k ≠ k' → k ∈ keysOf l →
      objSet (objSet l k v) k' v' = objSet (objSet l k' v') k v := by
  intro l
  induction l with
  | nil =>
    intro k k' v v' hne hk
    simp [keysOf] at hk
  | cons e t ih =>
    intro k k' v v' hne hk
    by_cases he : e.1 = k
    · have hk' : (k : α) ≠ k' := hne
      rw [objSet, if_pos he]
      rw [show objSet ((k, v) :: t) k' v' = (k, v) :: objSet t k' v' from by
        rw [objSet, if_neg (Ne.symm (Ne.symm hk'))]]
      have hek' : e.1 ≠ k' := he ▸ hk'
      rw [show objSet (e :: t) k' v' = e :: objSet t k' v' from by
        rw [objSet, if_neg hek']]
      rw [objSet, if_pos he]
    · have hkt : k ∈ keysOf t := by
        rw [keysOf_cons] at hk
        rcases List.mem_cons.mp hk with hc | hc
        · exact absurd hc.symm he
        · exact hc
      by_cases he' : e.1 = k'
      · rw [show objSet (e :: t) k v = e :: objSet t k v from by rw [objSet, if_neg he]]
        rw [show objSet (e :: objSet t k v) k' v' = (k', v') :: objSet t k v from by
          rw [objSet, if_pos he']]
        rw [show objSet (e :: t) k' v' = (k', v') :: t from by rw [objSet, if_pos he']]
        rw [show objSet ((k', v') :: t) k v = (k', v') :: objSet t k v from by
          rw [objSet, if_neg (Ne.symm hne)]]
      · rw [show objSet (e :: t) k v = e :: objSet t k v from by rw [objSet, if_neg he]]
        rw [show objSet (e :: objSet t k v) k' v' = e :: objSet (objSet t k v) k' v' from by
          rw [objSet, if_neg he']]
        rw [show objSet (e :: t) k' v' = e :: objSet t k' v' from by rw [objSet, if_neg he']]
        rw [show objSet (e :: objSet t k' v') k v = e :: objSet (objSet t k' v') k v from by
          rw [objSet, if_neg he]]
        rw [ih _ _ _ _ hne hkt]

theorem mem_keysOf_objSet_of_mem {α β : Type} [DecidableEq α] {l : List (α × β)} {k k' : α}
    (v : β) (hk : k ∈ keysOf l) : k ∈ keysOf (objSet l k' v) := by
  by_cases hk' : k' ∈ keysOf l
  · rw [keysOf_objSet_mem _ _ _ hk']
    exact hk
  · rw [objSet_fresh_append _ _ _ hk']
    unfold keysOf
    rw [List.map_append]
    exact List.mem_append.mpr (Or.inl hk)

theorem objSet_lookup_self {α β : Type} [DecidableEq α] :
    ∀ {l : List (α × β)} {k : α} {v : β}, lookupA l k = some v → objSet l k v = l := by
  intro l
  induction l with
  | nil => intro k v h; simp [lookupA] at h
  | cons e t ih =>
    intro k v h
    by_cases he : e.1 = k
    · rw [lookupA, if_pos he] at h
      obtain rfl : e.2 = v := Option.some.inj h
      rw [objSet, if_pos he, ← he]
    · rw [lookupA, if_neg he] at h
      rw [objSet, if_neg he, ih h]

theorem foldl_objSet_comm {α β : Type} [DecidableEq α] :
    ∀ (l : List (α × β)) (d : List (α × β)) (k : α) (v : β), (∀ e ∈ l, e.1 ≠ k) →
      k ∈ keysOf d →
      l.foldl (fun dd e => objSet dd e.1 e.2) (objSet d k v) =
        objSet (l.foldl (fun dd e => objSet dd e.1 e.2) d) k v := by
  intro l
  induction l with
  | nil => intro d k v _ _; rfl
  | cons e t ih =>
    intro d k v hl hk
    rw [List.foldl_cons, List.foldl_cons,
      objSet_comm d k e.1 v e.2 (Ne.symm (hl e (List.mem_cons_self _ _))) hk,
      ih _ _ _ (fun e' he' => hl e' (List.mem_cons_of_mem _ he'))
        (mem_keysOf_objSet_of_mem _ hk)]

-- ----------------------------------------------------------------
-- Membership through swap, shuffle and sort
-- ----------------------------------------------------------------

theorem get?_mem_of_some {α : Type} {l : List α} {i : Nat} {x : α}
    (h : l.get? i = some x) : x ∈ l := by
  rw [List.get?_eq_getElem?] at h
  exact mem_of_getElem?_eq h

theorem mem_of_mem_listSwap {α : Type} {l : List α} {i j : Nat} {x : α}
    (h : x ∈ listSwap l i j) : x ∈ l := by
  unfold listSwap at h
  cases hi : l.get? i with
  | none => rw [hi] at h; exact h
  | some a =>
    cases hj : l.get? j with
    | none => rw [hi, hj] at h; exact h
    | some b =>
      rw [hi, hj] at h
      rcases List.mem_or_eq_of_mem_set h with h2 | rfl
      · rcases List.mem_or_eq_of_mem_set h2 with h3 | rfl
        · exact h3
        · exact get?_mem_of_some hj
      · exact get?_mem_of_some hi

theorem mem_of_mem_fisherYates {α : Type} :
    ∀ (i : Nat) (l : List α) (rnd : List Nat) (x : α),
      x ∈ (fisherYates l rnd i).1 → x ∈ l := by
  intro i
  induction i with
  | zero => intro l rnd x h; exact h
  | succ n ih =>
    intro l rnd x h
    exact mem_of_mem_listSwap (ih _ _ x h)

theorem mem_of_mem_shuffleArray {α : Type} {l : List α} {rnd : List Nat} {x : α}
    (h : x ∈ (shuffleArray l rnd).1) : x ∈ l :=
  mem_of_mem_fisherYates _ l rnd x h

theorem mem_insertSorted {α : Type} (le : α → α → Bool) (x y : α) :
    ∀ (l : List α), y ∈ insertSorted le x l ↔ y = x ∨ y ∈ l := by
  intro l
  induction l with
  | nil => simp [insertSorted]
  | cons z t ih =>
    by_cases hle : le x z = true
    · simp [insertSorted, hle]
    · simp only [insertSorted, if_neg hle, List.mem_cons, ih]
      tauto

theorem mem_sortBy {α : Type} (le : α → α → Bool) (y : α) :
    ∀ (l : List α), y ∈ sortBy le l ↔ y ∈ l := by
  intro l
  induction l with
  | nil => simp [sortBy]
  | cons z t ih =>
    simp only [sortBy, mem_insertSorted, List.mem_cons, ih]

-- ----------------------------------------------------------------
-- Variable- and value-selection lemmas
-- ----------------------------------------------------------------

theorem mrvStep_none (d : Domains) (cands : List String) (slot : String) :
    mrvStep d (none, cands) slot = (some (dGet d slot).length, [slot]) := rfl

theorem mrvStep_some (d : Domains) (m : Nat) (cands : List String) (slot : String) :
    mrvStep d (some m, cands) slot =
      if (dGet d slot).length < m then (some (dGet d slot).length, [slot])
      else if (dGet d slot).length = m then (some m, cands ++ [slot])
      else (some m, cands) := rfl

theorem mrvStep_subset {d : Domains} {sup : List String} {acc : Option Nat × List String}
    {slot : String} (hacc : ∀ x ∈ acc.2, x ∈ sup) (hslot : slot ∈ sup) :
    ∀ y ∈ (mrvStep d acc slot).2, y ∈ sup := by
  intro y hy
  rcases acc with ⟨mo, cands⟩
  cases mo with
  | none =>
    rw [mrvStep_none] at hy
    obtain rfl : y = slot := by simpa using hy
    exact hslot
  | some m =>
    rw [mrvStep_some] at hy
    by_cases h1 : (dGet d slot).length < m
    · rw [if_pos h1] at hy
      obtain rfl : y = slot := by simpa using hy
      exact hslot
    · rw [if_neg h1] at hy
      by_cases h2 : (dGet d slot).length = m
      · rw [if_pos h2] at hy
        rcases List.mem_append.mp hy with hy2 | hy2
        · exact hacc y hy2
        · obtain rfl : y = slot := by simpa using hy2
          exact hslot
      · rw [if_neg h2] at hy
        exact hacc y hy

theorem mrvScan_subset (d : Domains) (unassigned : List String) :
    ∀ x ∈ (mrvScan d unassigned).2, x ∈ unassigned := by
  unfold mrvScan
  suffices h : ∀ (l : List String) (sup : List String) (acc : Option Nat × List String),
      (∀ x ∈ acc.2, x ∈ sup) → (∀ x ∈ l, x ∈ sup) →
      ∀ x ∈ (l.foldl (mrvStep d) acc).2, x ∈ sup by
    exact h unassigned unassigned (none, []) (by simp) (fun x hx => hx)
  intro l
  induction l with
  | nil => intro sup acc hacc _ x hx; exact hacc x hx
  | cons slot t ih =>
    intro sup acc hacc hl x hx
    refine ih sup _ ?_ (fun y hy => hl y (List.mem_cons_of_mem _ hy)) x hx
    exact mrvStep_subset hacc (hl slot (List.mem_cons_self _ _))

theorem degreeStep_subset {ctx : Ctx} {sup : List String} {acc : Int × List String}
    {slot : String} (hacc : ∀ x ∈ acc.2, x ∈ sup) (hslot : slot ∈ sup) :
    ∀ y ∈ (degreeStep ctx acc slot).2, y ∈ sup := by
  intro y hy
  unfold degreeStep at hy
  by_cases h1 : (((lookupA ctx.constraints slot).map
      (fun inner => inner.length)).getD 0 : Int) > acc.1
  · rw [if_pos h1] at hy
    obtain rfl : y = slot := by simpa using hy
    exact hslot
  · rw [if_neg h1] at hy
    by_cases h2 : (((lookupA ctx.constraints slot).map
        (fun inner => inner.length)).getD 0 : Int) = acc.1
    · rw [if_pos h2] at hy
      rcases List.mem_append.mp hy with hy2 | hy2
      · exact hacc y hy2
      · obtain rfl : y = slot := by simpa using hy2
        exact hslot
    · rw [if_neg h2] at hy
      exact hacc y hy

theorem degreeScan_subset (ctx : Ctx) (candidates : List String) :
    ∀ x ∈ (degreeScan ctx candidates).2, x ∈ candidates := by
  unfold degreeScan
  suffices h : ∀ (l : List String) (sup : List String) (acc : Int × List String),
      (∀ x ∈ acc.2, x ∈ sup) → (∀ x ∈ l, x ∈ sup) →
      ∀ x ∈ (l.foldl (degreeStep ctx) acc).2, x ∈ sup by
    exact h candidates candidates (-1, []) (by simp) (fun x hx => hx)
  intro l
  induction l with
  | nil => intro sup acc hacc _ x hx; exact hacc x hx
  | cons slot t ih =>
    intro sup acc hacc hl x hx
    refine ih sup _ ?_ (fun y hy => hl y (List.mem_cons_of_mem _ hy)) x hx
    exact degreeStep_subset hacc (hl slot (List.mem_cons_self _ _))

theorem selectUnassignedVariable_some {ctx : Ctx} {a : List (String × String)}
    {st : SearchState} {slot : String} {st₁ : SearchState}
    (h : selectUnassignedVariable ctx a st = (some slot, st₁)) :
    slot ∈ keysOf st.domains ∧ lookupA a slot = none ∧
      st₁.domains = st.domains ∧ st₁.solution = st.solution ∧ st₁.cache = st.cache := by
  unfold selectUnassignedVariable at h
  by_cases hempty : ((keysOf st.domains).filter (fun s => (lookupA a s).isNone)).isEmpty = true
  · rw [if_pos hempty] at h
    exact absurd (congrArg Prod.fst h) (by simp)
  · rw [if_neg hempty] at h
    simp only [drawRand] at h
    have hfst := congrArg Prod.fst h
    have hsnd := congrArg Prod.snd h
    simp only [] at hfst hsnd
    have hmem : slot ∈ (degreeScan ctx (mrvScan st.domains
        ((keysOf st.domains).filter (fun s => (lookupA a s).isNone))).2).2 :=
      get?_mem_of_some hfst
    have h2 := mrvScan_subset st.domains _ _
      (degreeScan_subset ctx _ _ hmem)
    have h3 := List.mem_filter.mp h2
    refine ⟨h3.1, ?_, ?_, ?_, ?_⟩
    · have h4 := h3.2
      rwa [Option.isNone_iff_eq_none] at h4
    · rw [← hsnd]
    · rw [← hsnd]
    · rw [← hsnd]

theorem orderDomainValues_props (ctx : Ctx) (slot : String) (st : SearchState) :
    (∀ v ∈ (orderDomainValues ctx slot st).1, v ∈ dGet st.domains slot) ∧
      ((orderDomainValues ctx slot st).2.domains = st.domains ∧
        (orderDomainValues ctx slot st).2.solution = st.solution ∧
        (orderDomainValues ctx slot st).2.cache = st.cache) := by
  unfold orderDomainValues
  refine ⟨?_, rfl, rfl, rfl⟩
  intro v hv
  have h1 := mem_of_mem_shuffleArray hv
  exact (mem_sortBy _ _ _).mp h1

-- ----------------------------------------------------------------
-- Soundness of constraint arcs and the state invariants of the search
-- ----------------------------------------------------------------

theorem cGet_some_entry {slots : SlotMap} {a b : String} {ov : Overlaps}
    (h : cGet (generateConstraints slots) a b = some ov) :
    ∃ e ∈ overlapEntries slots,
      (e.slotA = a ∧ e.slotB = b) ∨ (e.slotB = a ∧ e.slotA = b) := by
  by_contra hno
  push_neg at hno
  have huntouched : cGet (generateConstraints slots) a b = none := by
    unfold generateConstraints
    rw [cGet_fold_untouched]
    · simp [cGet, lookupA]
    · intro e he
      have h1 := hno e he
      constructor
      · intro hc
        exact h1.1 hc.1 hc.2
      · intro hc
        exact h1.2 hc.1 hc.2
  rw [huntouched] at h
  exact absurd h (by simp)

theorem overlapEntry_slots_mem {slots : SlotMap} {e : OverlapEntry}
    (he : e ∈ overlapEntries slots) :
    e.slotA ∈ keysOf slots ∧ e.slotB ∈ keysOf slots := by
  unfold overlapEntries at he
  obtain ⟨pe, hpe, hcell⟩ := List.mem_flatMap.mp he
  obtain ⟨l1, l2, hsplit, hmem⟩ := cellPairs_sound hcell
  have hA : (e.slotA, e.idxA) ∈ pe.2 := by
    rw [hsplit]
    exact List.mem_append.mpr (Or.inr (List.mem_cons_self _ _))
  have hB : (e.slotB, e.idxB) ∈ pe.2 := by
    rw [hsplit]
    exact List.mem_append.mpr (Or.inr (List.mem_cons_of_mem _ hmem))
  have hlk : lookupA (buildPositionMap slots) pe.1 = some pe.2 :=
    lookupA_of_mem_nodup (nodupKeys_buildPositionMap slots) (by simpa using hpe)
  have hA2 := (mem_entriesAt slots pe.1 e.slotA e.idxA).mp (by rw [hlk]; simpa using hA)
  have hB2 := (mem_entriesAt slots pe.1 e.slotB e.idxB).mp (by rw [hlk]; simpa using hB)
  obtain ⟨psA, hmemA, -⟩ := hA2
  obtain ⟨psB, hmemB, -⟩ := hB2
  exact ⟨List.mem_map.mpr ⟨(e.slotA, psA), hmemA, rfl⟩,
    List.mem_map.mpr ⟨(e.slotB, psB), hmemB, rfl⟩⟩

theorem constraint_keys_sub {slots : SlotMap} {a b : String} {ov : Overlaps}
    (h : cGet (generateConstraints slots) a b = some ov) :
    a ∈ keysOf slots ∧ b ∈ keysOf slots := by
  obtain ⟨e, he, hor⟩ := cGet_some_entry h
  have hmem := overlapEntry_slots_mem he
  rcases hor with ⟨rfl, rfl⟩ | ⟨rfl, rfl⟩
  · exact hmem
  · exact ⟨hmem.2, hmem.1⟩

/-- The domain invariant: the domain map covers exactly the slots, and every
candidate has its slot's length. -/
def DomOK (ctx : Ctx) (d : Domains) : Prop :=
  keysOf d = keysOf ctx.slots ∧ ∀ e ∈ ctx.slots, ∀ w ∈ dGet d e.1, w.length = e.2.length

/-- During an ongoing search, no memoization entry is `true` (a `true` entry
is written only while the search is unwinding successfully). -/
def CacheNoTrue (st : SearchState) : Prop := ∀ kb ∈ st.cache, kb.2 = false

/-- The assignment invariant: distinct slot keys of the instance, each word
matching the pre-filled letters and the slot length, and each pair of
assigned words agreeing on all overlap pairs of every constraint between
their slots. -/
def AOK (ctx : Ctx) (a : List (String × String)) : Prop :=
  NodupKeys a ∧
  (∀ e ∈ a, e.1 ∈ keysOf ctx.slots) ∧
  (∀ e ∈ a, wordMatchesPreFilledLetters ctx e.1 e.2 = true) ∧
  (∀ e ∈ a, ∀ ps, lookupA ctx.slots e.1 = some ps → e.2.length = ps.length) ∧
  (∀ e ∈ a, ∀ e2 ∈ a, ∀ ov, cGet ctx.constraints e.1 e2.1 = some ov →
    ∀ ij ∈ ov, charAt e.2 ij.1 = charAt e2.2 ij.2)

/-- A successful final state: the stored solution assigns every slot and
satisfies the assignment invariant. -/
def GoodFinal (ctx : Ctx) (sol : List (String × String)) : Prop :=
  sol.length = ctx.slots.length ∧ AOK ctx sol

-- ----------------------------------------------------------------
-- Forward checking: success and exact restorability
-- ----------------------------------------------------------------

theorem forwardCheckGo_nil (ctx : Ctx) (slot value : String)
    (assignment : List (String × String)) (d : Domains) (inf : List (String × List String)) :
    forwardCheckGo ctx slot value assignment [] d inf = (some inf, d) := rfl

theorem forwardCheckGo_cons (ctx : Ctx) (slot value : String)
    (assignment : List (String × String)) (be : String × Overlaps)
    (rest : List (String × Overlaps)) (d : Domains) (inf : List (String × List String)) :
    forwardCheckGo ctx slot value assignment (be :: rest) d inf =
      if (lookupA assignment be.1).isSome then
        forwardCheckGo ctx slot value assignment rest d inf
      else
        if ((dGet d be.1).filter (fun w => wordsMatch ctx slot value be.1 w)).isEmpty then
          (none, d)
        else
          forwardCheckGo ctx slot value assignment rest
            (objSet d be.1 ((dGet d be.1).filter (fun w => wordsMatch ctx slot value be.1 w)))
            (objSet inf be.1 (dGet d be.1)) := rfl

theorem forwardCheckGo_master (ctx : Ctx) (slot value : String)
    (assignment : List (String × String)) :
    ∀ (ns : List (String × Overlaps)) (d : Domains) (inf : List (String × List String)),
      NodupKeys ns →
      (∀ be ∈ ns, ¬be.1 ∈ keysOf inf) →
      (∀ be ∈ ns, lookupA assignment be.1 = none →
        be.1 ∈ keysOf d ∧
        ((dGet d be.1).filter (fun w => wordsMatch ctx slot value be.1 w)).isEmpty = false) →
      ∃ extra d',
        forwardCheckGo ctx slot value assignment ns d inf = (some (inf ++ extra), d') ∧
        extra.foldl (fun dd e => objSet dd e.1 e.2) d' = d ∧
        keysOf d' = keysOf d ∧
        (∀ e ∈ extra, e.1 ∈ keysOf ns) ∧
        (∀ s w, w ∈ dGet d' s → w ∈ dGet d s) := by
  intro ns
  induction ns with
  | nil =>
    intro d inf _ _ _
    exact ⟨[], d, by simp [forwardCheckGo], rfl, rfl, by simp, fun s w h => h⟩
  | cons be rest ih =>
    intro d inf hnd hdisj hviab
    by_cases hassigned : (lookupA assignment be.1).isSome = true
    · rw [show forwardCheckGo ctx slot value assignment (be :: rest) d inf =
          forwardCheckGo ctx slot value assignment rest d inf from by
        rw [forwardCheckGo_cons, if_pos hassigned]]
      obtain ⟨extra, d', hgo, hrest, hkeys, hek, hsub⟩ :=
        ih d inf (List.nodup_cons.mp hnd).2
          (fun be2 h2 => hdisj be2 (List.mem_cons_of_mem _ h2))
          (fun be2 h2 => hviab be2 (List.mem_cons_of_mem _ h2))
      exact ⟨extra, d', hgo, hrest, hkeys,
        fun e hee => List.mem_cons_of_mem _ (hek e hee), hsub⟩
    · have hnone : lookupA assignment be.1 = none := by
        cases h : lookupA assignment be.1 with
        | none => rfl
        | some w => rw [h] at hassigned; simp at hassigned
      obtain ⟨hkd, hne⟩ := hviab be (List.mem_cons_self _ _) hnone
      have hstep : forwardCheckGo ctx slot value assignment (be :: rest) d inf =
          forwardCheckGo ctx slot value assignment rest
            (objSet d be.1 ((dGet d be.1).filter (fun w => wordsMatch ctx slot value be.1 w)))
            (objSet inf be.1 (dGet d be.1)) := by
        rw [forwardCheckGo_cons, if_neg hassigned,
          if_neg (by rw [hne]; simp : ¬(((dGet d be.1).filter
            (fun w => wordsMatch ctx slot value be.1 w)).isEmpty = true))]
      have hfresh : ¬be.1 ∈ keysOf inf := hdisj be (List.mem_cons_self _ _)
      have hinfapp : objSet inf be.1 (dGet d be.1) = inf ++ [(be.1, dGet d be.1)] :=
        objSet_fresh_append _ _ _ hfresh
      have hbene : be.1 ∉ keysOf rest := by
        have hnd2 : (be.1 :: keysOf rest).Nodup := hnd
        exact (List.nodup_cons.mp hnd2).1
      obtain ⟨extra, d', hgo, hrest, hkeys, hek, hsub⟩ :=
        ih (objSet d be.1 ((dGet d be.1).filter (fun w => wordsMatch ctx slot value be.1 w)))
          (inf ++ [(be.1, dGet d be.1)])
          (List.nodup_cons.mp hnd).2
          (by
            intro be2 h2
            unfold keysOf
            rw [List.map_append]
            intro hc
            rcases List.mem_append.mp hc with hc2 | hc2
            · exact hdisj be2 (List.mem_cons_of_mem _ h2) hc2
            · have : be2.1 = be.1 := by simpa using hc2
              exact hbene (this ▸ List.mem_map.mpr ⟨be2, h2, rfl⟩)
          )
          (by
            intro be2 h2 hnone2
            have hne2 : be2.1 ≠ be.1 := by
              intro hc
              exact hbene (hc ▸ List.mem_map.mpr ⟨be2, h2, rfl⟩)
            obtain ⟨hk2, hv2⟩ := hviab be2 (List.mem_cons_of_mem _ h2) hnone2
            refine ⟨mem_keysOf_objSet_of_mem _ hk2, ?_⟩
            rw [dGet_objSet_ne _ _ _ _ hne2]
            exact hv2
          )
      refine ⟨(be.1, dGet d be.1) :: extra, d', ?_, ?_, ?_, ?_, ?_⟩
      · rw [hstep, hinfapp, hgo, List.append_assoc]
        rfl
      · rw [List.foldl_cons]
        have hkd' : be.1 ∈ keysOf (objSet d be.1
            ((dGet d be.1).filter (fun w => wordsMatch ctx slot value be.1 w))) :=
          mem_keysOf_objSet_of_mem _ hkd
        have hkd'' : be.1 ∈ keysOf d' := by
          rw [hkeys]
          exact hkd'
        rw [foldl_objSet_comm extra d' be.1 (dGet d be.1)
          (fun e hee hc => hbene (hc ▸ hek e hee)) hkd'']
        rw [hrest, objSet_objSet_same]
        apply objSet_lookup_self
        have := (lookupA_isSome_iff_mem_keys d be.1).mpr hkd
        cases h : lookupA d be.1 with
        | none => rw [h] at this; simp at this
        | some v => rw [dGet, h]; rfl
      · rw [hkeys, keysOf_objSet_mem _ _ _ hkd]
      · intro e hee
        rcases List.mem_cons.mp hee with rfl | hee'
        · exact List.mem_cons_self _ _
        · exact List.mem_cons_of_mem _ (hek e hee')
      · intro s w hw
        have h2 := hsub s w hw
        by_cases hs : s = be.1
        · subst hs
          rw [dGet_objSet_self] at h2
          exact (List.mem_filter.mp h2).1
        · rwa [dGet_objSet_ne _ _ _ _ hs] at h2

-- ----------------------------------------------------------------
-- Extending a consistent assignment
-- ----------------------------------------------------------------

theorem wordsMatch_chars {ctx : Ctx} {v1 w1 v2 w2 : String} {ov : Overlaps}
    (hov : cGet ctx.constraints v1 v2 = some ov)
    (h : wordsMatch ctx v1 w1 v2 w2 = true) :
    ∀ ij ∈ ov, charAt w1 ij.1 = charAt w2 ij.2 := by
  intro ij hij
  unfold wordsMatch at h
  rw [hov] at h
  simp only [Option.getD_some, List.all_eq_true] at h
  have := h ij hij
  simpa using this

theorem isConsistent_parts {ctx : Ctx} {slot word : String}
    {a : List (String × String)} {d : Domains}
    (h : isConsistent ctx slot word a d = true) :
    wordMatchesPreFilledLetters ctx slot word = true ∧
    ∀ be ∈ (lookupA ctx.constraints slot).getD [],
      (∀ w2, lookupA a be.1 = some w2 → wordsMatch ctx slot word be.1 w2 = true) ∧
      (lookupA a be.1 = none →
        ((dGet d be.1).filter (fun w => wordsMatch ctx slot word be.1 w)).isEmpty = false) := by
  unfold isConsistent at h
  rw [Bool.and_eq_true] at h
  refine ⟨h.1, ?_⟩
  intro be hbe
  have h2 := (List.all_eq_true.mp h.2) be hbe
  constructor
  · intro w2 hw2
    rw [hw2] at h2
    exact h2
  · intro hn
    rw [hn] at h2
    simpa using h2

/-- A constraint's inner entry yields a lookup-level arc (under the nodup
invariants of `generateConstraints` output). -/
theorem inner_entry_cGet {ctx : Ctx}
    (hcs : ctx.constraints = generateConstraints ctx.slots)
    {slot : String} {inner : List (String × Overlaps)} {be : String × Overlaps}
    (hin : lookupA ctx.constraints slot = some inner) (hbe : be ∈ inner) :
    cGet ctx.constraints slot be.1 = some be.2 := by
  unfold cGet
  rw [hin]
  simp only [Option.some_bind]
  have hinner : NodupKeys inner := by
    rw [hcs] at hin
    exact innerNodup_generateConstraints ctx.slots _ (lookupA_mem _ _ _ hin)
  exact lookupA_of_mem_nodup hinner (by simpa using hbe)

theorem AOK_extend {ctx : Ctx}
    (hcs : ctx.constraints = generateConstraints ctx.slots)
    (hkeys : NodupKeys ctx.slots) (hpos : NodupPositions ctx.slots)
    {a : List (String × String)} {slot value : String} {d : Domains}
    (hA : AOK ctx a) (hslot : slot ∈ keysOf ctx.slots) (hun : lookupA a slot = none)
    (hic : isConsistent ctx slot value a d = true)
    (hlen : ∀ ps, lookupA ctx.slots slot = some ps → value.length = ps.length) :
    AOK ctx (objSet a slot value) := by
  obtain ⟨hnd, hsub, hpre, hlens, hpairs⟩ := hA
  have hfresh : ¬slot ∈ keysOf a := (lookupA_none_iff a slot).mp hun
  have happ : objSet a slot value = a ++ [(slot, value)] := objSet_fresh_append _ _ _
    ((lookupA_none_iff a slot).mp hun)
  have hmem' : ∀ e, e ∈ objSet a slot value ↔ e ∈ a ∨ e = (slot, value) := by
    intro e
    rw [happ]
    simp
  obtain ⟨hicpre, hicnb⟩ := isConsistent_parts hic
  -- the new-old and old-new overlap agreements
  have hnewold : ∀ e2 ∈ a, ∀ ov, cGet ctx.constraints slot e2.1 = some ov →
      ∀ ij ∈ ov, charAt value ij.1 = charAt e2.2 ij.2 := by
    intro e2 he2 ov hov ij hij
    have hin : ∃ inner, lookupA ctx.constraints slot = some inner ∧
        (e2.1, ov) ∈ inner := by
      obtain ⟨inner, hinner, -, hbmem⟩ := cGet_mem hov
      exact ⟨inner, hinner, hbmem⟩
    obtain ⟨inner, hinner, hbmem⟩ := hin
    have hbe := hicnb (e2.1, ov) (by rw [hinner]; simpa using hbmem)
    have hl2 : lookupA a e2.1 = some e2.2 := lookupA_of_mem_nodup hnd (by simpa using he2)
    have hwm := hbe.1 e2.2 hl2
    exact wordsMatch_chars hov hwm ij hij
  constructor
  · rw [happ]
    unfold NodupKeys keysOf
    rw [List.map_append]
    simp only [List.map_cons, List.map_nil]
    rw [List.nodup_append]
    exact ⟨hnd, by simp, fun x hx => by
      simp only [List.mem_singleton]
      intro hb
      subst hb
      exact hfresh hx⟩
  refine ⟨?_, ?_, ?_, ?_⟩
  · intro e he
    rcases (hmem' e).mp he with he2 | rfl
    · exact hsub e he2
    · exact hslot
  · intro e he
    rcases (hmem' e).mp he with he2 | rfl
    · exact hpre e he2
    · exact hicpre
  · intro e he ps hps
    rcases (hmem' e).mp he with he2 | rfl
    · exact hlens e he2 ps hps
    · exact hlen ps hps
  · intro e he e2 he2 ov hov ij hij
    rcases (hmem' e).mp he with hea | rfl
    · rcases (hmem' e2).mp he2 with he2a | rfl
      · exact hpairs e hea e2 he2a ov hov ij hij
      · -- old–new: use symmetry
        have hmir := symB_mirror (hcs ▸ symB_generateConstraints ctx.slots) hov hij
        obtain ⟨ov', hov', hmem2⟩ := mem_getD_some hmir
        have := hnewold e hea ov' hov' (ij.2, ij.1) hmem2
        simpa using this.symm
    · rcases (hmem' e2).mp he2 with he2a | rfl
      · exact hnewold e2 he2a ov hov ij hij
      · -- new–new: no self arc
        rw [hcs, cGet_self_none hkeys hpos] at hov
        exact absurd hov (by simp)

-- ----------------------------------------------------------------
-- Equation lemmas for `tryValues` and `backtrackingSolve`
-- ----------------------------------------------------------------

theorem tryValues_nil (ctx : Ctx)
    (recur : List (String × String) → SearchState → Option (Bool × SearchState))
    (slot : String) (a : List (String × String)) (st : SearchState) :
    tryValues ctx recur slot a [] st = some (false, st) := rfl

theorem tryValues_cons_incons (ctx : Ctx)
    (recur : List (String × String) → SearchState → Option (Bool × SearchState))
    (slot : String) (a : List (String × String)) (value : String) (rest : List String)
    (st : SearchState) (hic : ¬isConsistent ctx slot value a st.domains = true) :
    tryValues ctx recur slot a (value :: rest) st = tryValues ctx recur slot a rest st := by
  show (if isConsistent ctx slot value a st.domains = true then _ else
    tryValues ctx recur slot a rest st) = _
  rw [if_neg hic]

theorem tryValues_cons_eq (ctx : Ctx)
    (recur : List (String × String) → SearchState → Option (Bool × SearchState))
    (slot : String) (a : List (String × String)) (value : String) (rest : List String)
    (st : SearchState) :
    tryValues ctx recur slot a (value :: rest) st =
      if isConsistent ctx slot value a st.domains = true then
        (fun p : Option (List (String × List String)) × Domains =>
          match p.1 with
          | none => tryValues ctx recur slot a rest { st with domains := p.2 }
          | some inf =>
            match recur (objSet a slot value) { st with domains := p.2 } with
            | none => none
            | some (true, st') => some (true, st')
            | some (false, st') =>
              tryValues ctx recur slot a rest
                { st' with domains := restoreDomains (some inf) st'.domains })
          (forwardCheck ctx slot value (objSet a slot value) st.domains)
      else tryValues ctx recur slot a rest st := rfl

theorem tryValues_cons_fcnone (ctx : Ctx)
    (recur : List (String × String) → SearchState → Option (Bool × SearchState))
    (slot : String) (a : List (String × String)) (value : String) (rest : List String)
    (st : SearchState) {d₂ : Domains}
    (hic : isConsistent ctx slot value a st.domains = true)
    (hfc : forwardCheck ctx slot value (objSet a slot value) st.domains = (none, d₂)) :
    tryValues ctx recur slot a (value :: rest) st =
      tryValues ctx recur slot a rest { st with domains := d₂ } := by
  rw [tryValues_cons_eq, if_pos hic, hfc]

theorem tryValues_cons_fcsome (ctx : Ctx)
    (recur : List (String × String) → SearchState → Option (Bool × SearchState))
    (slot : String) (a : List (String × String)) (value : String) (rest : List String)
    (st : SearchState) {inf : List (String × List String)} {d₂ : Domains}
    (hic : isConsistent ctx slot value a st.domains = true)
    (hfc : forwardCheck ctx slot value (objSet a slot value) st.domains = (some inf, d₂)) :
    tryValues ctx recur slot a (value :: rest) st =
      match recur (objSet a slot value) { st with domains := d₂ } with
      | none => none
      | some (true, st') => some (true, st')
      | some (false, st') =>
        tryValues ctx recur slot a rest
          { st' with domains := restoreDomains (some inf) st'.domains } := by
  rw [tryValues_cons_eq, if_pos hic, hfc]

theorem backtrackingSolve_zero (ctx : Ctx) (a : List (String × String)) (st : SearchState) :
    backtrackingSolve ctx 0 a st = none := rfl

theorem backtrackingSolve_succ_eq (ctx : Ctx) (f : Nat) (a : List (String × String))
    (st : SearchState) :
    backtrackingSolve ctx (f + 1) a st =
      if a.length = ctx.slots.length then some (true, { st with solution := a })
      else
        match lookupA st.cache (assignmentKey a) with
        | some b => some (b, st)
        | none =>
          (fun q : Option String × SearchState =>
            match q.1 with
            | none =>
              some (false, { q.2 with cache := objSet q.2.cache (assignmentKey a) false })
            | some slot =>
              (fun p : List String × SearchState =>
                match tryValues ctx (fun a2 s => backtrackingSolve ctx f a2 s)
                    slot a p.1 p.2 with
                | none => none
                | some (r, st₃) =>
                  some (r, { st₃ with cache := objSet st₃.cache (assignmentKey a) r }))
                (orderDomainValues ctx slot q.2))
            (selectUnassignedVariable ctx a st) := by
  simp only [backtrackingSolve]
  by_cases hc : a.length = ctx.slots.length
  · simp only [if_pos hc]
  · simp only [if_neg hc]
    cases hhit : lookupA st.cache (assignmentKey a) with
    | some b => rfl
    | none =>
      cases hsel : selectUnassignedVariable ctx a st with
      | mk oslot st₁ =>
        cases oslot with
        | none => rfl
        | some slot =>
          cases hord : orderDomainValues ctx slot st₁ with
          | mk vals st₂ => rfl

theorem mrvStep_ne_nil {d : Domains} {acc : Option Nat × List String} {slot : String}
    (h : acc.2 ≠ []) : (mrvStep d acc slot).2 ≠ [] := by
  rcases acc with ⟨mo, cands⟩
  cases mo with
  | none => rw [mrvStep_none]; simp
  | some m =>
    rw [mrvStep_some]
    by_cases h1 : (dGet d slot).length < m
    · rw [if_pos h1]; simp
    · rw [if_neg h1]
      by_cases h2 : (dGet d slot).length = m
      · rw [if_pos h2]; simp
      · rw [if_neg h2]; exact h

theorem mrvScan_ne_nil (d : Domains) {unassigned : List String} (h : unassigned ≠ []) :
    (mrvScan d unassigned).2 ≠ [] := by
  unfold mrvScan
  cases unassigned with
  | nil => exact absurd rfl h
  | cons s t =>
    rw [List.foldl_cons]
    refine foldl_preserve (fun acc : Option Nat × List String => acc.2 ≠ []) (mrvStep d)
      (fun acc slot hacc => mrvStep_ne_nil hacc) t _ ?_
    rw [mrvStep_none]
    simp

theorem degreeStep_ne_nil {ctx : Ctx} {acc : Int × List String} {slot : String}
    (h : acc.2 ≠ []) : (degreeStep ctx acc slot).2 ≠ [] := by
  unfold degreeStep
  by_cases h1 : (((lookupA ctx.constraints slot).map
      (fun inner => inner.length)).getD 0 : Int) > acc.1
  · rw [if_pos h1]; simp
  · rw [if_neg h1]
    by_cases h2 : (((lookupA ctx.constraints slot).map
        (fun inner => inner.length)).getD 0 : Int) = acc.1
    · rw [if_pos h2]; simp
    · rw [if_neg h2]; exact h

theorem degreeScan_ne_nil (ctx : Ctx) {candidates : List String} (h : candidates ≠ []) :
    (degreeScan ctx candidates).2 ≠ [] := by
  unfold degreeScan
  cases candidates with
  | nil => exact absurd rfl h
  | cons s t =>
    rw [List.foldl_cons]
    refine foldl_preserve (fun acc : Int × List String => acc.2 ≠ []) (degreeStep ctx)
      (fun acc slot hacc => degreeStep_ne_nil hacc) t _ ?_
    unfold degreeStep
    have h1 : (((lookupA ctx.constraints s).map
        (fun inner => inner.length)).getD 0 : Int) > -1 := by
      cases lookupA ctx.constraints s with
      | none => simp
      | some inner =>
        show ((inner.length : Int)) > -1
        omega
    rw [if_pos h1]
    simp

theorem selectUnassignedVariable_none_eq {ctx : Ctx} {a : List (String × String)}
    {st st₁ : SearchState} (h : selectUnassignedVariable ctx a st = (none, st₁)) :
    st₁ = st := by
  unfold selectUnassignedVariable at h
  by_cases hempty : ((keysOf st.domains).filter (fun s => (lookupA a s).isNone)).isEmpty = true
  · rw [if_pos hempty] at h
    exact (congrArg Prod.snd h).symm
  · rw [if_neg hempty] at h
    exfalso
    have hne : ((keysOf st.domains).filter (fun s => (lookupA a s).isNone)) ≠ [] := by
      intro hc
      rw [hc] at hempty
      exact hempty rfl
    have hfc : (degreeScan ctx (mrvScan st.domains
        ((keysOf st.domains).filter (fun s => (lookupA a s).isNone))).2).2 ≠ [] :=
      degreeScan_ne_nil ctx (mrvScan_ne_nil st.domains hne)
    have hlen : 0 < (degreeScan ctx (mrvScan st.domains
        ((keysOf st.domains).filter (fun s => (lookupA a s).isNone))).2).2.length :=
      List.length_pos.mpr hfc
    simp only [drawRand] at h
    have hfst := congrArg Prod.fst h
    simp only [] at hfst
    rw [List.get?_eq_none] at hfst
    have hmod := Nat.mod_lt (st.rnd.headD 0) hlen
    omega

/-- The master conclusion of one search call: on failure the domains and the
solution are exactly as before the call and the cache stays `true`-free; on
success the stored solution is complete and consistent. -/
def MOut (ctx : Ctx) (st : SearchState) (r : Bool) (st' : SearchState) : Prop :=
  (r = false → st'.domains = st.domains ∧ st'.solution = st.solution ∧ CacheNoTrue st') ∧
  (r = true → GoodFinal ctx st'.solution)

theorem tryValues_master (ctx : Ctx)
    (hcs : ctx.constraints = generateConstraints ctx.slots)
    (hkeys : NodupKeys ctx.slots) (hpos : NodupPositions ctx.slots)
    (recur : List (String × String) → SearchState → Option (Bool × SearchState))
    (hrec : ∀ a st r st', AOK ctx a → DomOK ctx st.domains → CacheNoTrue st →
      recur a st = some (r, st') → MOut ctx st r st')
    (slot : String) :
    ∀ (vals : List String) (a : List (String × String)) (st : SearchState)
      (r : Bool) (st' : SearchState),
      AOK ctx a → DomOK ctx st.domains → CacheNoTrue st →
      slot ∈ keysOf ctx.slots → lookupA a slot = none →
      (∀ v ∈ vals, v ∈ dGet st.domains slot) →
      tryValues ctx recur slot a vals st = some (r, st') →
      MOut ctx st r st' := by
  intro vals
  induction vals with
  | nil =>
    intro a st r st' _ _ hcache _ _ _ hrun
    rw [tryValues_nil] at hrun
    have hp := Option.some.inj hrun
    obtain rfl : false = r := congrArg Prod.fst hp
    obtain rfl : st = st' := congrArg Prod.snd hp
    exact ⟨fun _ => ⟨rfl, rfl, hcache⟩, fun hc => absurd hc (by simp)⟩
  | cons value rest ih =>
    intro a st r st' hA hdom hcache hslot hun hvals hrun
    by_cases hic : isConsistent ctx slot value a st.domains = true
    · -- the candidate passed the consistency check
      have hinner_nodup : NodupKeys ((lookupA ctx.constraints slot).getD []) := by
        cases hin : lookupA ctx.constraints slot with
        | none => simp [NodupKeys, keysOf]
        | some inner =>
          rw [hcs] at hin
          simpa using innerNodup_generateConstraints ctx.slots _ (lookupA_mem _ _ _ hin)
      obtain ⟨hicpre, hicnb⟩ := isConsistent_parts hic
      have hviab : ∀ be ∈ (lookupA ctx.constraints slot).getD [],
          lookupA (objSet a slot value) be.1 = none →
          be.1 ∈ keysOf st.domains ∧
          ((dGet st.domains be.1).filter
            (fun w => wordsMatch ctx slot value be.1 w)).isEmpty = false := by
        intro be hbe hnone
        have hbne : be.1 ≠ slot := by
          intro hc
          rw [hc, lookupA_objSet_self] at hnone
          exact absurd hnone (by simp)
        have hnone2 : lookupA a be.1 = none := by
          rwa [lookupA_objSet_ne a slot be.1 value hbne] at hnone
        have hbekey : be.1 ∈ keysOf ctx.slots := by
          cases hin : lookupA ctx.constraints slot with
          | none => rw [hin] at hbe; simp at hbe
          | some inner =>
            have harc := inner_entry_cGet hcs hin (by rw [hin] at hbe; simpa using hbe)
            rw [hcs] at harc
            exact (constraint_keys_sub harc).2
        refine ⟨by rw [hdom.1]; exact hbekey, ?_⟩
        exact (hicnb be hbe).2 hnone2
      obtain ⟨extra, d₂, hgo, hrest, hkeys2, hek, hsub⟩ :=
        forwardCheckGo_master ctx slot value (objSet a slot value)
          ((lookupA ctx.constraints slot).getD []) st.domains []
          hinner_nodup (by intro be _; simp [keysOf]) hviab
      rw [List.nil_append] at hgo
      have hfc : forwardCheck ctx slot value (objSet a slot value) st.domains =
          (some extra, d₂) := hgo
      have hA' : AOK ctx (objSet a slot value) := by
        refine AOK_extend hcs hkeys hpos hA hslot hun hic ?_
        intro ps hps
        have hvdom : value ∈ dGet st.domains slot := hvals value (List.mem_cons_self _ _)
        exact hdom.2 (slot, ps) (lookupA_mem _ _ _ hps) value hvdom
      have hdom₂ : DomOK ctx d₂ := by
        refine ⟨by rw [hkeys2]; exact hdom.1, ?_⟩
        intro e he w hw
        exact hdom.2 e he w (hsub e.1 w hw)
      rw [tryValues_cons_fcsome ctx recur slot a value rest st hic hfc] at hrun
      cases hcall : recur (objSet a slot value) { st with domains := d₂ } with
      | none => rw [hcall] at hrun; exact absurd hrun (by simp)
      | some rs =>
        obtain ⟨rr, st₂⟩ := rs
        rw [hcall] at hrun
        have hm := hrec (objSet a slot value) { st with domains := d₂ } rr st₂ hA'
          (by exact hdom₂) (by exact hcache) hcall
        cases rr with
        | true =>
          have hrun2 : some ((true : Bool), st₂) = some (r, st') := hrun
          have hp := Option.some.inj hrun2
          obtain rfl : true = r := congrArg Prod.fst hp
          obtain rfl : st₂ = st' := congrArg Prod.snd hp
          exact ⟨fun hc => absurd hc (by simp), fun _ => hm.2 rfl⟩
        | false =>
          have hrun2 : tryValues ctx recur slot a rest
              { st₂ with domains := restoreDomains (some extra) st₂.domains } =
              some (r, st') := hrun
          obtain ⟨hd2, hsol2, hcache2⟩ := hm.1 rfl
          have hrestore : restoreDomains (some extra) st₂.domains = st.domains := by
            rw [restoreDomains, hd2]
            exact hrest
          rw [hrestore] at hrun2
          have hih := ih a { st₂ with domains := st.domains } r st' hA
            (by exact hdom) (by exact hcache2) hslot hun
            (fun v hv => hvals v (List.mem_cons_of_mem _ hv)) hrun2
          refine ⟨?_, hih.2⟩
          intro hrf
          obtain ⟨hd3, hsol3, hc3⟩ := hih.1 hrf
          refine ⟨by simpa using hd3, ?_, hc3⟩
          rw [hsol3]
          show st₂.solution = st.solution
          simpa using hsol2
    · rw [tryValues_cons_incons ctx recur slot a value rest st hic] at hrun
      exact ih a st r st' hA hdom hcache hslot hun
        (fun v hv => hvals v (List.mem_cons_of_mem _ hv)) hrun

theorem backtrack_master (ctx : Ctx)
    (hcs : ctx.constraints = generateConstraints ctx.slots)
    (hkeys : NodupKeys ctx.slots) (hpos : NodupPositions ctx.slots) :
    ∀ (fuel : Nat) (a : List (String × String)) (st : SearchState)
      (r : Bool) (st' : SearchState),
      AOK ctx a → DomOK ctx st.domains → CacheNoTrue st →
      backtrackingSolve ctx fuel a st = some (r, st') → MOut ctx st r st' := by
  intro fuel
  induction fuel with
  | zero =>
    intro a st r st' _ _ _ hrun
    rw [backtrackingSolve_zero] at hrun
    exact absurd hrun (by simp)
  | succ f ih =>
    intro a st r st' hA hdom hcache hrun
    rw [backtrackingSolve_succ_eq] at hrun
    by_cases hcomplete : a.length = ctx.slots.length
    · rw [if_pos hcomplete] at hrun
      have hp := Option.some.inj hrun
      obtain rfl : true = r := congrArg Prod.fst hp
      obtain rfl : { st with solution := a } = st' := congrArg Prod.snd hp
      exact ⟨fun hc => absurd hc (by simp), fun _ => ⟨hcomplete, hA⟩⟩
    · rw [if_neg hcomplete] at hrun
      cases hhit : lookupA st.cache (assignmentKey a) with
      | some b =>
        rw [hhit] at hrun
        have hbf : b = false := hcache _ (lookupA_mem _ _ _ hhit)
        have hp := Option.some.inj hrun
        obtain rfl : b = r := congrArg Prod.fst hp
        obtain rfl : st = st' := congrArg Prod.snd hp
        subst hbf
        exact ⟨fun _ => ⟨rfl, rfl, hcache⟩, fun hc => absurd hc (by simp)⟩
      | none =>
        rw [hhit] at hrun
        cases hsel : selectUnassignedVariable ctx a st with
        | mk oslot st₁ =>
          rw [hsel] at hrun
          cases oslot with
          | none =>
            have heq : st₁ = st := selectUnassignedVariable_none_eq hsel
            have hrun2 : some ((false : Bool),
                { st₁ with cache := objSet st₁.cache (assignmentKey a) false }) =
                some (r, st') := hrun
            rw [heq] at hrun2
            have hp := Option.some.inj hrun2
            obtain rfl : false = r := congrArg Prod.fst hp
            obtain rfl : { st with cache := objSet st.cache (assignmentKey a) false } = st' :=
              congrArg Prod.snd hp
            refine ⟨fun _ => ⟨rfl, rfl, ?_⟩, fun hc => absurd hc (by simp)⟩
            intro kb hkb
            rcases mem_objSet _ _ _ _ hkb with rfl | hkb2
            · rfl
            · exact hcache kb hkb2
          | some slot =>
            have hrun2 : (match tryValues ctx (fun a2 s => backtrackingSolve ctx f a2 s)
                slot a (orderDomainValues ctx slot st₁).1
                (orderDomainValues ctx slot st₁).2 with
              | none => none
              | some (rr, st₃) =>
                some (rr, { st₃ with cache := objSet st₃.cache (assignmentKey a) rr })) =
                some (r, st') := hrun
            obtain ⟨hslotmem, hunass, hd1, hsol1, hcache1⟩ :=
              selectUnassignedVariable_some hsel
            have hord := orderDomainValues_props ctx slot st₁
            cases htv : tryValues ctx (fun a2 s => backtrackingSolve ctx f a2 s)
                slot a (orderDomainValues ctx slot st₁).1
                (orderDomainValues ctx slot st₁).2 with
            | none => rw [htv] at hrun2; exact absurd hrun2 (by simp)
            | some rs =>
              obtain ⟨rr, st₃⟩ := rs
              rw [htv] at hrun2
              have hrun3 : some (rr, { st₃ with
                  cache := objSet st₃.cache (assignmentKey a) rr }) = some (r, st') := hrun2
              have hp := Option.some.inj hrun3
              obtain rfl : rr = r := congrArg Prod.fst hp
              obtain rfl : { st₃ with cache := objSet st₃.cache (assignmentKey a) rr } = st' :=
                congrArg Prod.snd hp
              have hst2dom : (orderDomainValues ctx slot st₁).2.domains = st.domains := by
                rw [hord.2.1, hd1]
              have hst2sol : (orderDomainValues ctx slot st₁).2.solution = st.solution := by
                rw [hord.2.2.1, hsol1]
              have hst2cache : (orderDomainValues ctx slot st₁).2.cache = st.cache := by
                rw [hord.2.2.2, hcache1]
              have hm := tryValues_master ctx hcs hkeys hpos _
                (fun a2 s2 r2 s2' hA2 hdom2 hcache2 hrun4 =>
                  ih a2 s2 r2 s2' hA2 hdom2 hcache2 hrun4)
                slot (orderDomainValues ctx slot st₁).1 a
                (orderDomainValues ctx slot st₁).2 rr st₃ hA
                (by rw [hst2dom]; exact hdom)
                (by
                  intro kb hkb
                  rw [hst2cache] at hkb
                  exact hcache kb hkb)
                (by
                  rw [← hdom.1]
                  exact hslotmem)
                hunass
                (by
                  intro v hv
                  rw [hst2dom]
                  have hv2 := hord.1 v hv
                  rwa [hd1] at hv2)
                htv
              cases rr with
              | false =>
                obtain ⟨hd3, hsol3, hcache3⟩ := hm.1 rfl
                refine ⟨fun _ => ⟨?_, ?_, ?_⟩, fun hc => absurd hc (by simp)⟩
                · show st₃.domains = st.domains
                  rw [hd3, hst2dom]
                · show st₃.solution = st.solution
                  rw [hsol3, hst2sol]
                · intro kb hkb
                  rcases mem_objSet _ _ _ _ hkb with rfl | hkb2
                  · rfl
                  · exact hcache3 kb hkb2
              | true =>
                refine ⟨fun hc => absurd hc (by simp), fun _ => ?_⟩
                show GoodFinal ctx st₃.solution
                exact hm.2 rfl


-- ----------------------------------------------------------------
-- C1 and C2: soundness of a successful search, and the fate of the
-- pruned domains on return
-- ----------------------------------------------------------------

/-- Cell-level reading of `wordMatchesPreFilledLetters`: at each slot index
whose cell is pre-filled with a non-empty string, the word carries exactly
that (single-character) content. -/
theorem wmpfl_char {ctx : Ctx} {s w : String} {ps : List Pos}
    (hs : lookupA ctx.slots s = some ps)
    (h : wordMatchesPreFilledLetters ctx s w = true) :
    ∀ (i : Nat) (p : Pos) (v : String), ps.get? i = some p →
      ctx.cellContents p = some v → v ≠ "" →
      ∃ ch, charAt w i = some ch ∧ v.data = [ch] := by
  intro i p v hi hp hv
  unfold wordMatchesPreFilledLetters at h
  rw [hs] at h
  have hmem : (i, p) ∈ ps.enum := by
    rw [List.mk_mem_enum_iff_getElem?]
    rwa [← List.get?_eq_getElem?]
  have hf := List.all_eq_true.mp h (i, p) hmem
  simp only [hp] at hf
  rw [if_neg hv] at hf
  cases hch : charAt w i with
  | none => rw [hch] at hf; exact absurd hf (by simp)
  | some ch =>
    rw [hch] at hf
    exact ⟨ch, rfl, of_decide_eq_true hf⟩

/-- A complete assignment with distinct keys drawn from the slot map
assigns every slot. -/
theorem complete_assigns_all {ctx : Ctx} {sol : List (String × String)}
    (hkeys : NodupKeys ctx.slots) (hnd : NodupKeys sol)
    (hsub : ∀ e ∈ sol, e.1 ∈ keysOf ctx.slots)
    (hlen : sol.length = ctx.slots.length) :
    ∀ s ∈ keysOf ctx.slots, ∃ w, lookupA sol s = some w := by
  intro s hs
  have hsubF : (keysOf sol).toFinset ⊆ (keysOf ctx.slots).toFinset := by
    intro k hk
    rw [List.mem_toFinset] at hk ⊢
    obtain ⟨e, he, rfl⟩ := List.mem_map.mp hk
    exact hsub e he
  have hcard : (keysOf ctx.slots).toFinset.card ≤ (keysOf sol).toFinset.card := by
    rw [List.toFinset_card_of_nodup hkeys, List.toFinset_card_of_nodup hnd]
    simp only [keysOf, List.length_map]
    omega
  have hfeq := Finset.eq_of_subset_of_card_le hsubF hcard
  have hs2 : s ∈ keysOf sol := by
    rw [← List.mem_toFinset, hfeq, List.mem_toFinset]
    exact hs
  obtain ⟨w, hw⟩ := Option.isSome_iff_exists.mp
    ((lookupA_isSome_iff_mem_keys _ s).mpr hs2)
  exact ⟨w, hw⟩

/-- C1. If the backtracking solver returns success starting from the empty
assignment, then every slot is assigned in the stored solution, every
assigned word has its slot's length and carries every pre-filled letter,
and any two distinct slots sharing a grid cell receive words carrying the
same character at the shared cell — so back-projecting the words onto the
grid is well-defined and preserves all pre-filled letters. -/
theorem c1_backtracking_success (ctx : Ctx)
    (hcs : ctx.constraints = generateConstraints ctx.slots)
    (hkeys : NodupKeys ctx.slots) (hpos : NodupPositions ctx.slots)
    (fuel : Nat) (st st' : SearchState)
    (hdom : DomOK ctx st.domains) (hcache : CacheNoTrue st)
    (hrun : backtrackingSolve ctx fuel [] st = some (true, st')) :
    (∀ s ∈ keysOf ctx.slots, ∃ w, lookupA st'.solution s = some w) ∧
    (∀ s w ps, lookupA st'.solution s = some w → lookupA ctx.slots s = some ps →
      w.length = ps.length ∧
      ∀ (i : Nat) (p : Pos) (v : String), ps.get? i = some p →
        ctx.cellContents p = some v → v ≠ "" →
        ∃ ch, charAt w i = some ch ∧ v.data = [ch]) ∧
    (∀ s1 s2 w1 w2 ps1 ps2 i1 i2 p,
      (s1, ps1) ∈ ctx.slots → (s2, ps2) ∈ ctx.slots → s1 ≠ s2 →
      ps1.get? i1 = some p → ps2.get? i2 = some p →
      lookupA st'.solution s1 = some w1 → lookupA st'.solution s2 = some w2 →
      charAt w1 i1 = charAt w2 i2) := by
  have hA0 : AOK ctx [] := by
    refine ⟨by simp [NodupKeys, keysOf], by simp, by simp, by simp, by simp⟩
  have hm := backtrack_master ctx hcs hkeys hpos fuel [] st true st' hA0 hdom hcache hrun
  obtain ⟨hlen, hAOK⟩ := hm.2 rfl
  refine ⟨?_, ?_, ?_⟩
  · exact complete_assigns_all hkeys hAOK.1 hAOK.2.1 hlen
  · intro s w ps hw hps
    have hmem := lookupA_mem _ _ _ hw
    exact ⟨hAOK.2.2.2.1 (s, w) hmem ps hps,
      wmpfl_char hps (hAOK.2.2.1 (s, w) hmem)⟩
  · intro s1 s2 w1 w2 ps1 ps2 i1 i2 p h1 h2 hne hi1 hi2 hw1 hw2
    have hmo := generateConstraints_complete h1 h2 hne hi1 hi2
    rw [← hcs] at hmo
    obtain ⟨ov, hov, hij⟩ := hmo
    exact hAOK.2.2.2.2 (s1, w1) (lookupA_mem _ _ _ hw1)
      (s2, w2) (lookupA_mem _ _ _ hw2) ov hov (i1, i2) hij

/-- A 2×2 grid with a two-cell across slot and a two-cell down slot
crossing at the top-left cell. -/
def exSlots : SlotMap :=
  [("1ACROSS", [((0 : Nat), (0 : Nat)), (0, 1)]),
   ("1DOWN", [((0 : Nat), (0 : Nat)), (1, 0)])]

def exCtx : Ctx := ⟨exSlots, generateConstraints exSlots, fun _ => none, fun _ => 0⟩

def exDomains : Domains := [("1ACROSS", ["AB"]), ("1DOWN", ["AC", "BD"])]

def exState : SearchState := ⟨exDomains, [], [], []⟩

/-- The state in which the example search succeeds: the pruning of
`1DOWN`'s domain by forward checking is still in place. -/
def exFinal : SearchState :=
  ⟨[("1ACROSS", ["AB"]), ("1DOWN", ["AC"])],
   [("1ACROSS", "AB"), ("1DOWN", "AC")],
   [([("1ACROSS", "AB")], true), ([], true)], []⟩

/-- Witness for C1 at the crossing-slots example. -/
theorem c1_backtracking_success_witness :
    (∀ s ∈ keysOf exCtx.slots, ∃ w, lookupA exFinal.solution s = some w) ∧
    (∀ s w ps, lookupA exFinal.solution s = some w → lookupA exCtx.slots s = some ps →
      w.length = ps.length ∧
      ∀ (i : Nat) (p : Pos) (v : String), ps.get? i = some p →
        exCtx.cellContents p = some v → v ≠ "" →
        ∃ ch, charAt w i = some ch ∧ v.data = [ch]) ∧
    (∀ s1 s2 w1 w2 ps1 ps2 i1 i2 p,
      (s1, ps1) ∈ exCtx.slots → (s2, ps2) ∈ exCtx.slots → s1 ≠ s2 →
      ps1.get? i1 = some p → ps2.get? i2 = some p →
      lookupA exFinal.solution s1 = some w1 → lookupA exFinal.solution s2 = some w2 →
      charAt w1 i1 = charAt w2 i2) :=
  c1_backtracking_success exCtx rfl
    (by decide : (keysOf exSlots).Nodup)
    (by decide : ∀ e ∈ exSlots, e.2.Nodup)
    5 exState exFinal
    (⟨by decide, by decide⟩ :
      keysOf exDomains = keysOf exSlots ∧
      ∀ e ∈ exSlots, ∀ w ∈ dGet exDomains e.1, w.length = e.2.length)
    (by decide : ∀ kb ∈ ([] : List (List (String × String) × Bool)), kb.2 = false)
    (by decide)

/-- C2 counterexample. The example search returns success, and on that
return the domain of the neighbor slot `1DOWN`, pruned by forward checking
during the invocation, is NOT restored: the returned domains differ from
the pre-call domains (the source only calls `restoreDomains` on the
failure path). -/
theorem c2_restore_counterexample :
    backtrackingSolve exCtx 5 [] exState = some (true, exFinal) ∧
    exFinal.domains ≠ exState.domains ∧
    dGet exState.domains "1DOWN" = ["AC", "BD"] ∧
    dGet exFinal.domains "1DOWN" = ["AC"] := by
  refine ⟨by decide, by decide, by decide, by decide⟩

/-- C2 amended. On every FAILURE return of the recursive search the pruned
neighbor domains are restored exactly: the returned domains (and the
stored solution) equal their pre-call contents. On a success return the
pruning is left in place (see the counterexample). -/
theorem c2_restore_amended (ctx : Ctx)
    (hcs : ctx.constraints = generateConstraints ctx.slots)
    (hkeys : NodupKeys ctx.slots) (hpos : NodupPositions ctx.slots)
    (fuel : Nat) (a : List (String × String)) (st st' : SearchState)
    (hA : AOK ctx a) (hdom : DomOK ctx st.domains) (hcache : CacheNoTrue st)
    (hrun : backtrackingSolve ctx fuel a st = some (false, st')) :
    st'.domains = st.domains ∧ st'.solution = st.solution := by
  have hm := backtrack_master ctx hcs hkeys hpos fuel a st false st' hA hdom hcache hrun
  exact ⟨(hm.1 rfl).1, (hm.1 rfl).2.1⟩

def exFailDomains : Domains := [("1ACROSS", ["AB"]), ("1DOWN", ["CC"])]

def exFailState : SearchState := ⟨exFailDomains, [], [], []⟩

/-- The state in which the example search fails: domains as before the
call, only the memoization cache has grown. -/
def exFailFinal : SearchState :=
  ⟨[("1ACROSS", ["AB"]), ("1DOWN", ["CC"])], [], [([], false)], []⟩

/-- Witness for the amended C2 at a failing instance. -/
theorem c2_restore_amended_witness :
    backtrackingSolve exCtx 5 [] exFailState = some (false, exFailFinal) ∧
    exFailFinal.domains = exFailState.domains ∧
    exFailFinal.solution = exFailState.solution :=
  ⟨by decide,
    c2_restore_amended exCtx rfl
      (by decide : (keysOf exSlots).Nodup)
      (by decide : ∀ e ∈ exSlots, e.2.Nodup)
      5 [] exFailState exFailFinal
      (⟨by simp [NodupKeys, keysOf], by simp, by simp, by simp, by simp⟩)
      (⟨by decide, by decide⟩ :
        keysOf exFailDomains = keysOf exSlots ∧
        ∀ e ∈ exSlots, ∀ w ∈ dGet exFailDomains e.1, w.length = e.2.length)
      (by decide : ∀ kb ∈ ([] : List (List (String × String) × Bool)), kb.2 = false)
      (by decide)⟩


-- ----------------------------------------------------------------
-- C8 and C9: the solve pipeline and the busy flag
-- ----------------------------------------------------------------

/-- The observable outcome of `solveCrosswordThread` (status messages and
alerts collapsed to their branch; `fuelOut` is the model's artifact for a
run exceeding the fuel bound). -/
inductive SolveOutcome
  | invalidGrid
  | noSlots
  | fuelOut
  | solved
  | noSolution
deriving DecidableEq, Repr

/-- `solveCrosswordThread`: validate the grid, generate slots (with
constraints and domains), randomize the domains, run AC-3 — whose boolean
result and possible domain wipe-out only select a status message — and then
ALWAYS run the backtracking search on the domains AC-3 left behind; the
search alone decides `solved` versus `noSolution`. -/
def solveCrosswordThread (g : Grid) (words : List String) (freq : Char → Nat)
    (rnd : List Nat) (fuelA fuelB : Nat) : SolveOutcome :=
  if validateGrid g = true then
    if (generateSlots g).length = 0 then SolveOutcome.noSlots
    else
      match ac3 (generateConstraints (generateSlots g)) fuelA
          (initQueue (generateConstraints (generateSlots g)))
          (randomizeDomains (setupDomains (generateSlots g) (cellContentsOf g) words) rnd).1 with
      | none => SolveOutcome.fuelOut
      | some res =>
        match backtrackingSolve ⟨generateSlots g, generateConstraints (generateSlots g),
            cellContentsOf g, freq⟩ fuelB []
            ⟨res.2, [], [],
              (randomizeDomains (setupDomains (generateSlots g) (cellContentsOf g) words) rnd).2⟩ with
        | none => SolveOutcome.fuelOut
        | some r => if r.1 then SolveOutcome.solved else SolveOutcome.noSolution
  else SolveOutcome.invalidGrid

/-- C8. If AC-3 reports failure, or leaves some slot with an empty domain,
the pipeline does not stop there: the thread still runs the backtracking
search on the post-AC-3 domains, and the reported outcome is exactly the
search's outcome. -/
theorem c8_ac3_failure_not_terminal (g : Grid) (words : List String) (freq : Char → Nat)
    (rnd : List Nat) (fuelA fuelB : Nat) (b : Bool) (d2 : Domains)
    (hvalid : validateGrid g = true)
    (hslots : ¬ (generateSlots g).length = 0)
    (hac3 : ac3 (generateConstraints (generateSlots g)) fuelA
        (initQueue (generateConstraints (generateSlots g)))
        (randomizeDomains (setupDomains (generateSlots g) (cellContentsOf g) words) rnd).1 =
      some (b, d2))
    (hfail : b = false ∨ ∃ e ∈ d2, e.2 = ([] : List String)) :
    solveCrosswordThread g words freq rnd fuelA fuelB =
      match backtrackingSolve ⟨generateSlots g, generateConstraints (generateSlots g),
          cellContentsOf g, freq⟩ fuelB []
          ⟨d2, [], [],
            (randomizeDomains (setupDomains (generateSlots g) (cellContentsOf g) words) rnd).2⟩ with
      | none => SolveOutcome.fuelOut
      | some r => if r.1 then SolveOutcome.solved else SolveOutcome.noSolution := by
  unfold solveCrosswordThread
  rw [if_pos hvalid, if_neg hslots, hac3]

/-- The wipe-out example grid: the across slot is forced to end in `A`, the
down slot to end in `B`, and the two surviving words clash on the crossing
cell, so AC-3 empties the across domain. -/
def exG : Grid := [["1", "A"], ["B", ""]]

def exWords : List String := ["CA", "DB"]

/-- Witness for C8 at the wipe-out grid: AC-3 returns false with an empty
domain, and the pipeline still reports the backtracking outcome. -/
theorem c8_ac3_failure_not_terminal_witness :
    validateGrid exG = true ∧
    ¬ (generateSlots exG).length = 0 ∧
    ac3 (generateConstraints (generateSlots exG)) 10
        (initQueue (generateConstraints (generateSlots exG)))
        (randomizeDomains (setupDomains (generateSlots exG) (cellContentsOf exG) exWords) []).1 =
      some (false, [("1ACROSS", []), ("1DOWN", ["DB"])]) ∧
    (false = false ∨
      ∃ e ∈ ([("1ACROSS", []), ("1DOWN", ["DB"])] : Domains), e.2 = ([] : List String)) ∧
    solveCrosswordThread exG exWords (fun _ => 0) [] 10 5 =
      match backtrackingSolve ⟨generateSlots exG, generateConstraints (generateSlots exG),
          cellContentsOf exG, fun _ => 0⟩ 5 []
          ⟨[("1ACROSS", []), ("1DOWN", ["DB"])], [], [],
            (randomizeDomains (setupDomains (generateSlots exG) (cellContentsOf exG) exWords)
              []).2⟩ with
      | none => SolveOutcome.fuelOut
      | some r => if r.1 then SolveOutcome.solved else SolveOutcome.noSolution :=
  ⟨by decide, by decide, by decide, Or.inl rfl,
    c8_ac3_failure_not_terminal exG exWords (fun _ => 0) [] 10 5 false
      [("1ACROSS", []), ("1DOWN", ["DB"])] (by decide) (by decide) (by decide)
      (Or.inl rfl)⟩

/-- `solveCrossword`: the busy guard around the solving thread. The thread
is abstracted by its completion (`Except.error` for a rejected run); the
returned pair is (the call's result: `none` is the busy refusal, `some` the
completed thread) and the `isSolving` flag after the call: refused calls
leave the in-progress flag `true`, and the `finally` handler clears it on
every completion, error included. -/
def solveCrossword (isSolving : Bool) (thread : Except String SolveOutcome) :
    Option (Except String SolveOutcome) × Bool :=
  if isSolving = true then (none, isSolving)
  else (some thread, false)

/-- C9. A call while a solve is in progress is refused — no second thread
runs and the flag stays `true` — and a call that does run clears the busy
flag on completion, also when the thread completes with an error. -/
theorem c9_busy_exclusion (thread : Except String SolveOutcome) (err : String) :
    solveCrossword true thread = (none, true) ∧
    solveCrossword false thread = (some thread, false) ∧
    (solveCrossword false (Except.error err)).2 = false := by
  refine ⟨rfl, rfl, rfl⟩


-- ----------------------------------------------------------------
-- C6: characterization of slot extraction
-- ----------------------------------------------------------------

theorem string_append_right_inj {v1 v2 s : String} (h : v1 ++ s = v2 ++ s) : v1 = v2 := by
  have h2 := congrArg String.data h
  simp only [String.data_append] at h2
  have h3 := List.append_cancel_right h2
  cases v1; cases v2
  exact congrArg String.mk (by simpa using h3)

theorem append_ACROSS_ne_DOWN (v1 v2 : String) : v1 ++ "ACROSS" ≠ v2 ++ "DOWN" := by
  intro h
  have h2 := congrArg (fun s : String => s.data.reverse.head?) h
  simp only [String.data_append] at h2
  simp [List.reverse_append] at h2

theorem mem_scanOrder {g : Grid} {p : Pos} :
    p ∈ scanOrder g ↔ p.1 < gridRows g ∧ p.2 < gridCols g := by
  unfold scanOrder
  constructor
  · intro h
    obtain ⟨r, hr, h2⟩ := List.mem_flatMap.mp h
    obtain ⟨c, hc, rfl⟩ := List.mem_map.mp h2
    exact ⟨List.mem_range.mp hr, List.mem_range.mp hc⟩
  · intro h
    refine List.mem_flatMap.mpr ⟨p.1, List.mem_range.mpr h.1, ?_⟩
    exact List.mem_map.mpr ⟨p.2, List.mem_range.mpr h.2, rfl⟩

theorem nodup_scanOrder (g : Grid) : (scanOrder g).Nodup := by
  unfold scanOrder
  rw [List.nodup_flatMap]
  constructor
  · intro r _
    exact (List.nodup_range _).map (fun a b hab => by simpa using hab)
  · refine List.Pairwise.imp ?_ (List.pairwise_lt_range _)
    intro a b hab x hxa hxb
    obtain ⟨c1, _, rfl⟩ := List.mem_map.mp hxa
    obtain ⟨c2, _, h2⟩ := List.mem_map.mp hxb
    have := congrArg Prod.fst h2
    simp only at this
    omega

/-- The across walk collects exactly the contiguous rightward run of
in-range non-block cells, stopping at the first cell failing that test. -/
theorem across_run (g : Grid) (r c : Nat) :
    ∃ n, getSlotPositions g r c Dir.across = (List.range n).map (fun k => (r, c + k)) ∧
      (∀ k, k < n → r < gridRows g ∧ c + k < gridCols g ∧ cellAt g r (c + k) ≠ "#") ∧
      ¬(r < gridRows g ∧ c + n < gridCols g ∧ cellAt g r (c + n) ≠ "#") := by
  suffices h : ∀ (fuel c : Nat), gridCols g - c ≤ fuel →
      ∃ n, getSlotPositions g r c Dir.across = (List.range n).map (fun k => (r, c + k)) ∧
        (∀ k, k < n → r < gridRows g ∧ c + k < gridCols g ∧ cellAt g r (c + k) ≠ "#") ∧
        ¬(r < gridRows g ∧ c + n < gridCols g ∧ cellAt g r (c + n) ≠ "#") by
    exact h (gridCols g - c) c (Nat.le_refl _)
  intro fuel
  induction fuel with
  | zero =>
    intro c hf
    refine ⟨0, ?_, by omega, fun hcon => by omega⟩
    rw [getSlotPositions_unfold, if_neg (fun hcon => by omega)]
    simp
  | succ f ih =>
    intro c hf
    by_cases hcond : r < gridRows g ∧ c < gridCols g ∧ cellAt g r c ≠ "#"
    · obtain ⟨n, h1, h2, h3⟩ := ih (c + 1) (by omega)
      refine ⟨n + 1, ?_, ?_, ?_⟩
      · rw [getSlotPositions_unfold, if_pos hcond]
        show (r, c) :: getSlotPositions g r (c + 1) Dir.across = _
        rw [h1, List.range_succ_eq_map, List.map_cons, List.map_map]
        refine congrArg₂ _ (by simp) ?_
        refine List.map_congr_left ?_
        intro k _
        show (r, (c + 1) + k) = (r, c + Nat.succ k)
        have : (c + 1) + k = c + Nat.succ k := by omega
        rw [this]
      · intro k hk
        cases k with
        | zero => simpa using hcond
        | succ j =>
          have := h2 j (by omega)
          refine ⟨this.1, by omega, ?_⟩
          have heq : c + Nat.succ j = (c + 1) + j := by omega
          rw [heq]
          exact this.2.2
      · intro hcon
        refine h3 ⟨hcon.1, by omega, ?_⟩
        have heq : (c + 1) + n = c + (n + 1) := by omega
        rw [heq]
        exact hcon.2.2
    · refine ⟨0, ?_, by omega, fun hcon => hcond (by simpa using hcon)⟩
      rw [getSlotPositions_unfold, if_neg hcond]
      simp

/-- The down walk collects exactly the contiguous downward run of in-range
non-block cells, stopping at the first cell failing that test. -/
theorem down_run (g : Grid) (r c : Nat) :
    ∃ n, getSlotPositions g r c Dir.down = (List.range n).map (fun k => (r + k, c)) ∧
      (∀ k, k < n → r + k < gridRows g ∧ c < gridCols g ∧ cellAt g (r + k) c ≠ "#") ∧
      ¬(r + n < gridRows g ∧ c < gridCols g ∧ cellAt g (r + n) c ≠ "#") := by
  suffices h : ∀ (fuel r : Nat), gridRows g - r ≤ fuel →
      ∃ n, getSlotPositions g r c Dir.down = (List.range n).map (fun k => (r + k, c)) ∧
        (∀ k, k < n → r + k < gridRows g ∧ c < gridCols g ∧ cellAt g (r + k) c ≠ "#") ∧
        ¬(r + n < gridRows g ∧ c < gridCols g ∧ cellAt g (r + n) c ≠ "#") by
    exact h (gridRows g - r) r (Nat.le_refl _)
  intro fuel
  induction fuel with
  | zero =>
    intro r hf
    refine ⟨0, ?_, by omega, fun hcon => by omega⟩
    rw [getSlotPositions_unfold, if_neg (fun hcon => by omega)]
    simp
  | succ f ih =>
    intro r hf
    by_cases hcond : r < gridRows g ∧ c < gridCols g ∧ cellAt g r c ≠ "#"
    · obtain ⟨n, h1, h2, h3⟩ := ih (r + 1) (by omega)
      refine ⟨n + 1, ?_, ?_, ?_⟩
      · rw [getSlotPositions_unfold, if_pos hcond]
        show (r, c) :: getSlotPositions g (r + 1) c Dir.down = _
        rw [h1, List.range_succ_eq_map, List.map_cons, List.map_map]
        refine congrArg₂ _ (by simp) ?_
        refine List.map_congr_left ?_
        intro k _
        show ((r + 1) + k, c) = (r + Nat.succ k, c)
        have : (r + 1) + k = r + Nat.succ k := by omega
        rw [this]
      · intro k hk
        cases k with
        | zero => simpa using hcond
        | succ j =>
          have := h2 j (by omega)
          refine ⟨?_, this.2.1, ?_⟩
          · omega
          · have heq : r + Nat.succ j = (r + 1) + j := by omega
            rw [heq]
            exact this.2.2
      · intro hcon
        refine h3 ⟨by omega, hcon.2.1, ?_⟩
        have heq : (r + 1) + n = r + (n + 1) := by omega
        rw [heq]
        exact hcon.2.2
    · refine ⟨0, ?_, by omega, fun hcon => hcond (by simpa using hcon)⟩
      rw [getSlotPositions_unfold, if_neg hcond]
      simp


/-- No two distinct in-range numbered cells carry the same cell value (the
grid numbers its slots uniquely). -/
def UniqueNumbers (g : Grid) : Prop :=
  ∀ p1 ∈ scanOrder g, ∀ p2 ∈ scanOrder g,
    containsDigit (cellAt g p1.1 p1.2) = true → containsDigit (cellAt g p2.1 p2.2) = true →
    cellAt g p1.1 p1.2 = cellAt g p2.1 p2.2 → p1 = p2

/-- An entry of the slot map originates at an in-range numbered cell whose
relevant neighbor is the boundary or a block, with the collected walk (of
length at least 2) as its positions. -/
def SlotOrigin (g : Grid) (e : String × List Pos) : Prop :=
  ∃ r c, r < gridRows g ∧ c < gridCols g ∧ containsDigit (cellAt g r c) = true ∧
    ((e.1 = cellAt g r c ++ "ACROSS" ∧ (c = 0 ∨ cellAt g r (c - 1) = "#") ∧
      e.2 = getSlotPositions g r c Dir.across ∧ 2 ≤ e.2.length) ∨
     (e.1 = cellAt g r c ++ "DOWN" ∧ (r = 0 ∨ cellAt g (r - 1) c = "#") ∧
      e.2 = getSlotPositions g r c Dir.down ∧ 2 ≤ e.2.length))

theorem memAcrossHalf {g : Grid} {m : SlotMap} {r c : Nat} {e : String × List Pos}
    (he : e ∈ (if c = 0 ∨ cellAt g r (c - 1) = "#" then
        (if 2 ≤ (getSlotPositions g r c Dir.across).length then
          objSet m (cellAt g r c ++ "ACROSS") (getSlotPositions g r c Dir.across) else m)
      else m)) :
    e ∈ m ∨ (e = (cellAt g r c ++ "ACROSS", getSlotPositions g r c Dir.across) ∧
      (c = 0 ∨ cellAt g r (c - 1) = "#") ∧
      2 ≤ (getSlotPositions g r c Dir.across).length) := by
  split at he
  · rename_i ho
    split at he
    · rename_i hl
      rcases mem_objSet _ _ _ _ he with rfl | he1
      · exact Or.inr ⟨rfl, ho, hl⟩
      · exact Or.inl he1
    · exact Or.inl he
  · exact Or.inl he

theorem slotStep_mem {g : Grid} {m : SlotMap} {p : Pos} {e : String × List Pos}
    (he : e ∈ slotStep g m p) :
    e ∈ m ∨
    (containsDigit (cellAt g p.1 p.2) = true ∧
      ((e = (cellAt g p.1 p.2 ++ "ACROSS", getSlotPositions g p.1 p.2 Dir.across) ∧
        (p.2 = 0 ∨ cellAt g p.1 (p.2 - 1) = "#") ∧
        2 ≤ (getSlotPositions g p.1 p.2 Dir.across).length) ∨
       (e = (cellAt g p.1 p.2 ++ "DOWN", getSlotPositions g p.1 p.2 Dir.down) ∧
        (p.1 = 0 ∨ cellAt g (p.1 - 1) p.2 = "#") ∧
        2 ≤ (getSlotPositions g p.1 p.2 Dir.down).length))) := by
  simp only [slotStep] at he
  split at he
  · rename_i hd
    split at he
    · rename_i hdo
      split at he
      · rename_i hdl
        rcases mem_objSet _ _ _ _ he with rfl | he1
        · exact Or.inr ⟨hd, Or.inr ⟨rfl, hdo, hdl⟩⟩
        · rcases memAcrossHalf he1 with h | ⟨h1, h2, h3⟩
          · exact Or.inl h
          · exact Or.inr ⟨hd, Or.inl ⟨h1, h2, h3⟩⟩
      · rcases memAcrossHalf he with h | ⟨h1, h2, h3⟩
        · exact Or.inl h
        · exact Or.inr ⟨hd, Or.inl ⟨h1, h2, h3⟩⟩
    · rcases memAcrossHalf he with h | ⟨h1, h2, h3⟩
      · exact Or.inl h
      · exact Or.inr ⟨hd, Or.inl ⟨h1, h2, h3⟩⟩
  · exact Or.inl he

theorem lookupAcrossHalf {g : Grid} {m : SlotMap} {r c : Nat} {k : String}
    (hA : k ≠ cellAt g r c ++ "ACROSS") :
    lookupA (if c = 0 ∨ cellAt g r (c - 1) = "#" then
        (if 2 ≤ (getSlotPositions g r c Dir.across).length then
          objSet m (cellAt g r c ++ "ACROSS") (getSlotPositions g r c Dir.across) else m)
      else m) k = lookupA m k := by
  split
  · split
    · exact lookupA_objSet_ne _ _ _ _ hA
    · rfl
  · rfl

theorem slotStep_lookup_ne {g : Grid} {m : SlotMap} {p : Pos} {k : String}
    (hA : k ≠ cellAt g p.1 p.2 ++ "ACROSS") (hD : k ≠ cellAt g p.1 p.2 ++ "DOWN") :
    lookupA (slotStep g m p) k = lookupA m k := by
  simp only [slotStep]
  split
  · split
    · split
      · rw [lookupA_objSet_ne _ _ _ _ hD]
        exact lookupAcrossHalf hA
      · exact lookupAcrossHalf hA
    · exact lookupAcrossHalf hA
  · rfl

theorem slotStep_lookup_across {g : Grid} {m : SlotMap} {p : Pos}
    (hd : containsDigit (cellAt g p.1 p.2) = true)
    (ho : p.2 = 0 ∨ cellAt g p.1 (p.2 - 1) = "#")
    (hl : 2 ≤ (getSlotPositions g p.1 p.2 Dir.across).length) :
    lookupA (slotStep g m p) (cellAt g p.1 p.2 ++ "ACROSS") =
      some (getSlotPositions g p.1 p.2 Dir.across) := by
  simp only [slotStep]
  rw [if_pos hd]
  have hmid : lookupA (if p.2 = 0 ∨ cellAt g p.1 (p.2 - 1) = "#" then
      (if 2 ≤ (getSlotPositions g p.1 p.2 Dir.across).length then
        objSet m (cellAt g p.1 p.2 ++ "ACROSS") (getSlotPositions g p.1 p.2 Dir.across) else m)
    else m) (cellAt g p.1 p.2 ++ "ACROSS") =
      some (getSlotPositions g p.1 p.2 Dir.across) := by
    rw [if_pos ho, if_pos hl]
    exact lookupA_objSet_self _ _ _
  by_cases hdo : p.1 = 0 ∨ cellAt g (p.1 - 1) p.2 = "#"
  · rw [if_pos hdo]
    by_cases hdl : 2 ≤ (getSlotPositions g p.1 p.2 Dir.down).length
    · rw [if_pos hdl, lookupA_objSet_ne _ _ _ _ (append_ACROSS_ne_DOWN _ _)]
      exact hmid
    · rw [if_neg hdl]
      exact hmid
  · rw [if_neg hdo]
    exact hmid

theorem slotStep_lookup_down {g : Grid} {m : SlotMap} {p : Pos}
    (hd : containsDigit (cellAt g p.1 p.2) = true)
    (ho : p.1 = 0 ∨ cellAt g (p.1 - 1) p.2 = "#")
    (hl : 2 ≤ (getSlotPositions g p.1 p.2 Dir.down).length) :
    lookupA (slotStep g m p) (cellAt g p.1 p.2 ++ "DOWN") =
      some (getSlotPositions g p.1 p.2 Dir.down) := by
  simp only [slotStep]
  rw [if_pos hd, if_pos ho, if_pos hl]
  exact lookupA_objSet_self _ _ _

theorem foldl_slotStep_lookup {g : Grid} {k : String} :
    ∀ (L : List Pos) (m : SlotMap),
      (∀ p ∈ L, k ≠ cellAt g p.1 p.2 ++ "ACROSS" ∧ k ≠ cellAt g p.1 p.2 ++ "DOWN") →
      lookupA (L.foldl (slotStep g) m) k = lookupA m k := by
  intro L
  induction L with
  | nil => intro m _; rfl
  | cons p t ih =>
    intro m hL
    rw [List.foldl_cons]
    rw [ih _ (fun q hq => hL q (List.mem_cons_of_mem _ hq))]
    exact slotStep_lookup_ne (hL p (List.mem_cons_self _ _)).1 (hL p (List.mem_cons_self _ _)).2

theorem generateSlots_origin {g : Grid} : ∀ e ∈ generateSlots g, SlotOrigin g e := by
  have main : ∀ (L : List Pos) (m : SlotMap),
      (∀ p ∈ L, p.1 < gridRows g ∧ p.2 < gridCols g) →
      (∀ e ∈ m, SlotOrigin g e) → ∀ e ∈ L.foldl (slotStep g) m, SlotOrigin g e := by
    intro L
    induction L with
    | nil => intro m _ hm; simpa using hm
    | cons p t ih =>
      intro m hL hm
      rw [List.foldl_cons]
      refine ih _ (fun q hq => hL q (List.mem_cons_of_mem _ hq)) ?_
      intro e he
      rcases slotStep_mem he with he1 | ⟨hd, hor⟩
      · exact hm e he1
      · have hp := hL p (List.mem_cons_self _ _)
        rcases hor with ⟨rfl, h2, h3⟩ | ⟨rfl, h2, h3⟩
        · exact ⟨p.1, p.2, hp.1, hp.2, hd, Or.inl ⟨rfl, h2, rfl, h3⟩⟩
        · exact ⟨p.1, p.2, hp.1, hp.2, hd, Or.inr ⟨rfl, h2, rfl, h3⟩⟩
  exact main (scanOrder g) [] (fun p hp => mem_scanOrder.mp hp) (by simp)

theorem scan_split_write {g : Grid} {r c : Nat} (hu : UniqueNumbers g)
    (hr : r < gridRows g) (hc : c < gridCols g)
    (hd : containsDigit (cellAt g r c) = true) :
    ∃ L1 L2, scanOrder g = L1 ++ (r, c) :: L2 ∧
      (∀ q ∈ L2, cellAt g r c ++ "ACROSS" ≠ cellAt g q.1 q.2 ++ "ACROSS" ∧
        cellAt g r c ++ "ACROSS" ≠ cellAt g q.1 q.2 ++ "DOWN") ∧
      (∀ q ∈ L2, cellAt g r c ++ "DOWN" ≠ cellAt g q.1 q.2 ++ "ACROSS" ∧
        cellAt g r c ++ "DOWN" ≠ cellAt g q.1 q.2 ++ "DOWN") := by
  have hp : ((r, c) : Pos) ∈ scanOrder g := mem_scanOrder.mpr ⟨hr, hc⟩
  obtain ⟨L1, L2, hL⟩ := List.append_of_mem hp
  have hnd := nodup_scanOrder g
  rw [hL] at hnd
  have hpn : ((r, c) : Pos) ∉ L2 :=
    (List.nodup_cons.mp (hnd.of_append_right)).1
  have hval : ∀ q ∈ L2, containsDigit (cellAt g q.1 q.2) = true →
      cellAt g r c ≠ cellAt g q.1 q.2 := by
    intro q hq hqd hvv
    have hqrange : q.1 < gridRows g ∧ q.2 < gridCols g := by
      refine mem_scanOrder.mp ?_
      rw [hL]
      exact List.mem_append.mpr (Or.inr (List.mem_cons_of_mem _ hq))
    have hq2 : q ∈ scanOrder g := mem_scanOrder.mpr hqrange
    have hpq : ((r, c) : Pos) = q :=
      hu (r, c) (mem_scanOrder.mpr ⟨hr, hc⟩) q hq2 hd hqd hvv
    rw [← hpq] at hq
    exact hpn hq
  refine ⟨L1, L2, hL, ?_, ?_⟩
  · intro q hq
    constructor
    · intro hk
      have hvv := string_append_right_inj hk
      by_cases hqd : containsDigit (cellAt g q.1 q.2) = true
      · exact hval q hq hqd hvv
      · rw [← hvv] at hqd
        exact hqd hd
    · exact append_ACROSS_ne_DOWN _ _
  · intro q hq
    constructor
    · exact fun hk => append_ACROSS_ne_DOWN _ _ hk.symm
    · intro hk
      have hvv := string_append_right_inj hk
      by_cases hqd : containsDigit (cellAt g q.1 q.2) = true
      · exact hval q hq hqd hvv
      · rw [← hvv] at hqd
        exact hqd hd

theorem generateSlots_lookup_across {g : Grid} (hu : UniqueNumbers g)
    {r c : Nat} (hr : r < gridRows g) (hc : c < gridCols g)
    (hd : containsDigit (cellAt g r c) = true)
    (ho : c = 0 ∨ cellAt g r (c - 1) = "#")
    (hl : 2 ≤ (getSlotPositions g r c Dir.across).length) :
    lookupA (generateSlots g) (cellAt g r c ++ "ACROSS") =
      some (getSlotPositions g r c Dir.across) := by
  obtain ⟨L1, L2, hL, hA, _⟩ := scan_split_write hu hr hc hd
  unfold generateSlots
  rw [hL, List.foldl_append, List.foldl_cons]
  rw [foldl_slotStep_lookup L2 _ hA]
  exact slotStep_lookup_across hd ho hl

theorem generateSlots_lookup_down {g : Grid} (hu : UniqueNumbers g)
    {r c : Nat} (hr : r < gridRows g) (hc : c < gridCols g)
    (hd : containsDigit (cellAt g r c) = true)
    (ho : r = 0 ∨ cellAt g (r - 1) c = "#")
    (hl : 2 ≤ (getSlotPositions g r c Dir.down).length) :
    lookupA (generateSlots g) (cellAt g r c ++ "DOWN") =
      some (getSlotPositions g r c Dir.down) := by
  obtain ⟨L1, L2, hL, _, hD⟩ := scan_split_write hu hr hc hd
  unfold generateSlots
  rw [hL, List.foldl_append, List.foldl_cons]
  rw [foldl_slotStep_lookup L2 _ hD]
  exact slotStep_lookup_down hd ho hl

theorem generateSlots_none_across {g : Grid} (hu : UniqueNumbers g)
    {r c : Nat} (hr : r < gridRows g) (hc : c < gridCols g)
    (hd : containsDigit (cellAt g r c) = true)
    (hbad : ¬((c = 0 ∨ cellAt g r (c - 1) = "#") ∧
      2 ≤ (getSlotPositions g r c Dir.across).length)) :
    lookupA (generateSlots g) (cellAt g r c ++ "ACROSS") = none := by
  cases hlk : lookupA (generateSlots g) (cellAt g r c ++ "ACROSS") with
  | none => rfl
  | some ps =>
    exfalso
    obtain ⟨r2, c2, hr2, hc2, hd2, hor⟩ :=
      generateSlots_origin _ (lookupA_mem _ _ _ hlk)
    rcases hor with ⟨h1, h2, h3, h4⟩ | ⟨h1, _, _, _⟩
    · have hvv := string_append_right_inj h1
      have hpq : ((r, c) : Pos) = (r2, c2) :=
        hu (r, c) (mem_scanOrder.mpr ⟨hr, hc⟩) (r2, c2) (mem_scanOrder.mpr ⟨hr2, hc2⟩)
          hd hd2 hvv
      have hre : r = r2 := congrArg Prod.fst hpq
      have hce : c = c2 := congrArg Prod.snd hpq
      subst hre; subst hce
      rw [h3] at h4
      exact hbad ⟨h2, h4⟩
    · exact append_ACROSS_ne_DOWN _ _ h1

theorem generateSlots_none_down {g : Grid} (hu : UniqueNumbers g)
    {r c : Nat} (hr : r < gridRows g) (hc : c < gridCols g)
    (hd : containsDigit (cellAt g r c) = true)
    (hbad : ¬((r = 0 ∨ cellAt g (r - 1) c = "#") ∧
      2 ≤ (getSlotPositions g r c Dir.down).length)) :
    lookupA (generateSlots g) (cellAt g r c ++ "DOWN") = none := by
  cases hlk : lookupA (generateSlots g) (cellAt g r c ++ "DOWN") with
  | none => rfl
  | some ps =>
    exfalso
    obtain ⟨r2, c2, hr2, hc2, hd2, hor⟩ :=
      generateSlots_origin _ (lookupA_mem _ _ _ hlk)
    rcases hor with ⟨h1, _, _, _⟩ | ⟨h1, h2, h3, h4⟩
    · exact append_ACROSS_ne_DOWN _ _ h1.symm
    · have hvv := string_append_right_inj h1
      have hpq : ((r, c) : Pos) = (r2, c2) :=
        hu (r, c) (mem_scanOrder.mpr ⟨hr, hc⟩) (r2, c2) (mem_scanOrder.mpr ⟨hr2, hc2⟩)
          hd hd2 hvv
      have hre : r = r2 := congrArg Prod.fst hpq
      have hce : c = c2 := congrArg Prod.snd hpq
      subst hre; subst hce
      rw [h3] at h4
      exact hbad ⟨h2, h4⟩

/-- C6. Over any rectangular grid with uniquely numbered cells, slot
extraction emits `<N>ACROSS` from a numbered cell exactly when the cell's
left neighbor is the boundary or a block and the rightward walk collects at
least two cells — the emitted positions being exactly that walk — and
symmetrically for `<N>DOWN` with the up neighbor and the downward walk; a
walk of length 1 (or an interior numbered cell) yields no slot of that
name. The walks collect precisely the contiguous run of in-range non-block
cells, stopping at the boundary or the first block. -/
theorem c6_slot_extraction (g : Grid) (hrect : validateGrid g = true)
    (hu : UniqueNumbers g) :
    (∀ e ∈ generateSlots g, SlotOrigin g e) ∧
    (∀ r c, r < gridRows g → c < gridCols g → containsDigit (cellAt g r c) = true →
      (((c = 0 ∨ cellAt g r (c - 1) = "#") ∧
          2 ≤ (getSlotPositions g r c Dir.across).length) →
        lookupA (generateSlots g) (cellAt g r c ++ "ACROSS") =
          some (getSlotPositions g r c Dir.across)) ∧
      (¬((c = 0 ∨ cellAt g r (c - 1) = "#") ∧
          2 ≤ (getSlotPositions g r c Dir.across).length) →
        lookupA (generateSlots g) (cellAt g r c ++ "ACROSS") = none)) ∧
    (∀ r c, r < gridRows g → c < gridCols g → containsDigit (cellAt g r c) = true →
      (((r = 0 ∨ cellAt g (r - 1) c = "#") ∧
          2 ≤ (getSlotPositions g r c Dir.down).length) →
        lookupA (generateSlots g) (cellAt g r c ++ "DOWN") =
          some (getSlotPositions g r c Dir.down)) ∧
      (¬((r = 0 ∨ cellAt g (r - 1) c = "#") ∧
          2 ≤ (getSlotPositions g r c Dir.down).length) →
        lookupA (generateSlots g) (cellAt g r c ++ "DOWN") = none)) ∧
    (∀ r c, ∃ n, getSlotPositions g r c Dir.across =
        (List.range n).map (fun k => (r, c + k)) ∧
      (∀ k, k < n → r < gridRows g ∧ c + k < gridCols g ∧ cellAt g r (c + k) ≠ "#") ∧
      ¬(r < gridRows g ∧ c + n < gridCols g ∧ cellAt g r (c + n) ≠ "#")) ∧
    (∀ r c, ∃ n, getSlotPositions g r c Dir.down =
        (List.range n).map (fun k => (r + k, c)) ∧
      (∀ k, k < n → r + k < gridRows g ∧ c < gridCols g ∧ cellAt g (r + k) c ≠ "#") ∧
      ¬(r + n < gridRows g ∧ c < gridCols g ∧ cellAt g (r + n) c ≠ "#")) := by
  refine ⟨generateSlots_origin, ?_, ?_, fun r c => across_run g r c, fun r c => down_run g r c⟩
  · intro r c hr hc hd
    exact ⟨fun hok => generateSlots_lookup_across hu hr hc hd hok.1 hok.2,
      fun hbad => generateSlots_none_across hu hr hc hd hbad⟩
  · intro r c hr hc hd
    exact ⟨fun hok => generateSlots_lookup_down hu hr hc hd hok.1 hok.2,
      fun hbad => generateSlots_none_down hu hr hc hd hbad⟩

/-- Witness for C6 at the example grid (one numbered cell opening both an
across and a down slot). -/
theorem c6_slot_extraction_witness :
    (∀ e ∈ generateSlots exG, SlotOrigin exG e) ∧
    (∀ r c, r < gridRows exG → c < gridCols exG → containsDigit (cellAt exG r c) = true →
      (((c = 0 ∨ cellAt exG r (c - 1) = "#") ∧
          2 ≤ (getSlotPositions exG r c Dir.across).length) →
        lookupA (generateSlots exG) (cellAt exG r c ++ "ACROSS") =
          some (getSlotPositions exG r c Dir.across)) ∧
      (¬((c = 0 ∨ cellAt exG r (c - 1) = "#") ∧
          2 ≤ (getSlotPositions exG r c Dir.across).length) →
        lookupA (generateSlots exG) (cellAt exG r c ++ "ACROSS") = none)) ∧
    (∀ r c, r < gridRows exG → c < gridCols exG → containsDigit (cellAt exG r c) = true →
      (((r = 0 ∨ cellAt exG (r - 1) c = "#") ∧
          2 ≤ (getSlotPositions exG r c Dir.down).length) →
        lookupA (generateSlots exG) (cellAt exG r c ++ "DOWN") =
          some (getSlotPositions exG r c Dir.down)) ∧
      (¬((r = 0 ∨ cellAt exG (r - 1) c = "#") ∧
          2 ≤ (getSlotPositions exG r c Dir.down).length) →
        lookupA (generateSlots exG) (cellAt exG r c ++ "DOWN") = none)) ∧
    (∀ r c, ∃ n, getSlotPositions exG r c Dir.across =
        (List.range n).map (fun k => (r, c + k)) ∧
      (∀ k, k < n → r < gridRows exG ∧ c + k < gridCols exG ∧ cellAt exG r (c + k) ≠ "#") ∧
      ¬(r < gridRows exG ∧ c + n < gridCols exG ∧ cellAt exG r (c + n) ≠ "#")) ∧
    (∀ r c, ∃ n, getSlotPositions exG r c Dir.down =
        (List.range n).map (fun k => (r + k, c)) ∧
      (∀ k, k < n → r + k < gridRows exG ∧ c < gridCols exG ∧ cellAt exG (r + k) c ≠ "#") ∧
      ¬(r + n < gridRows exG ∧ c < gridCols exG ∧ cellAt exG (r + n) c ≠ "#")) :=
  c6_slot_extraction exG (by decide)
    (by decide :
      ∀ p1 ∈ scanOrder exG, ∀ p2 ∈ scanOrder exG,
        containsDigit (cellAt exG p1.1 p1.2) = true →
        containsDigit (cellAt exG p2.1 p2.2) = true →
        cellAt exG p1.1 p1.2 = cellAt exG p2.1 p2.2 → p1 = p2)


-- ----------------------------------------------------------------
-- C10: grid-derived slots share at most one cell; overlap lists are
-- singletons
-- ----------------------------------------------------------------

theorem nodupKeys_objSet {α β : Type} [DecidableEq α] (l : List (α × β)) (k : α) (v : β)
    (h : NodupKeys l) : NodupKeys (objSet l k v) := by
  by_cases hk : k ∈ keysOf l
  · exact nodupKeys_objSet_mem _ _ _ hk h
  · rw [objSet_fresh_append _ _ _ hk]
    exact nodupKeys_append_fresh _ _ _ hk h

theorem nodupKeys_generateSlots (g : Grid) : NodupKeys (generateSlots g) := by
  unfold generateSlots
  refine foldl_preserve NodupKeys (slotStep g) ?_ _ [] (by simp [NodupKeys, keysOf])
  intro m p hm
  simp only [slotStep]
  split
  · have hm1 : NodupKeys (if p.2 = 0 ∨ cellAt g p.1 (p.2 - 1) = "#" then
        (if 2 ≤ (getSlotPositions g p.1 p.2 Dir.across).length then
          objSet m (cellAt g p.1 p.2 ++ "ACROSS") (getSlotPositions g p.1 p.2 Dir.across)
        else m)
      else m) := by
      split
      · split
        · exact nodupKeys_objSet _ _ _ hm
        · exact hm
      · exact hm
    split
    · split
      · exact nodupKeys_objSet _ _ _ hm1
      · exact hm1
    · exact hm1
  · exact hm

theorem nodupPositions_generateSlots (g : Grid) : NodupPositions (generateSlots g) := by
  intro e he
  obtain ⟨r, c, _, _, _, hor⟩ := generateSlots_origin e he
  rcases hor with ⟨_, _, hps, _⟩ | ⟨_, _, hps, _⟩
  · rw [hps]
    obtain ⟨n, he1, _, _⟩ := across_run g r c
    rw [he1]
    refine (List.nodup_range n).map ?_
    intro a b hab
    have := congrArg Prod.snd hab
    simp only at this
    omega
  · rw [hps]
    obtain ⟨n, he1, _, _⟩ := down_run g r c
    rw [he1]
    refine (List.nodup_range n).map ?_
    intro a b hab
    have := congrArg Prod.fst hab
    simp only at this
    omega

/-- Two emitted across runs in the same row cannot meet: the later run's
opening cell would sit strictly inside the earlier run, whose cells are all
non-blocks, contradicting the opening condition. -/
theorem across_clash_aux {g : Grid} {r c1 c2 n1 k1 k2 : Nat}
    (hcond1 : ∀ k, k < n1 → r < gridRows g ∧ c1 + k < gridCols g ∧ cellAt g r (c1 + k) ≠ "#")
    (ho2 : c2 = 0 ∨ cellAt g r (c2 - 1) = "#")
    (hlt : c1 < c2) (hk1 : k1 < n1) (heq : c1 + k1 = c2 + k2) : False := by
  have hj : c2 - 1 - c1 < n1 := by omega
  have hcnd := hcond1 (c2 - 1 - c1) hj
  have hblk : cellAt g r (c2 - 1) = "#" := ho2.resolve_left (by omega)
  have hix : c1 + (c2 - 1 - c1) = c2 - 1 := by omega
  rw [hix] at hcnd
  exact hcnd.2.2 hblk

theorem down_clash_aux {g : Grid} {c r1 r2 n1 k1 k2 : Nat}
    (hcond1 : ∀ k, k < n1 → r1 + k < gridRows g ∧ c < gridCols g ∧ cellAt g (r1 + k) c ≠ "#")
    (ho2 : r2 = 0 ∨ cellAt g (r2 - 1) c = "#")
    (hlt : r1 < r2) (hk1 : k1 < n1) (heq : r1 + k1 = r2 + k2) : False := by
  have hj : r2 - 1 - r1 < n1 := by omega
  have hcnd := hcond1 (r2 - 1 - r1) hj
  have hblk : cellAt g (r2 - 1) c = "#" := ho2.resolve_left (by omega)
  have hix : r1 + (r2 - 1 - r1) = r2 - 1 := by omega
  rw [hix] at hcnd
  exact hcnd.2.2 hblk

/-- Any two distinct slots produced by slot extraction share at most one
cell: parallel runs never meet, and perpendicular runs meet only at the
crossing of their fixed row and fixed column. -/
theorem slots_share_le_one {g : Grid} {A B : String} {psA psB : List Pos}
    (hA : (A, psA) ∈ generateSlots g) (hB : (B, psB) ∈ generateSlots g) (hne : A ≠ B) :
    ∀ p, p ∈ psA → p ∈ psB → ∀ q, q ∈ psA → q ∈ psB → p = q := by
  obtain ⟨r1, c1, hr1, hc1, hd1, hor1⟩ := generateSlots_origin _ hA
  obtain ⟨r2, c2, hr2, hc2, hd2, hor2⟩ := generateSlots_origin _ hB
  rcases hor1 with ⟨hn1, ho1, hp1, _⟩ | ⟨hn1, ho1, hp1, _⟩ <;>
    rcases hor2 with ⟨hn2, ho2, hp2, _⟩ | ⟨hn2, ho2, hp2, _⟩
  · -- across / across: no shared cell at all
    intro p hpA hpB _ _ _
    exfalso
    obtain ⟨n1, he1, hcond1, _⟩ := across_run g r1 c1
    obtain ⟨n2, he2, hcond2, _⟩ := across_run g r2 c2
    have hp1x : psA = getSlotPositions g r1 c1 Dir.across := hp1
    have hp2x : psB = getSlotPositions g r2 c2 Dir.across := hp2
    rw [hp1x, he1] at hpA
    rw [hp2x, he2] at hpB
    obtain ⟨k1, hk1, hpk1⟩ := List.mem_map.mp hpA
    obtain ⟨k2, hk2, hpk2⟩ := List.mem_map.mp hpB
    rw [List.mem_range] at hk1 hk2
    have hpe := hpk1.trans hpk2.symm
    have hr : r1 = r2 := congrArg Prod.fst hpe
    have hce : c1 + k1 = c2 + k2 := congrArg Prod.snd hpe
    subst hr
    by_cases hcc : c1 = c2
    · subst hcc
      exact hne ((hn1.trans hn2.symm :
        ((A, psA).1 : String) = ((B, psB).1 : String)))
    · rcases Nat.lt_or_ge c1 c2 with hlt | hge
      · exact across_clash_aux hcond1 ho2 hlt hk1 hce
      · exact across_clash_aux hcond2 ho1 (by omega) hk2 hce.symm
  · -- across / down: only the crossing cell can be shared
    intro p hpA hpB q hqA hqB
    obtain ⟨n1, he1, _, _⟩ := across_run g r1 c1
    obtain ⟨n2, he2, _, _⟩ := down_run g r2 c2
    have hp1x : psA = getSlotPositions g r1 c1 Dir.across := hp1
    have hp2x : psB = getSlotPositions g r2 c2 Dir.down := hp2
    rw [hp1x, he1] at hpA hqA
    rw [hp2x, he2] at hpB hqB
    obtain ⟨k1, _, hpk1⟩ := List.mem_map.mp hpA
    obtain ⟨k2, _, hpk2⟩ := List.mem_map.mp hpB
    obtain ⟨j1, _, hqk1⟩ := List.mem_map.mp hqA
    obtain ⟨j2, _, hqk2⟩ := List.mem_map.mp hqB
    have hp1e : p.1 = r1 := by rw [← hpk1]
    have hp2e : p.2 = c2 := by rw [← hpk2]
    have hq1e : q.1 = r1 := by rw [← hqk1]
    have hq2e : q.2 = c2 := by rw [← hqk2]
    cases p; cases q
    simp only at hp1e hp2e hq1e hq2e
    rw [hp1e, hp2e, hq1e, hq2e]
  · -- down / across: only the crossing cell can be shared
    intro p hpA hpB q hqA hqB
    obtain ⟨n1, he1, _, _⟩ := down_run g r1 c1
    obtain ⟨n2, he2, _, _⟩ := across_run g r2 c2
    have hp1x : psA = getSlotPositions g r1 c1 Dir.down := hp1
    have hp2x : psB = getSlotPositions g r2 c2 Dir.across := hp2
    rw [hp1x, he1] at hpA hqA
    rw [hp2x, he2] at hpB hqB
    obtain ⟨k1, _, hpk1⟩ := List.mem_map.mp hpA
    obtain ⟨k2, _, hpk2⟩ := List.mem_map.mp hpB
    obtain ⟨j1, _, hqk1⟩ := List.mem_map.mp hqA
    obtain ⟨j2, _, hqk2⟩ := List.mem_map.mp hqB
    have hp1e : p.1 = r2 := by rw [← hpk2]
    have hp2e : p.2 = c1 := by rw [← hpk1]
    have hq1e : q.1 = r2 := by rw [← hqk2]
    have hq2e : q.2 = c1 := by rw [← hqk1]
    cases p; cases q
    simp only at hp1e hp2e hq1e hq2e
    rw [hp1e, hp2e, hq1e, hq2e]
  · -- down / down: no shared cell at all
    intro p hpA hpB _ _ _
    exfalso
    obtain ⟨n1, he1, hcond1, _⟩ := down_run g r1 c1
    obtain ⟨n2, he2, hcond2, _⟩ := down_run g r2 c2
    have hp1x : psA = getSlotPositions g r1 c1 Dir.down := hp1
    have hp2x : psB = getSlotPositions g r2 c2 Dir.down := hp2
    rw [hp1x, he1] at hpA
    rw [hp2x, he2] at hpB
    obtain ⟨k1, hk1, hpk1⟩ := List.mem_map.mp hpA
    obtain ⟨k2, hk2, hpk2⟩ := List.mem_map.mp hpB
    rw [List.mem_range] at hk1 hk2
    have hpe := hpk1.trans hpk2.symm
    have hce : c1 = c2 := congrArg Prod.snd hpe
    have hre : r1 + k1 = r2 + k2 := congrArg Prod.fst hpe
    subst hce
    by_cases hrr : r1 = r2
    · subst hrr
      exact hne ((hn1.trans hn2.symm :
        ((A, psA).1 : String) = ((B, psB).1 : String)))
    · rcases Nat.lt_or_ge r1 r2 with hlt | hge
      · exact down_clash_aux hcond1 ho2 hlt hk1 hre
      · exact down_clash_aux hcond2 ho1 (by omega) hk2 hre.symm


/-- Length of an optional overlap list. -/
def olen (o : Option Overlaps) : Nat := (o.getD []).length

/-- The overlap entries feeding the `(A, B)` (or mirrored `(B, A)`)
constraint list. -/
def matchesAB (A B : String) (e : OverlapEntry) : Bool :=
  (decide (e.slotA = A) && decide (e.slotB = B)) ||
  (decide (e.slotA = B) && decide (e.slotB = A))

theorem olen_addConstraintPair {A B : String} (hne : A ≠ B) (cm : CMap) (e : OverlapEntry) :
    olen (cGet (addConstraintPair cm e) A B) =
      olen (cGet cm A B) + (if matchesAB A B e then 1 else 0) := by
  unfold addConstraintPair
  rw [cGet_pushPair]
  by_cases h1 : A = e.slotB ∧ B = e.slotA
  · rw [if_pos h1]
    rw [cGet_pushPair]
    have h3 : ¬(e.slotB = e.slotA ∧ e.slotA = e.slotB) := by
      rintro ⟨hc, -⟩
      exact hne (h1.1.trans (hc.trans h1.2.symm))
    rw [if_neg h3]
    obtain ⟨h1a, h1b⟩ := h1
    subst h1a; subst h1b
    have hm : matchesAB e.slotB e.slotA e = true := by
      simp only [matchesAB]
      have : ¬ e.slotA = e.slotB := fun hc => hne (hc.symm)
      simp [this]
    rw [if_pos hm]
    simp [olen]
  · rw [if_neg h1]
    rw [cGet_pushPair]
    by_cases h2 : A = e.slotA ∧ B = e.slotB
    · rw [if_pos h2]
      obtain ⟨h2a, h2b⟩ := h2
      subst h2a; subst h2b
      have hm : matchesAB e.slotA e.slotB e = true := by simp [matchesAB]
      rw [if_pos hm]
      simp [olen]
    · rw [if_neg h2]
      have hm : matchesAB A B e = false := by
        simp only [matchesAB]
        simp only [Bool.or_eq_false_iff, Bool.and_eq_false_iff]
        constructor
        · rcases Decidable.em (e.slotA = A) with ha | ha
          · right
            simp only [decide_eq_false_iff_not]
            intro hb
            exact h2 ⟨ha.symm, hb.symm⟩
          · left
            simpa using ha
        · rcases Decidable.em (e.slotA = B) with ha | ha
          · right
            simp only [decide_eq_false_iff_not]
            intro hb
            exact h1 ⟨hb.symm, ha.symm⟩
          · left
            simpa using ha
      rw [hm]
      simp

theorem olen_fold {A B : String} (hne : A ≠ B) :
    ∀ (L : List OverlapEntry) (cm : CMap),
      olen (cGet (L.foldl addConstraintPair cm) A B) =
        olen (cGet cm A B) + L.countP (matchesAB A B) := by
  intro L
  induction L with
  | nil => intro cm; simp
  | cons e t ih =>
    intro cm
    rw [List.foldl_cons, ih, olen_addConstraintPair hne, List.countP_cons]
    by_cases hm : matchesAB A B e = true
    · rw [if_pos hm]
      omega
    · rw [if_neg hm]
      omega

theorem countP_flatMap_le_one {α β : Type} (pred : β → Bool) :
    ∀ (L : List α) (f : α → List β), L.Nodup →
      (∀ x ∈ L, (f x).countP pred ≤ 1) →
      (∀ x ∈ L, ∀ y ∈ L, 0 < (f x).countP pred → 0 < (f y).countP pred → x = y) →
      (L.flatMap f).countP pred ≤ 1 := by
  intro L
  induction L with
  | nil => intro f _ _ _; simp
  | cons a t ih =>
    intro f hnd hle huni
    rw [List.flatMap_cons, List.countP_append]
    by_cases hpos : 0 < (f a).countP pred
    · have hzero : (t.flatMap f).countP pred = 0 := by
        rw [List.countP_eq_zero]
        intro b hb
        obtain ⟨x, hx, hbx⟩ := List.mem_flatMap.mp hb
        intro hpb
        have hxpos : 0 < (f x).countP pred :=
          List.countP_pos_iff.mpr ⟨b, hbx, hpb⟩
        have hax := huni a (List.mem_cons_self _ _) x (List.mem_cons_of_mem _ hx) hpos hxpos
        exact (List.nodup_cons.mp hnd).1 (hax ▸ hx)
      rw [hzero]
      have := hle a (List.mem_cons_self _ _)
      omega
    · have h0 : (f a).countP pred = 0 := by omega
      rw [h0]
      have := ih f (List.nodup_cons.mp hnd).2
        (fun x hx => hle x (List.mem_cons_of_mem _ hx))
        (fun x hx y hy => huni x (List.mem_cons_of_mem _ hx) y (List.mem_cons_of_mem _ hy))
      omega

theorem countP_cellPairs_zero_of_absent {A B S : String}
    (hS : S = A ∨ S = B) :
    ∀ (l : List (String × Nat)), l.countP (fun x => x.1 = S) = 0 →
      (cellPairs l).countP (matchesAB A B) = 0 := by
  intro l hcount
  rw [List.countP_eq_zero]
  intro e he
  obtain ⟨l1, l2, hsplit, hmem⟩ := cellPairs_sound he
  intro hmt
  have hin : ∀ x ∈ l, ¬ x.1 = S := by
    have := List.countP_eq_zero.mp hcount
    intro x hx hc
    exact absurd (by simpa using hc) (by simpa using this x hx)
  have hAmem : (e.slotA, e.idxA) ∈ l := by
    rw [hsplit]
    exact List.mem_append.mpr (Or.inr (List.mem_cons_self _ _))
  have hBmem : (e.slotB, e.idxB) ∈ l := by
    rw [hsplit]
    exact List.mem_append.mpr (Or.inr (List.mem_cons_of_mem _ hmem))
  simp only [matchesAB, Bool.or_eq_true, Bool.and_eq_true, decide_eq_true_eq] at hmt
  rcases hS with rfl | rfl
  · rcases hmt with ⟨ha, _⟩ | ⟨_, hb⟩
    · exact hin _ hAmem ha
    · exact hin _ hBmem hb
  · rcases hmt with ⟨_, hb⟩ | ⟨ha, _⟩
    · exact hin _ hBmem hb
    · exact hin _ hAmem ha

theorem countP_cellPairs_le_one {A B : String} (hne : A ≠ B) :
    ∀ (l : List (String × Nat)),
      l.countP (fun x => x.1 = A) ≤ 1 → l.countP (fun x => x.1 = B) ≤ 1 →
      (cellPairs l).countP (matchesAB A B) ≤ 1 := by
  intro l
  induction l with
  | nil => intro _ _; simp [cellPairs]
  | cons x t ih =>
    intro hA hB
    obtain ⟨s, i⟩ := x
    show ((t.map (fun e => (⟨s, i, e.1, e.2⟩ : OverlapEntry))) ++
      cellPairs t).countP (matchesAB A B) ≤ 1
    rw [List.countP_append]
    have hAtail : t.countP (fun y => y.1 = A) ≤ 1 :=
      le_trans (List.Sublist.countP_le _ (List.sublist_cons_self _ _)) hA
    have hBtail : t.countP (fun y => y.1 = B) ≤ 1 :=
      le_trans (List.Sublist.countP_le _ (List.sublist_cons_self _ _)) hB
    by_cases hsA : s = A
    · have hAt : t.countP (fun y => y.1 = A) = 0 := by
        have h2 : t.countP (fun y => y.1 = A) + 1 ≤ 1 := by
          simpa [List.countP_cons, hsA] using hA
        omega
      have hmap : (t.map (fun e => (⟨s, i, e.1, e.2⟩ : OverlapEntry))).countP
          (matchesAB A B) ≤ t.countP (fun y => y.1 = B) := by
        rw [List.countP_map]
        apply List.countP_mono_left
        intro y _ hy
        simp only [Function.comp, matchesAB, hsA, Bool.or_eq_true, Bool.and_eq_true,
          decide_eq_true_eq] at hy
        rcases hy with ⟨-, hb⟩ | ⟨hab, -⟩
        · simpa using hb
        · exact absurd hab hne
      have hcp : (cellPairs t).countP (matchesAB A B) = 0 :=
        countP_cellPairs_zero_of_absent (Or.inl rfl) t hAt
      rw [hcp]
      omega
    · by_cases hsB : s = B
      · have hBt : t.countP (fun y => y.1 = B) = 0 := by
          have h2 : t.countP (fun y => y.1 = B) + 1 ≤ 1 := by
            simpa [List.countP_cons, hsB] using hB
          omega
        have hmap : (t.map (fun e => (⟨s, i, e.1, e.2⟩ : OverlapEntry))).countP
            (matchesAB A B) ≤ t.countP (fun y => y.1 = A) := by
          rw [List.countP_map]
          apply List.countP_mono_left
          intro y _ hy
          simp only [Function.comp, matchesAB, hsB, Bool.or_eq_true, Bool.and_eq_true,
            decide_eq_true_eq] at hy
          rcases hy with ⟨hab, -⟩ | ⟨-, hb⟩
          · exact absurd hab.symm hne
          · simpa using hb
        have hcp : (cellPairs t).countP (matchesAB A B) = 0 :=
          countP_cellPairs_zero_of_absent (Or.inr rfl) t hBt
        rw [hcp]
        omega
      · have hmap : (t.map (fun e => (⟨s, i, e.1, e.2⟩ : OverlapEntry))).countP
            (matchesAB A B) = 0 := by
          rw [List.countP_eq_zero]
          intro e he
          obtain ⟨y, -, rfl⟩ := List.mem_map.mp he
          simp only [matchesAB, Bool.or_eq_true, Bool.and_eq_true, decide_eq_true_eq]
          rintro (⟨ha, -⟩ | ⟨hb, -⟩)
          · exact hsA ha
          · exact hsB hb
        rw [hmap]
        have := ih hAtail hBtail
        omega


theorem matches_at_cell {slots : SlotMap} (hkeys : NodupKeys slots) {A B : String}
    {pe : Pos × List (String × Nat)} (hpe : pe ∈ buildPositionMap slots)
    (hpos : 0 < (cellPairs pe.2).countP (matchesAB A B)) :
    ∃ psA psB, (A, psA) ∈ slots ∧ (B, psB) ∈ slots ∧ pe.1 ∈ psA ∧ pe.1 ∈ psB := by
  obtain ⟨e, he, hm⟩ := List.countP_pos_iff.mp hpos
  obtain ⟨l1, l2, hsplit, hmem⟩ := cellPairs_sound he
  have hAmem : (e.slotA, e.idxA) ∈ pe.2 := by
    rw [hsplit]
    exact List.mem_append.mpr (Or.inr (List.mem_cons_self _ _))
  have hBmem : (e.slotB, e.idxB) ∈ pe.2 := by
    rw [hsplit]
    exact List.mem_append.mpr (Or.inr (List.mem_cons_of_mem _ hmem))
  have hlk : lookupA (buildPositionMap slots) pe.1 = some pe.2 :=
    lookupA_of_mem_nodup (nodupKeys_buildPositionMap slots) (by simpa using hpe)
  simp only [matchesAB, Bool.or_eq_true, Bool.and_eq_true, decide_eq_true_eq] at hm
  rcases hm with ⟨ha, hb⟩ | ⟨ha, hb⟩
  · obtain ⟨psA, hpsA, hgetA⟩ := (mem_entriesAt slots pe.1 A e.idxA).mp
      (by rw [hlk]; simpa using ha ▸ hAmem)
    obtain ⟨psB, hpsB, hgetB⟩ := (mem_entriesAt slots pe.1 B e.idxB).mp
      (by rw [hlk]; simpa using hb ▸ hBmem)
    refine ⟨psA, psB, hpsA, hpsB, ?_, ?_⟩
    · exact mem_of_getElem?_eq (by rw [← List.get?_eq_getElem?]; exact hgetA)
    · exact mem_of_getElem?_eq (by rw [← List.get?_eq_getElem?]; exact hgetB)
  · obtain ⟨psB, hpsB, hgetB⟩ := (mem_entriesAt slots pe.1 B e.idxA).mp
      (by rw [hlk]; simpa using ha ▸ hAmem)
    obtain ⟨psA, hpsA, hgetA⟩ := (mem_entriesAt slots pe.1 A e.idxB).mp
      (by rw [hlk]; simpa using hb ▸ hBmem)
    refine ⟨psA, psB, hpsA, hpsB, ?_, ?_⟩
    · exact mem_of_getElem?_eq (by rw [← List.get?_eq_getElem?]; exact hgetA)
    · exact mem_of_getElem?_eq (by rw [← List.get?_eq_getElem?]; exact hgetB)

theorem countP_matches_le_one {slots : SlotMap} (hkeys : NodupKeys slots)
    (hpos : NodupPositions slots) {A B : String} (hne : A ≠ B)
    (hshare : ∀ psA psB, (A, psA) ∈ slots → (B, psB) ∈ slots →
      ∀ p, p ∈ psA → p ∈ psB → ∀ q, q ∈ psA → q ∈ psB → p = q) :
    (overlapEntries slots).countP (matchesAB A B) ≤ 1 := by
  unfold overlapEntries
  refine countP_flatMap_le_one _ _ _ ?_ ?_ ?_
  · exact List.Nodup.of_map _ (nodupKeys_buildPositionMap slots)
  · intro pe hpe
    have hlk : lookupA (buildPositionMap slots) pe.1 = some pe.2 :=
      lookupA_of_mem_nodup (nodupKeys_buildPositionMap slots) (by simpa using hpe)
    have hA1 := countP_entriesAt_le_one hkeys hpos pe.1 A
    have hB1 := countP_entriesAt_le_one hkeys hpos pe.1 B
    rw [hlk] at hA1 hB1
    simp only [Option.getD_some] at hA1 hB1
    exact countP_cellPairs_le_one hne pe.2 hA1 hB1
  · intro pe1 hpe1 pe2 hpe2 hc1 hc2
    obtain ⟨psA1, psB1, hA1, hB1, hm1A, hm1B⟩ := matches_at_cell hkeys hpe1 hc1
    obtain ⟨psA2, psB2, hA2, hB2, hm2A, hm2B⟩ := matches_at_cell hkeys hpe2 hc2
    have heA : psA1 = psA2 :=
      Option.some.inj ((lookupA_of_mem_nodup hkeys hA1).symm.trans
        (lookupA_of_mem_nodup hkeys hA2))
    have heB : psB1 = psB2 :=
      Option.some.inj ((lookupA_of_mem_nodup hkeys hB1).symm.trans
        (lookupA_of_mem_nodup hkeys hB2))
    have hcell : pe1.1 = pe2.1 :=
      hshare psA1 psB1 hA1 hB1 pe1.1 hm1A hm1B pe2.1 (heA ▸ hm2A) (heB ▸ hm2B)
    have l1 : lookupA (buildPositionMap slots) pe1.1 = some pe1.2 :=
      lookupA_of_mem_nodup (nodupKeys_buildPositionMap slots) (by simpa using hpe1)
    have l2 : lookupA (buildPositionMap slots) pe2.1 = some pe2.2 :=
      lookupA_of_mem_nodup (nodupKeys_buildPositionMap slots) (by simpa using hpe2)
    rw [← hcell] at l2
    have hv := Option.some.inj (l1.symm.trans l2)
    cases pe1; cases pe2
    simp only at hcell hv
    rw [hcell, hv]

theorem generateConstraints_overlap_singleton {g : Grid} {A B : String} {ov : Overlaps}
    (hov : cGet (generateConstraints (generateSlots g)) A B = some ov) : ov.length = 1 := by
  have hkeys := nodupKeys_generateSlots g
  have hposn := nodupPositions_generateSlots g
  have hne : A ≠ B := by
    rintro rfl
    rw [cGet_self_none hkeys hposn A] at hov
    exact absurd hov (by simp)
  have hle := countP_matches_le_one hkeys hposn hne
    (fun psA psB hA hB => slots_share_le_one hA hB hne)
  have hlen : olen (cGet (generateConstraints (generateSlots g)) A B) =
      (overlapEntries (generateSlots g)).countP (matchesAB A B) := by
    unfold generateConstraints
    rw [olen_fold hne]
    simp [olen, cGet, lookupA]
  have hpos1 : 0 < (overlapEntries (generateSlots g)).countP (matchesAB A B) := by
    obtain ⟨e, he, hm⟩ := cGet_some_entry hov
    refine List.countP_pos_iff.mpr ⟨e, he, ?_⟩
    simp only [matchesAB, Bool.or_eq_true, Bool.and_eq_true, decide_eq_true_eq]
    rcases hm with ⟨h1, h2⟩ | ⟨h1, h2⟩
    · exact Or.inl ⟨h1, h2⟩
    · exact Or.inr ⟨h2, h1⟩
  rw [hov] at hlen
  have hov2 : olen (some ov) = ov.length := rfl
  omega

/-- C10. Any two distinct slots extracted from a grid share at most one
cell position; consequently every overlap list stored by constraint
construction over the extracted slot map is a singleton, so the source's
`overlaps.some(...)` filter in `revise` coincides with the `every overlap`
reading on all grid-derived inputs. -/
theorem c10_single_overlap (g : Grid) :
    (∀ A psA B psB, (A, psA) ∈ generateSlots g → (B, psB) ∈ generateSlots g → A ≠ B →
      ∀ p, p ∈ psA → p ∈ psB → ∀ q, q ∈ psA → q ∈ psB → p = q) ∧
    (∀ A B ov, cGet (generateConstraints (generateSlots g)) A B = some ov →
      ov.length = 1) ∧
    (∀ A B ov, cGet (generateConstraints (generateSlots g)) A B = some ov →
      ∀ dom2 w1, reviseKeep ov dom2 w1 =
        ov.all (fun ij => dom2.any (fun w2 => charAt w1 ij.1 == charAt w2 ij.2))) := by
  refine ⟨?_, ?_, ?_⟩
  · intro A psA B psB hA hB hne
    exact slots_share_le_one hA hB hne
  · intro A B ov hov
    exact generateConstraints_overlap_singleton hov
  · intro A B ov hov dom2 w1
    obtain ⟨ij, rfl⟩ := List.length_eq_one.mp (generateConstraints_overlap_singleton hov)
    simp [reviseKeep]

end Crossworder
